import Mathlib

/-!
# Splay tree (Dzejrou/SplayTree, `main.cpp`)

Shallow embedding of the pointer-based splay tree of `main.cpp`.

* Pointers are `Option Nat` (`none` is `nullptr`), memory is a map from
  addresses to nodes, `new Node<T>{key}` takes the next free address.
* The key type is `int`, modelled by `Int` (keys are only compared).
* Every function that dereferences a pointer returns an `Option`; `none`
  stands for a run that does not return normally (a null pointer is
  dereferenced, or a loop is still running when its iteration budget is spent).
-/

namespace Splay

/-! ## Memory -/

/-- A `Node<int>`: a key and the three links. -/
structure Node where
  key : Int
  parent : Option Nat
  left : Option Nat
  right : Option Nat
deriving DecidableEq

/-- Memory: the node stored at every address. -/
abbrev Heap := Nat → Node

/-- The statement `a->parent = v`. -/
def setParent (h : Heap) (a : Nat) (v : Option Nat) : Heap :=
  fun b => if b = a then { h a with parent := v } else h b

/-- The statement `a->left = v`. -/
def setLeft (h : Heap) (a : Nat) (v : Option Nat) : Heap :=
  fun b => if b = a then { h a with left := v } else h b

/-- The statement `a->right = v`. -/
def setRight (h : Heap) (a : Nat) (v : Option Nat) : Heap :=
  fun b => if b = a then { h a with right := v } else h b

/-- The constructor `Node(T k)`: key `k`, all three links null, stored at `a`. -/
def newNode (h : Heap) (a : Nat) (k : Int) : Heap :=
  fun b => if b = a then ⟨k, none, none, none⟩ else h b

/-- What a rotation works on: the memory and the root variable `*tree_root`. -/
structure Mem where
  heap : Heap
  root : Option Nat

/-! ## namespace utils -/

namespace utils

/-- Source: `node->parent->left == node`. -/
def is_left_son (h : Heap) (node : Nat) : Option Bool :=
  match (h node).parent with
  | none => none
  | some p => some (decide ((h p).left = some node))

/-- Source: `node->parent->parent->left == node->parent`. -/
def is_son_of_left_son (h : Heap) (node : Nat) : Option Bool :=
  match (h node).parent with
  | none => none
  | some p =>
    match (h p).parent with
    | none => none
    | some g => some (decide ((h g).left = some p))

/-- Source: `node->parent->right == node`. -/
def is_right_son (h : Heap) (node : Nat) : Option Bool :=
  match (h node).parent with
  | none => none
  | some p => some (decide ((h p).right = some node))

/-- Source: `node->parent->parent->right == node->parent`. -/
def is_son_of_right_son (h : Heap) (node : Nat) : Option Bool :=
  match (h node).parent with
  | none => none
  | some p =>
    match (h p).parent with
    | none => none
    | some g => some (decide ((h g).right = some p))

/-- Source: `is_left_son(node) && is_son_of_left_son(node)` (short-circuit). -/
def is_left_son_of_left_son (h : Heap) (node : Nat) : Option Bool :=
  match is_left_son h node with
  | none => none
  | some false => some false
  | some true => is_son_of_left_son h node

/-- Source: `is_right_son(node) && is_son_of_right_son(node)` (short-circuit). -/
def is_right_son_of_right_son (h : Heap) (node : Nat) : Option Bool :=
  match is_right_son h node with
  | none => none
  | some false => some false
  | some true => is_son_of_right_son h node

/-- Source: `node->parent && !node->parent->parent`. -/
def is_son_of_root (h : Heap) (node : Nat) : Bool :=
  match (h node).parent with
  | none => false
  | some p => decide ((h p).parent = none)

/-- Source: `is_right_son(node) && is_son_of_left_son(node)` (short-circuit). -/
def is_right_son_of_left_son (h : Heap) (node : Nat) : Option Bool :=
  match is_right_son h node with
  | none => none
  | some false => some false
  | some true => is_son_of_left_son h node

/-- Source: `is_left_son(node) && is_son_of_right_son(node)` (short-circuit). -/
def is_left_son_of_right_son (h : Heap) (node : Nat) : Option Bool :=
  match is_left_son h node with
  | none => none
  | some false => some false
  | some true => is_son_of_right_son h node

/-- Source: `SplayComparator::operator()`: `a.key < key`. -/
def SplayComparator (a : Node) (key : Int) : Bool :=
  decide (a.key < key)

end utils

/-! ## SplayTreeRotator -/

namespace SplayTreeRotator

/-- Source: `rotate_left(node, tree_root)`. `tree_root` is the pointer to the root
variable: `none` when that pointer is null, `some ()` when it points to
`m.root`. -/
def rotate_left (node : Option Nat) (tree_root : Option Unit) (m : Mem) : Option Mem :=
  match node, tree_root with
  | some n, some _ =>
    match m.root with
    | none => some m
    | some _ =>
      let right := (m.heap n).right
      let h1 : Heap :=
        match right with
        | none => m.heap
        | some r =>
          let h : Heap :=
            match (m.heap r).left with
            | some rl => setParent m.heap rl (some n)
            | none => m.heap
          let h : Heap := setRight h n (h r).left
          let h : Heap := setLeft h r (some n)
          setParent h r (h n).parent
      match (h1 n).parent with
      | none => some ⟨setParent h1 n right, right⟩
      | some p =>
        match utils.is_left_son h1 n with
        | none => none
        | some true => some ⟨setParent (setLeft h1 p right) n right, m.root⟩
        | some false => some ⟨setParent (setRight h1 p right) n right, m.root⟩
  | _, _ => some m

/-- Source: `rotate_right(node, tree_root)`; unlike `rotate_left` it does not test
`*tree_root`. -/
def rotate_right (node : Option Nat) (tree_root : Option Unit) (m : Mem) : Option Mem :=
  match node, tree_root with
  | some n, some _ =>
    let left := (m.heap n).left
    let h1 : Heap :=
      match left with
      | none => m.heap
      | some l =>
        let h : Heap :=
          match (m.heap l).right with
          | some lr => setParent m.heap lr (some n)
          | none => m.heap
        let h : Heap := setLeft h n (h l).right
        let h : Heap := setRight h l (some n)
        setParent h l (h n).parent
    match (h1 n).parent with
    | none => some ⟨setParent h1 n left, left⟩
    | some p =>
      match utils.is_left_son h1 n with
      | none => none
      | some true => some ⟨setParent (setLeft h1 p left) n left, m.root⟩
      | some false => some ⟨setParent (setRight h1 p left) n left, m.root⟩
  | _, _ => some m

end SplayTreeRotator

open SplayTreeRotator

/-! ## Splay policies -/

namespace DoubleRotationSplayPolicy

/-- One pass of the body of `while(node->parent)`, `node->parent` being `p`. -/
def body (node p : Nat) (m : Mem) : Option Mem :=
  if utils.is_son_of_root m.heap node then
    match utils.is_left_son m.heap node with
    | none => none
    | some true => rotate_right (some p) (some ()) m
    | some false => rotate_left (some p) (some ()) m
  else
    match utils.is_left_son_of_left_son m.heap node with
    | none => none
    | some true =>
      (rotate_right (m.heap p).parent (some ()) m).bind fun m1 =>
        rotate_right (m1.heap node).parent (some ()) m1
    | some false =>
      match utils.is_right_son_of_right_son m.heap node with
      | none => none
      | some true =>
        (rotate_left (m.heap p).parent (some ()) m).bind fun m1 =>
          rotate_left (m1.heap node).parent (some ()) m1
      | some false =>
        match utils.is_left_son_of_right_son m.heap node with
        | none => none
        | some true =>
          (rotate_right (some p) (some ()) m).bind fun m1 =>
            rotate_left (m1.heap node).parent (some ()) m1
        | some false =>
          match utils.is_right_son_of_left_son m.heap node with
          | none => none
          | some true =>
            (rotate_left (some p) (some ()) m).bind fun m1 =>
              rotate_right (m1.heap node).parent (some ()) m1
          | some false => some m

/-- The loop `while(node->parent) { ... }`, at most `fuel` tests of the
condition. -/
def loop : Nat → Nat → Mem → Option Mem
  | 0, _, _ => none
  | fuel + 1, node, m =>
    match (m.heap node).parent with
    | none => some m
    | some p => (body node p m).bind (loop fuel node)

/-- Source: `DoubleRotationSplayPolicy::splay(node, root)`. -/
def splay (fuel : Nat) (node : Option Nat) (root : Option Unit) (m : Mem) : Option Mem :=
  match node, root with
  | some n, some _ =>
    match (m.heap n).parent with
    | none => some m
    | some _ => loop fuel n m
  | _, _ => some m

end DoubleRotationSplayPolicy

namespace NaiveSplayPolicy

/-- One pass of the body of `while(node->parent)`, `node->parent` being `p`. -/
def body (node p : Nat) (m : Mem) : Option Mem :=
  match utils.is_left_son m.heap node with
  | none => none
  | some true => rotate_right (some p) (some ()) m
  | some false => rotate_left (some p) (some ()) m

/-- The loop `while(node->parent) { ... }`, at most `fuel` tests of the
condition. -/
def loop : Nat → Nat → Mem → Option Mem
  | 0, _, _ => none
  | fuel + 1, node, m =>
    match (m.heap node).parent with
    | none => some m
    | some p => (body node p m).bind (loop fuel node)

/-- Source: `NaiveSplayPolicy::splay(node, root)`. -/
def splay (fuel : Nat) (node : Option Nat) (root : Option Unit) (m : Mem) : Option Mem :=
  match node, root with
  | some n, some _ =>
    match (m.heap n).parent with
    | none => some m
    | some _ => loop fuel n m
  | _, _ => some m

end NaiveSplayPolicy

/-- The template parameter `SplayPolicy` of `SplayTree`. -/
inductive SplayPolicy where
  | DoubleRotation
  | Naive
deriving DecidableEq

/-- Source: `SplayPolicy::splay(node, root)`. -/
def SplayPolicy.splay : SplayPolicy → Nat → Option Nat → Option Unit → Mem → Option Mem
  | .DoubleRotation => DoubleRotationSplayPolicy.splay
  | .Naive => NaiveSplayPolicy.splay

/-! ## SplayTree -/

/-- A `SplayTree<int, SplayPolicy>` with the memory its nodes live in:
`next` is the address the next `new` returns. -/
structure SplayTree where
  heap : Heap
  next : Nat
  root_ : Option Nat
  find_length_ : Nat

namespace SplayTree

/-- The value-initialised tree (`SplayTree<...> tree{}`): no root, counter 0,
nothing allocated. -/
def empty : SplayTree :=
  ⟨fun _ => ⟨0, none, none, none⟩, 0, none, 0⟩

/-- Source: `static T NOT_FOUND{}` for `T = int`. -/
def NOT_FOUND : Int := 0

/-- The loop of `find_node_with_closest_key_`: `(current_node, prev_node,
find_length_)` are the loop variables; at most `fuel` tests of the condition. -/
def closest_loop (h : Heap) (key : Int) : Nat → Option Nat → Option Nat → Nat → Option (Option Nat × Nat)
  | 0, _, _, _ => none
  | fuel + 1, current_node, prev_node, len =>
    match current_node with
    | none => some (prev_node, len)
    | some c =>
      if (h c).key = key then some (some c, len)
      else if utils.SplayComparator (h c) key then closest_loop h key fuel (h c).right (some c) (len + 1)
      else closest_loop h key fuel (h c).left (some c) (len + 1)

/-- Source: `find_node_with_closest_key_(key)`: the node found and the tree with the
counter updated. The loop is given `next + 1` iterations, one more than there
are nodes. -/
def find_node_with_closest_key_ (key : Int) (s : SplayTree) : Option (Option Nat × SplayTree) :=
  (closest_loop s.heap key (s.next + 1) s.root_ s.root_ 0).map fun r =>
    (r.1, { s with find_length_ := r.2 })

/-- Source: `insert(key)`. The splay loop is given `next + 1` iterations. -/
def insert (P : SplayPolicy) (key : Int) (s : SplayTree) : Option SplayTree :=
  match s.root_ with
  | none =>
    some { s with heap := newNode s.heap s.next key, next := s.next + 1, root_ := some s.next }
  | some _ =>
    match find_node_with_closest_key_ key s with
    | none => none
    | some (none, s1) => some s1
    | some (some closest, s1) =>
      match P.splay (s1.next + 1) (some closest) (some ()) ⟨s1.heap, s1.root_⟩ with
      | none => none
      | some m =>
        if (m.heap closest).key = key then
          some { s1 with heap := m.heap, root_ := m.root }
        else
          let tmp := s1.next
          let h : Heap := newNode m.heap tmp key
          match m.root with
          | none => none
          | some r =>
            if utils.SplayComparator (h r) key then
              let h : Heap := setRight h tmp (h r).right
              let h : Heap := setRight h r (some tmp)
              let h : Heap := setParent h tmp (some r)
              let h : Heap :=
                match (h tmp).right with
                | some x => setParent h x (some tmp)
                | none => h
              some { s1 with heap := h, next := tmp + 1, root_ := some r }
            else
              let h : Heap := setLeft h tmp (h r).left
              let h : Heap := setLeft h r (some tmp)
              let h : Heap := setParent h tmp (some r)
              let h : Heap :=
                match (h tmp).left with
                | some x => setParent h x (some tmp)
                | none => h
              some { s1 with heap := h, next := tmp + 1, root_ := some r }

/-- Source: `find(key)`: the returned key and the tree afterwards. -/
def find (P : SplayPolicy) (key : Int) (s : SplayTree) : Option (Int × SplayTree) :=
  match find_node_with_closest_key_ key s with
  | none => none
  | some (closest, s1) =>
    match P.splay (s1.next + 1) closest (some ()) ⟨s1.heap, s1.root_⟩ with
    | none => none
    | some m =>
      let s2 : SplayTree := { s1 with heap := m.heap, root_ := m.root }
      match s2.root_ with
      | none => some (NOT_FOUND, s2)
      | some r =>
        if (s2.heap r).key = key then some ((s2.heap r).key, s2)
        else some (NOT_FOUND, s2)

/-- Source: `contains(key)`: `key == find(key)`, and the tree afterwards. -/
def contains (P : SplayPolicy) (key : Int) (s : SplayTree) : Option (Bool × SplayTree) :=
  (find P key s).map fun r => (decide (key = r.1), r.2)

/-- Source: `validate_(node)`, recursion depth at most `fuel`. -/
def validate_ (h : Heap) : Nat → Option Nat → Option Bool
  | 0, _ => none
  | _ + 1, none => some true
  | fuel + 1, some n =>
    if (match (h n).left with
        | some l => decide ((h l).key > (h n).key)
        | none => false) then some false
    else if (match (h n).right with
        | some r => decide ((h r).key < (h n).key)
        | none => false) then some false
    else
      match validate_ h fuel (h n).right with
      | none => none
      | some false => some false
      | some true => validate_ h fuel (h n).left

/-- Source: `validate()`. The recursion is given depth `next + 1`. -/
def validate (s : SplayTree) : Option Bool :=
  validate_ s.heap (s.next + 1) s.root_

/-- Source: `length_of_last_find()`. -/
def length_of_last_find (s : SplayTree) : Nat :=
  s.find_length_

end SplayTree

/-! ## Sequences of calls -/

/-- A call of the public interface. -/
inductive Call where
  | insert (key : Int)
  | find (key : Int)
  | contains (key : Int)
deriving DecidableEq

/-- The tree after one call. -/
def Call.exec (P : SplayPolicy) : Call → SplayTree → Option SplayTree
  | .insert k, s => s.insert P k
  | .find k, s => (s.find P k).map Prod.snd
  | .contains k, s => (s.contains P k).map Prod.snd

/-- The tree after a sequence of calls, first call first. -/
def run (P : SplayPolicy) : List Call → SplayTree → Option SplayTree
  | [], s => some s
  | c :: cs, s => (c.exec P s).bind (run P cs)

/-! ## Shapes: what a memory holds

The definitions below are used to state and prove properties of the code
above; the code does not depend on them. -/

/-- The shape of a tree laid out in memory: the address and key of every node. -/
inductive Tr where
  | nil
  | node (l : Tr) (a : Nat) (k : Int) (r : Tr)
deriving DecidableEq

/-- The pointer to the root node of a shape. -/
def Tr.ptr : Tr → Option Nat
  | .nil => none
  | .node _ a _ _ => some a

/-- The addresses of a shape, in order. -/
def Tr.addrs : Tr → List Nat
  | .nil => []
  | .node l a _ r => l.addrs ++ a :: r.addrs

/-- The keys of a shape, in order. -/
def Tr.keys : Tr → List Int
  | .nil => []
  | .node l _ k r => l.keys ++ k :: r.keys

/-- Memory `h` holds the shape `t` below a node (or root variable) `par`:
every node has its key, its two child links and its parent link. -/
def Models (h : Heap) : Option Nat → Tr → Prop
  | _, .nil => True
  | par, .node l a k r =>
    (h a).key = k ∧ (h a).parent = par ∧ (h a).left = l.ptr ∧ (h a).right = r.ptr ∧
      Models h (some a) l ∧ Models h (some a) r

/-- One step of a path from a node up to the root: the parent, its key, the
sibling subtree and the side the path came from. -/
inductive Frame where
  | L (a : Nat) (k : Int) (r : Tr)
  | R (l : Tr) (a : Nat) (k : Int)

/-- The parent node of a step. -/
def Frame.addr : Frame → Nat
  | .L a _ _ => a
  | .R _ a _ => a

/-- The shape obtained by hanging `t` below the step. -/
def Frame.fill (t : Tr) : Frame → Tr
  | .L a k r => .node t a k r
  | .R l a k => .node l a k t

/-- The whole shape: `t` hung below the path `fs` (nearest parent first). -/
def plug (t : Tr) : List Frame → Tr
  | [] => t
  | f :: fs => plug (f.fill t) fs

/-- The parent pointer of the node under the path. -/
def top : List Frame → Option Nat
  | [] => none
  | f :: _ => some f.addr

/-- Addresses that come before the hole, in order. -/
def beforeA : List Frame → List Nat
  | [] => []
  | .L _ _ _ :: fs => beforeA fs
  | .R l a _ :: fs => beforeA fs ++ (l.addrs ++ [a])

/-- Addresses that come after the hole, in order. -/
def afterA : List Frame → List Nat
  | [] => []
  | .L a _ r :: fs => (a :: r.addrs) ++ afterA fs
  | .R _ _ _ :: fs => afterA fs

/-- Keys that come before the hole, in order. -/
def beforeK : List Frame → List Int
  | [] => []
  | .L _ _ _ :: fs => beforeK fs
  | .R l _ k :: fs => beforeK fs ++ (l.keys ++ [k])

/-- Keys that come after the hole, in order. -/
def afterK : List Frame → List Int
  | [] => []
  | .L _ k r :: fs => (k :: r.keys) ++ afterK fs
  | .R _ _ _ :: fs => afterK fs

/-- Memory `h` holds the path `fs` above a hole whose pointer is `c`. -/
def ModelsCtx (h : Heap) : Option Nat → List Frame → Prop
  | _, [] => True
  | c, .L a k r :: fs =>
    (h a).key = k ∧ (h a).parent = top fs ∧ (h a).left = c ∧ (h a).right = r.ptr ∧
      Models h (some a) r ∧ ModelsCtx h (some a) fs
  | c, .R l a k :: fs =>
    (h a).key = k ∧ (h a).parent = top fs ∧ (h a).left = l.ptr ∧ (h a).right = c ∧
      Models h (some a) l ∧ ModelsCtx h (some a) fs

/-- The root pointer of a plugged shape. -/
def rootOf (c : Option Nat) : List Frame → Option Nat
  | [] => c
  | f :: fs => rootOf (some f.addr) fs

/-- Memory and root variable hold exactly the shape `T`, every address once. -/
def Wf (m : Mem) (T : Tr) : Prop :=
  m.root = T.ptr ∧ Models m.heap none T ∧ T.addrs.Nodup

/-- What one pass of a splay loop achieves: the node is nearer to the root
and the tree holds the same nodes in the same order. -/
def Closer (n : Nat) (kn : Int) (T : Tr) (len : Nat) (m1 : Mem) : Prop :=
  ∃ A B fs, Wf m1 (plug (.node A n kn B) fs) ∧ fs.length < len ∧
    (plug (.node A n kn B) fs).addrs = T.addrs ∧ (plug (.node A n kn B) fs).keys = T.keys

/-- What a splay achieves: the node is the root and the tree holds the same
nodes in the same order. -/
def Splayed (n : Nat) (kn : Int) (T : Tr) (m1 : Mem) : Prop :=
  ∃ A B, Wf m1 (.node A n kn B) ∧ (Tr.node A n kn B).addrs = T.addrs ∧
    (Tr.node A n kn B).keys = T.keys

/-- The comparisons made along a search path for `key`: the search went right
at keys below `key` and left at keys above it. -/
def PathInv (key : Int) : List Frame → Prop
  | [] => True
  | .L _ k _ :: fs => key < k ∧ PathInv key fs
  | .R _ _ k :: fs => k < key ∧ PathInv key fs

/-- Where the descent for `key` stops: at a node holding `key`, or at a node
with no child on the side of `key`. -/
def Stop (key : Int) (A : Tr) (kc : Int) (B : Tr) : Prop :=
  kc = key ∨ (kc < key ∧ B = .nil) ∨ (key < kc ∧ A = .nil)

/-- The tree object `s` holds exactly the shape `T`, in allocated memory. -/
def Inv (s : SplayTree) (T : Tr) : Prop :=
  Wf ⟨s.heap, s.root_⟩ T ∧ ∀ a ∈ T.addrs, a < s.next

/-- The key `kc` is `key` itself or its neighbour among the keys `ks`: the
greatest key below `key` or the least key above it. -/
def Nearest (key kc : Int) (ks : List Int) : Prop :=
  kc = key ∨ (kc < key ∧ ∀ x ∈ ks, kc < x → key < x) ∨ (key < kc ∧ ∀ x ∈ ks, x < kc → x < key)

/-- Memory after the branch of `insert` that hangs the new node `tmp` to the
right of the root `r`. -/
def attachRight (h : Heap) (r tmp : Nat) (key : Int) : Heap :=
  let h : Heap := newNode h tmp key
  let h : Heap := setRight h tmp (h r).right
  let h : Heap := setRight h r (some tmp)
  let h : Heap := setParent h tmp (some r)
  match (h tmp).right with
  | some x => setParent h x (some tmp)
  | none => h

/-- Memory after the branch of `insert` that hangs the new node `tmp` to the
left of the root `r`. -/
def attachLeft (h : Heap) (r tmp : Nat) (key : Int) : Heap :=
  let h : Heap := newNode h tmp key
  let h : Heap := setLeft h tmp (h r).left
  let h : Heap := setLeft h r (some tmp)
  let h : Heap := setParent h tmp (some r)
  match (h tmp).left with
  | some x => setParent h x (some tmp)
  | none => h

/-- The shape after `insert(key)` when the descent stopped at `c` (key `kc`)
and the splay left `A2` and `B2` below `c`; `tmp` is the new node. -/
def insertShape (key : Int) (A2 : Tr) (c : Nat) (kc : Int) (B2 : Tr) (tmp : Nat) : Tr :=
  if kc = key then .node A2 c kc B2
  else if kc < key then .node A2 c kc (.node .nil tmp key B2)
  else .node (.node A2 tmp key .nil) c kc B2

/-- The tree object is a well-formed search tree in memory whose keys, in
order, are `ks`. -/
def Holds (s : SplayTree) (ks : List Int) : Prop :=
  ∃ T, Inv s T ∧ T.keys = ks ∧ T.keys.Pairwise (· < ·)

/-- The keys stored after a sequence of calls, in order, starting from the
keys `ks`: only an `insert` of a key not yet stored changes them. -/
def keysAfter : List Call → List Int → List Int
  | [], ks => ks
  | .insert k :: cs, ks => keysAfter cs (if k ∈ ks then ks else ks.orderedInsert (· ≤ ·) k)
  | .find _ :: cs, ks => keysAfter cs ks
  | .contains _ :: cs, ks => keysAfter cs ks

/-- The search-tree property node by node: every key of the left subtree is
smaller than the key of the node, every key of the right subtree is larger. -/
def Tr.Ordered : Tr → Prop
  | .nil => True
  | .node l _ k r => (∀ x ∈ l.keys, x < k) ∧ (∀ x ∈ r.keys, k < x) ∧ l.Ordered ∧ r.Ordered

/-- The keys of `test_3` and `test_4`. -/
def test_data : List Int := [4, 3, 2, 1, 6, 7, 8, 5]

/-- The tree of `test_3` and `test_4` after the insertions. -/
def test_tree (P : SplayPolicy) : SplayTree :=
  (run P (test_data.map Call.insert) SplayTree.empty).getD SplayTree.empty

/-- The nodes that a descent for `key` visits in a shape, root first: it stops
at a node holding `key`, else goes right below smaller keys and left below
larger ones, until there is no child. -/
def Tr.searchPath (key : Int) : Tr → List Nat
  | .nil => []
  | .node l a k r =>
    a :: (if k = key then [] else if k < key then r.searchPath key else l.searchPath key)

/-- In memory `h`, node `n` is `d` parent links below a node without parent. -/
inductive Depth (h : Heap) : Nat → Nat → Prop where
  | root (n : Nat) (hp : (h n).parent = none) : Depth h n 0
  | child (n p d : Nat) (hp : (h n).parent = some p) (hd : Depth h p d) : Depth h n (d + 1)

/-- The search-tree property as the data model words it: at every node the
keys of the left subtree do not exceed the key of the node and the keys of the
right subtree are not below it. -/
def Tr.Valid : Tr → Prop
  | .nil => True
  | .node l _ k r => (∀ x ∈ l.keys, x ≤ k) ∧ (∀ x ∈ r.keys, k ≤ x) ∧ l.Valid ∧ r.Valid

/-- A three-node tree that is not a search tree: the root 5 has the left child
3, whose right child is 10. -/
def skewed_shape : Tr :=
  .node (.node .nil 1 3 (.node .nil 2 10 .nil)) 0 5 .nil

/-- The tree object holding `skewed_shape`: node 5 at address 0, node 3 at
address 1, node 10 at address 2, all links consistent. -/
def skewed_tree : SplayTree :=
  { heap := fun a =>
      if a = 0 then ⟨5, none, some 1, none⟩
      else if a = 1 then ⟨3, some 0, none, some 2⟩
      else if a = 2 then ⟨10, some 1, none, none⟩
      else ⟨0, none, none, none⟩
    next := 3
    root_ := some 0
    find_length_ := 0 }

/-- Two detached nodes and no tree: node 1 at address 1 with the left child
node 2 at address 2; the root variable is null. -/
def rootless_mem : Mem :=
  { heap := fun a =>
      if a = 1 then ⟨1, none, some 2, none⟩
      else if a = 2 then ⟨2, some 1, none, none⟩
      else ⟨0, none, none, none⟩
    root := none }

/-- One pass of the body of the splay loop of a policy. -/
def SplayPolicy.body : SplayPolicy → Nat → Nat → Mem → Option Mem
  | .DoubleRotation => DoubleRotationSplayPolicy.body
  | .Naive => NaiveSplayPolicy.body

/-- The branches of the loop body of `DoubleRotationSplayPolicy::splay`, in
the order of the source; `undefined` is the final `else`. -/
inductive SplayCase where
  | zig
  | zig_zig_left
  | zig_zig_right
  | zig_zag_left_of_right
  | zig_zag_right_of_left
  | undefined
deriving DecidableEq

/-- The branch that the loop body of `DoubleRotationSplayPolicy::splay` takes
for `node`: the same chain of tests as `DoubleRotationSplayPolicy.body`. -/
def DoubleRotationSplayPolicy.branch (node : Nat) (h : Heap) : Option SplayCase :=
  if utils.is_son_of_root h node then some .zig
  else
    match utils.is_left_son_of_left_son h node with
    | none => none
    | some true => some .zig_zig_left
    | some false =>
      match utils.is_right_son_of_right_son h node with
      | none => none
      | some true => some .zig_zig_right
      | some false =>
        match utils.is_left_son_of_right_son h node with
        | none => none
        | some true => some .zig_zag_left_of_right
        | some false =>
          match utils.is_right_son_of_left_son h node with
          | none => none
          | some true => some .zig_zag_right_of_left
          | some false => some .undefined

/-- The memory of `test_1`: nodes 1 to 5 at the addresses 1 to 5, node 1 with
the children 2 and 3, node 3 with the children 4 and 5; the test sets no parent
link. -/
def test_1_heap : Heap := fun a =>
  if a = 1 then ⟨1, none, some 2, some 3⟩
  else if a = 3 then ⟨3, none, some 4, some 5⟩
  else ⟨a, none, none, none⟩

/-- The memory of `test_2`: nodes 1 to 5 at the addresses 1 to 5, node 1 with
the children 2 and 3, node 2 with the children 4 and 5; the test sets no parent
link. -/
def test_2_heap : Heap := fun a =>
  if a = 1 then ⟨1, none, some 2, some 3⟩
  else if a = 2 then ⟨2, none, some 4, some 5⟩
  else ⟨a, none, none, none⟩

/-- Memory `m` is memory `h` (root variable `root`) after a left rotation
around `n` with pivot `p`, the right child of `n`: `p` stands where `n` stood,
`n` is the left child of `p` and has taken over the left subtree of `p` as its
right subtree; nothing else has changed. -/
def RotatedLeft (h : Heap) (root : Option Nat) (n p : Nat) (m : Mem) : Prop :=
  (((h n).parent = none ∧ m.root = some p) ∨
    (∃ q, (h n).parent = some q ∧ m.root = root ∧
      (if (h q).left = some n then (m.heap q).left = some p ∧ (m.heap q).right = (h q).right
       else (m.heap q).right = some p ∧ (m.heap q).left = (h q).left) ∧
      (m.heap q).parent = (h q).parent)) ∧
  (m.heap p).parent = (h n).parent ∧
  (m.heap p).left = some n ∧ (m.heap p).right = (h p).right ∧
  (m.heap n).left = (h n).left ∧ (m.heap n).right = (h p).left ∧
  (m.heap n).parent = some p ∧
  (∀ b, (h p).left = some b → m.heap b = { h b with parent := some n }) ∧
  (∀ x, (m.heap x).key = (h x).key) ∧
  (∀ x, x ≠ n → x ≠ p → (h p).left ≠ some x → (h n).parent ≠ some x → m.heap x = h x)

/-- Memory `m` is memory `h` (root variable `root`) after a right rotation
around `n` with pivot `p`, the left child of `n`: `p` stands where `n` stood,
`n` is the right child of `p` and has taken over the right subtree of `p` as
its left subtree; nothing else has changed. -/
def RotatedRight (h : Heap) (root : Option Nat) (n p : Nat) (m : Mem) : Prop :=
  (((h n).parent = none ∧ m.root = some p) ∨
    (∃ q, (h n).parent = some q ∧ m.root = root ∧
      (if (h q).left = some n then (m.heap q).left = some p ∧ (m.heap q).right = (h q).right
       else (m.heap q).right = some p ∧ (m.heap q).left = (h q).left) ∧
      (m.heap q).parent = (h q).parent)) ∧
  (m.heap p).parent = (h n).parent ∧
  (m.heap p).right = some n ∧ (m.heap p).left = (h p).left ∧
  (m.heap n).right = (h n).right ∧ (m.heap n).left = (h p).right ∧
  (m.heap n).parent = some p ∧
  (∀ b, (h p).right = some b → m.heap b = { h b with parent := some n }) ∧
  (∀ x, (m.heap x).key = (h x).key) ∧
  (∀ x, x ≠ n → x ≠ p → (h p).right ≠ some x → (h n).parent ≠ some x → m.heap x = h x)

/-- Memory `m1` is memory `m`, holding the tree `T`, after the node `n` was
cut off: the slot that held `n` (the root variable when `n` had no parent,
else the child link of its parent that held it) is null, the parent link of `n`
is null and nothing else has changed; the root variable now holds a tree `T1`
without `n` and the nodes below it, which form a tree `D` of their own. -/
def Detached (m : Mem) (T : Tr) (n : Nat) (m1 : Mem) : Prop :=
  ((m.heap n).parent = none → m1.root = none) ∧
  (∀ q, (m.heap n).parent = some q → m1.root = m.root ∧
    (if (m.heap q).left = some n then
      (m1.heap q).left = none ∧ (m1.heap q).right = (m.heap q).right
     else (m1.heap q).right = none ∧ (m1.heap q).left = (m.heap q).left)) ∧
  m1.heap n = { m.heap n with parent := none } ∧
  (∀ x, x ≠ n → (m.heap n).parent ≠ some x → m1.heap x = m.heap x) ∧
  ∃ T1 D, Wf m1 T1 ∧ Models m1.heap none D ∧ D.ptr = some n ∧
    (∀ c, (m.heap n).left = some c ∨ (m.heap n).right = some c → c ∈ D.addrs) ∧
    (∀ a, a ∈ T.addrs ↔ a ∈ T1.addrs ∨ a ∈ D.addrs) ∧ (∀ a ∈ D.addrs, a ∉ T1.addrs)

/-- The key of the root node of a shape. -/
def Tr.key? : Tr → Option Int
  | .nil => none
  | .node _ _ k _ => some k

/-- The check that `validate_` makes, node by node: the key of the left child
does not exceed the key of the node and the key of the right child is not
below it. -/
def Tr.ChildrenOrdered : Tr → Prop
  | .nil => True
  | .node l _ k r =>
    (∀ x, l.key? = some x → x ≤ k) ∧ (∀ x, r.key? = some x → k ≤ x) ∧
      l.ChildrenOrdered ∧ r.ChildrenOrdered

/-! ## Lemmas -/

@[simp] theorem Tr.ptr_nil : Tr.nil.ptr = none := rfl

@[simp] theorem Tr.ptr_node (l : Tr) (a : Nat) (k : Int) (r : Tr) : (Tr.node l a k r).ptr = some a := rfl

theorem plug_ptr (t : Tr) (fs : List Frame) : (plug t fs).ptr = rootOf t.ptr fs := by
  induction fs generalizing t with
  | nil => rfl
  | cons f fs ih => cases f <;> simp [plug, rootOf, ih, Frame.fill, Frame.addr]

theorem plug_addrs (t : Tr) (fs : List Frame) :
    (plug t fs).addrs = beforeA fs ++ t.addrs ++ afterA fs := by
  induction fs generalizing t with
  | nil => simp [plug, beforeA, afterA]
  | cons f fs ih => cases f <;> simp [plug, beforeA, afterA, ih, Frame.fill, Tr.addrs]

theorem plug_keys (t : Tr) (fs : List Frame) :
    (plug t fs).keys = beforeK fs ++ t.keys ++ afterK fs := by
  induction fs generalizing t with
  | nil => simp [plug, beforeK, afterK]
  | cons f fs ih => cases f <;> simp [plug, beforeK, afterK, ih, Frame.fill, Tr.keys]

theorem models_plug (h : Heap) (t : Tr) (fs : List Frame) :
    Models h none (plug t fs) ↔ Models h (top fs) t ∧ ModelsCtx h t.ptr fs := by
  induction fs generalizing t with
  | nil => simp [plug, top, ModelsCtx]
  | cons f fs ih =>
    cases f <;> simp [plug, top, ModelsCtx, ih, Frame.fill, Models, Frame.addr] <;> tauto

/-- Memory that agrees on the addresses of a shape holds the same shape. -/
theorem Models.congr_heap {h h' : Heap} {par : Option Nat} {t : Tr}
    (hM : Models h par t) (hh : ∀ x ∈ t.addrs, h' x = h x) : Models h' par t := by
  induction t generalizing par with
  | nil => trivial
  | node l a k r ihl ihr =>
    obtain ⟨h1, h2, h3, h4, h5, h6⟩ := hM
    have ha : h' a = h a := hh a (by simp [Tr.addrs])
    refine ⟨by rw [ha]; exact h1, by rw [ha]; exact h2, by rw [ha]; exact h3, by rw [ha]; exact h4,
      ihl h5 fun x hx => hh x (by simp [Tr.addrs, hx]), ihr h6 fun x hx => hh x (by simp [Tr.addrs, hx])⟩

/-- Memory that agrees on the addresses of a path holds the same path. -/
theorem ModelsCtx.congr_path {h h' : Heap} {c : Option Nat} {fs : List Frame}
    (hM : ModelsCtx h c fs) (hh : ∀ x, x ∈ beforeA fs ∨ x ∈ afterA fs → h' x = h x) :
    ModelsCtx h' c fs := by
  induction fs generalizing c with
  | nil => trivial
  | cons f fs ih =>
    cases f with
    | L a k r =>
      obtain ⟨h1, h2, h3, h4, h5, h6⟩ := hM
      have ha : h' a = h a := hh a (by simp [afterA])
      refine ⟨by rw [ha]; exact h1, by rw [ha]; exact h2, by rw [ha]; exact h3, by rw [ha]; exact h4,
        h5.congr_heap fun x hx => hh x (by simp [afterA, hx]), ih h6 fun x hx => hh x ?_⟩
      rcases hx with hx | hx <;> simp [afterA, beforeA, hx]
    | R l a k =>
      obtain ⟨h1, h2, h3, h4, h5, h6⟩ := hM
      have ha : h' a = h a := hh a (by simp [beforeA])
      refine ⟨by rw [ha]; exact h1, by rw [ha]; exact h2, by rw [ha]; exact h3, by rw [ha]; exact h4,
        h5.congr_heap fun x hx => hh x (by simp [beforeA, hx]), ih h6 fun x hx => hh x ?_⟩
      rcases hx with hx | hx <;> simp [afterA, beforeA, hx]

theorem rotate_right_eval (h : Heap) (root : Option Nat) (p n : Nat)
    (hl : (h p).left = some n) (hpn : p ≠ n)
    (hb : ∀ b, (h n).right = some b → b ≠ p ∧ b ≠ n)
    (hq : ∀ q, (h p).parent = some q → q ≠ p ∧ q ≠ n ∧ (h n).right ≠ some q) :
    ∃ m, rotate_right (some p) (some ()) ⟨h, root⟩ = some m ∧
      m.root = (if (h p).parent = none then some n else root) ∧
      m.heap n = { h n with right := some p, parent := (h p).parent } ∧
      m.heap p = { h p with left := (h n).right, parent := some n } ∧
      (∀ b, (h n).right = some b → m.heap b = { h b with parent := some p }) ∧
      (∀ q, (h p).parent = some q →
        m.heap q = if (h q).left = some p then { h q with left := some n }
          else { h q with right := some n }) ∧
      (∀ x, x ≠ n → x ≠ p → (h n).right ≠ some x → (h p).parent ≠ some x → m.heap x = h x) := by
  unfold rotate_right
  rcases hr : (h n).right with _ | b <;> rcases hp : (h p).parent with _ | q
  · simp [hl, hr, hp, setParent, setLeft, setRight, hpn, hpn.symm]
    intro x hx1 hx2
    simp [hx1, hx2]
  · obtain ⟨h1, h2, -⟩ := hq q hp
    by_cases hql : (h q).left = some p <;>
    · simp [hl, hr, hp, setParent, setLeft, setRight, hpn, hpn.symm, utils.is_left_son, h1, h2,
        h1.symm, h2.symm, hql]
      intro x hx1 hx2 hx3
      simp [hx1, hx2, Ne.symm hx3]
  · obtain ⟨b1, b2⟩ := hb b hr
    simp [hl, hr, hp, setParent, setLeft, setRight, hpn, hpn.symm, b1, b2, b1.symm, b2.symm]
    intro x hx1 hx2 hx3
    simp [hx1, hx2, Ne.symm hx3]
  · obtain ⟨b1, b2⟩ := hb b hr
    obtain ⟨h1, h2, h3⟩ := hq q hp
    have h4 : b ≠ q := fun e => h3 (by rw [hr, e])
    by_cases hql : (h q).left = some p <;>
    · simp [hl, hr, hp, setParent, setLeft, setRight, hpn, hpn.symm, utils.is_left_son, h1, h2,
        h1.symm, h2.symm, hql, b1, b2, b1.symm, b2.symm, h4, h4.symm]
      intro x hx1 hx2 hx3 hx4
      simp [hx1, hx2, Ne.symm hx3, Ne.symm hx4]

theorem ptr_mem {t : Tr} {b : Nat} (hb : t.ptr = some b) : b ∈ t.addrs := by
  cases t with
  | nil => simp at hb
  | node l a k r => simp at hb; simp [Tr.addrs, hb]

theorem top_mem {fs : List Frame} {q : Nat} (hq : top fs = some q) :
    q ∈ beforeA fs ∨ q ∈ afterA fs := by
  cases fs with
  | nil => simp [top] at hq
  | cons f fs => cases f <;> simp [top, Frame.addr] at hq <;> simp [beforeA, afterA, hq]

theorem nodup_split {α : Type} {b t a : List α} :
    (b ++ t ++ a).Nodup ↔ t.Nodup ∧ (b ++ a).Nodup ∧ ∀ x ∈ t, x ∉ b ∧ x ∉ a := by
  simp only [List.nodup_append, List.mem_append, List.Disjoint]
  constructor
  · rintro ⟨⟨h1, h2, h3⟩, h4, h5⟩
    exact ⟨h2, ⟨h1, h4, fun x hx => h5 (Or.inl hx)⟩, fun x hx => ⟨fun hb => h3 hb hx, h5 (Or.inr hx)⟩⟩
  · rintro ⟨h1, ⟨h2, h3, h4⟩, h5⟩
    exact ⟨⟨h2, h1, fun x hb ht => (h5 x ht).1 hb⟩, h3, fun x hx => hx.elim (fun hb => h4 hb) fun ht => (h5 x ht).2⟩

/-- Changing only the parent link of the root of a shape moves the shape under
another parent. -/
theorem Models.reparent {h h2 : Heap} {par par2 : Option Nat} {t : Tr}
    (hM : Models h par t) (hnd : t.addrs.Nodup)
    (hroot : ∀ b, t.ptr = some b → h2 b = { h b with parent := par2 })
    (hrest : ∀ x ∈ t.addrs, t.ptr ≠ some x → h2 x = h x) : Models h2 par2 t := by
  cases t with
  | nil => trivial
  | node l a k r =>
    obtain ⟨h1, -, h3, h4, h5, h6⟩ := hM
    have ha := hroot a rfl
    simp only [Tr.addrs] at hnd
    have hnd2 := List.nodup_append.1 hnd
    have hal : a ∉ l.addrs := fun hx => hnd2.2.2 hx (by simp)
    have har : a ∉ r.addrs := (List.nodup_cons.1 hnd2.2.1).1
    refine ⟨by rw [ha]; exact h1, by rw [ha], by rw [ha]; exact h3, by rw [ha]; exact h4,
      h5.congr_heap fun x hx => hrest x (by simp [Tr.addrs, hx]) ?_,
      h6.congr_heap fun x hx => hrest x (by simp [Tr.addrs, hx]) ?_⟩
    · simp only [Tr.ptr_node, ne_eq, Option.some.injEq]; rintro rfl; exact hal hx
    · simp only [Tr.ptr_node, ne_eq, Option.some.injEq]; rintro rfl; exact har hx

/-- Replacing, in the nearest parent, the link to the hole moves the path over
another hole. -/
theorem ModelsCtx.rehole {h h2 : Heap} {c : Nat} {c2 : Option Nat} {fs : List Frame}
    (hM : ModelsCtx h (some c) fs) (hnd : (beforeA fs ++ afterA fs).Nodup)
    (hc : c ∉ beforeA fs ∧ c ∉ afterA fs)
    (htop : ∀ q, top fs = some q →
      h2 q = if (h q).left = some c then { h q with left := c2 } else { h q with right := c2 })
    (hrest : ∀ x, x ∈ beforeA fs ∨ x ∈ afterA fs → top fs ≠ some x → h2 x = h x) :
    ModelsCtx h2 c2 fs := by
  cases fs with
  | nil => trivial
  | cons f fs =>
    cases f with
    | L a k r =>
      obtain ⟨h1, h2', h3, h4, h5, h6⟩ := hM
      have ha := htop a rfl
      simp only [h3, if_true] at ha
      simp only [beforeA, afterA] at hnd hrest hc
      have hnd2 := List.nodup_append.1 hnd
      simp only [List.cons_append, List.nodup_cons, List.mem_append, not_or] at hnd2
      refine ⟨by rw [ha]; exact h1, by rw [ha]; exact h2', by rw [ha], by rw [ha]; exact h4,
        h5.congr_heap fun x hx => hrest x (by simp [hx]) ?_, h6.congr_path fun x hx => hrest x ?_ ?_⟩
      · simp only [top, Frame.addr, ne_eq, Option.some.injEq]; rintro rfl; exact hnd2.2.1.1.1 hx
      · rcases hx with hx | hx <;> simp [hx]
      · simp only [top, Frame.addr, ne_eq, Option.some.injEq]; rintro rfl
        rcases hx with hx | hx
        · exact hnd2.2.2 hx (by simp)
        · exact hnd2.2.1.1.2 hx
    | R l a k =>
      obtain ⟨h1, h2', h3, h4, h5, h6⟩ := hM
      have ha := htop a rfl
      simp only [beforeA, afterA] at hnd hrest hc
      have hne : (h a).left ≠ some c := by
        rw [h3]; intro e
        exact hc.1 (by simp [ptr_mem e])
      simp only [hne, if_false] at ha
      have hnd2 := List.nodup_append.1 hnd
      have hnd3 := List.nodup_append.1 hnd2.1
      have hnd4 := List.nodup_append.1 hnd3.2.1
      refine ⟨by rw [ha]; exact h1, by rw [ha]; exact h2', by rw [ha]; exact h3, by rw [ha],
        h5.congr_heap fun x hx => hrest x (by simp [hx]) ?_, h6.congr_path fun x hx => hrest x ?_ ?_⟩
      · simp only [top, Frame.addr, ne_eq, Option.some.injEq]; rintro rfl
        exact hnd4.2.2 hx (by simp)
      · rcases hx with hx | hx <;> simp [hx]
      · simp only [top, Frame.addr, ne_eq, Option.some.injEq]; rintro rfl
        rcases hx with hx | hx
        · exact hnd3.2.2 hx (by simp)
        · exact hnd2.2.2 (by simp) hx

theorem rotate_right_models {h : Heap} {root : Option Nat} {A B C : Tr} {n p : Nat} {kn kp : Int}
    {fs : List Frame}
    (hroot : root = (plug (.node (.node A n kn B) p kp C) fs).ptr)
    (hM : Models h none (plug (.node (.node A n kn B) p kp C) fs))
    (hnd : (plug (.node (.node A n kn B) p kp C) fs).addrs.Nodup) :
    ∃ m, rotate_right (some p) (some ()) ⟨h, root⟩ = some m ∧
      m.root = (plug (.node A n kn (.node B p kp C)) fs).ptr ∧
      Models m.heap none (plug (.node A n kn (.node B p kp C)) fs) := by
  rw [models_plug] at hM
  obtain ⟨⟨p1, p2, p3, p4, ⟨n1, n2, n3, n4, hA, hB⟩, hC⟩, hctx⟩ := hM
  rw [plug_addrs, nodup_split] at hnd
  obtain ⟨ndt, ndc, ndd⟩ := hnd
  simp only [Tr.addrs, List.mem_append, List.mem_cons] at ndd
  simp only [Tr.addrs, List.nodup_append, List.nodup_cons, List.mem_append, List.mem_cons, List.Disjoint] at ndt
  obtain ⟨⟨ndA, ⟨nB, ndB⟩, dAB⟩, ⟨pC, ndC⟩, dABC⟩ := ndt
  have hpn : p ≠ n := fun e => dABC (Or.inr (Or.inl rfl)) (Or.inl e.symm)
  have hden : ∀ x, (x ∈ A.addrs ∨ x = n ∨ x ∈ B.addrs) ∨ x = p ∨ x ∈ C.addrs → top fs ≠ some x :=
    fun x hx e => by have := ndd x hx; have := top_mem e; tauto
  simp only [Tr.ptr_node] at p3 hctx
  obtain ⟨m, hm, hr, en, ep, eb, eq, ex⟩ := rotate_right_eval h root p n p3 hpn
    (fun b hb => by
      rw [n4] at hb
      have hbB := ptr_mem hb
      exact ⟨fun e => dABC (Or.inr (Or.inr hbB)) (Or.inl e), fun e => nB (e ▸ hbB)⟩)
    (fun q hq => by
      rw [p2] at hq
      refine ⟨fun e => hden p (by simp) (e ▸ hq), fun e => hden n (by simp) (e ▸ hq), ?_⟩
      rw [n4]; intro e
      exact hden q (Or.inl (Or.inr (Or.inr (ptr_mem e)))) hq)
  have exA : ∀ x ∈ A.addrs, m.heap x = h x := fun x hx =>
    ex x (fun e => dAB hx (Or.inl e)) (fun e => dABC (Or.inl hx) (Or.inl e))
      (fun e => dAB hx (Or.inr (ptr_mem (n4 ▸ e)))) (p2 ▸ hden x (Or.inl (Or.inl hx)))
  have exC : ∀ x ∈ C.addrs, m.heap x = h x := fun x hx =>
    ex x (fun e => dABC (Or.inr (Or.inl e)) (Or.inr hx)) (fun e => pC (e ▸ hx))
      (fun e => dABC (Or.inr (Or.inr (ptr_mem (n4 ▸ e)))) (Or.inr hx))
      (p2 ▸ hden x (Or.inr (Or.inr hx)))
  have exB : ∀ x ∈ B.addrs, B.ptr ≠ some x → m.heap x = h x := fun x hx hne =>
    ex x (fun e => nB (e ▸ hx)) (fun e => dABC (Or.inr (Or.inr hx)) (Or.inl e))
      (n4 ▸ hne) (p2 ▸ hden x (Or.inl (Or.inr (Or.inr hx))))
  refine ⟨m, hm, ?_, ?_⟩
  · rw [hr, hroot, plug_ptr, plug_ptr, p2]
    cases fs <;> simp [top, rootOf]
  · rw [models_plug]
    refine ⟨⟨by rw [en]; exact n1, by rw [en]; exact p2, by rw [en]; exact n3, by rw [en]; rfl,
      hA.congr_heap exA, ⟨by rw [ep]; exact p1, by rw [ep], by rw [ep]; exact n4, by rw [ep]; exact p4,
        hB.reparent ndB (fun b hb => eb b (n4 ▸ hb)) exB, hC.congr_heap exC⟩⟩, ?_⟩
    refine hctx.rehole ndc (ndd p (by simp)) (fun q hq => eq q (p2 ▸ hq)) fun x hx hne => ?_
    refine ex x ?_ ?_ ?_ (p2 ▸ hne)
    · rintro rfl; have := ndd x (by simp); tauto
    · rintro rfl; have := ndd x (by simp); tauto
    · rw [n4]; intro e; have := ndd x (Or.inl (Or.inr (Or.inr (ptr_mem e)))); tauto

theorem rootOf_some (c : Nat) (fs : List Frame) : ∃ r, rootOf (some c) fs = some r := by
  induction fs generalizing c with
  | nil => exact ⟨c, rfl⟩
  | cons f fs ih => exact ih f.addr

theorem rotate_left_eval (h : Heap) (root : Option Nat) (p n : Nat) (hroot : root ≠ none)
    (hl : (h p).right = some n) (hpn : p ≠ n)
    (hb : ∀ b, (h n).left = some b → b ≠ p ∧ b ≠ n)
    (hq : ∀ q, (h p).parent = some q → q ≠ p ∧ q ≠ n ∧ (h n).left ≠ some q) :
    ∃ m, rotate_left (some p) (some ()) ⟨h, root⟩ = some m ∧
      m.root = (if (h p).parent = none then some n else root) ∧
      m.heap n = { h n with left := some p, parent := (h p).parent } ∧
      m.heap p = { h p with right := (h n).left, parent := some n } ∧
      (∀ b, (h n).left = some b → m.heap b = { h b with parent := some p }) ∧
      (∀ q, (h p).parent = some q →
        m.heap q = if (h q).left = some p then { h q with left := some n }
          else { h q with right := some n }) ∧
      (∀ x, x ≠ n → x ≠ p → (h n).left ≠ some x → (h p).parent ≠ some x → m.heap x = h x) := by
  unfold rotate_left
  obtain ⟨r0, rfl⟩ := Option.ne_none_iff_exists'.1 hroot
  rcases hr : (h n).left with _ | b <;> rcases hp : (h p).parent with _ | q
  · simp [hl, hr, hp, setParent, setLeft, setRight, hpn, hpn.symm]
    intro x hx1 hx2
    simp [hx1, hx2]
  · obtain ⟨h1, h2, -⟩ := hq q hp
    by_cases hql : (h q).left = some p <;>
    · simp [hl, hr, hp, setParent, setLeft, setRight, hpn, hpn.symm, utils.is_left_son, h1, h2,
        h1.symm, h2.symm, hql]
      intro x hx1 hx2 hx3
      simp [hx1, hx2, Ne.symm hx3]
  · obtain ⟨b1, b2⟩ := hb b hr
    simp [hl, hr, hp, setParent, setLeft, setRight, hpn, hpn.symm, b1, b2, b1.symm, b2.symm]
    intro x hx1 hx2 hx3
    simp [hx1, hx2, Ne.symm hx3]
  · obtain ⟨b1, b2⟩ := hb b hr
    obtain ⟨h1, h2, h3⟩ := hq q hp
    have h4 : b ≠ q := fun e => h3 (by rw [hr, e])
    by_cases hql : (h q).left = some p <;>
    · simp [hl, hr, hp, setParent, setLeft, setRight, hpn, hpn.symm, utils.is_left_son, h1, h2,
        h1.symm, h2.symm, hql, b1, b2, b1.symm, b2.symm, h4, h4.symm]
      intro x hx1 hx2 hx3 hx4
      simp [hx1, hx2, Ne.symm hx3, Ne.symm hx4]

theorem rotate_left_models {h : Heap} {root : Option Nat} {A B C : Tr} {n p : Nat} {kn kp : Int}
    {fs : List Frame}
    (hroot : root = (plug (.node A p kp (.node B n kn C)) fs).ptr)
    (hM : Models h none (plug (.node A p kp (.node B n kn C)) fs))
    (hnd : (plug (.node A p kp (.node B n kn C)) fs).addrs.Nodup) :
    ∃ m, rotate_left (some p) (some ()) ⟨h, root⟩ = some m ∧
      m.root = (plug (.node (.node A p kp B) n kn C) fs).ptr ∧
      Models m.heap none (plug (.node (.node A p kp B) n kn C) fs) := by
  rw [models_plug] at hM
  obtain ⟨⟨p1, p2, p3, p4, hA, ⟨n1, n2, n3, n4, hB, hC⟩⟩, hctx⟩ := hM
  rw [plug_addrs, nodup_split] at hnd
  obtain ⟨ndt, ndc, ndd⟩ := hnd
  simp only [Tr.addrs, List.mem_append, List.mem_cons] at ndd
  simp only [Tr.addrs, List.nodup_append, List.nodup_cons, List.mem_append, List.mem_cons, List.Disjoint] at ndt
  obtain ⟨ndA, ⟨pBnC, ndB, ⟨nC, ndC⟩, dBC⟩, dA⟩ := ndt
  have hpn : p ≠ n := fun e => pBnC (Or.inr (Or.inl e))
  have hden : ∀ x, x ∈ A.addrs ∨ x = p ∨ x ∈ B.addrs ∨ x = n ∨ x ∈ C.addrs → top fs ≠ some x :=
    fun x hx e => by have := ndd x hx; have := top_mem e; tauto
  simp only [Tr.ptr_node] at p4 hctx
  have hrt : root ≠ none := by
    rw [hroot, plug_ptr]
    obtain ⟨r, hr⟩ := rootOf_some p fs
    simp [hr]
  obtain ⟨m, hm, hr, en, ep, eb, eq, ex⟩ := rotate_left_eval h root p n hrt p4 hpn
    (fun b hb => by
      rw [n3] at hb
      have hbB := ptr_mem hb
      exact ⟨fun e => pBnC (Or.inl (e ▸ hbB)), fun e => dBC hbB (Or.inl e)⟩)
    (fun q hq => by
      rw [p2] at hq
      refine ⟨fun e => hden p (by simp) (e ▸ hq), fun e => hden n (by simp) (e ▸ hq), ?_⟩
      rw [n3]; intro e
      exact hden q (Or.inr (Or.inr (Or.inl (ptr_mem e)))) hq)
  have exA : ∀ x ∈ A.addrs, m.heap x = h x := fun x hx =>
    ex x (fun e => dA hx (Or.inr (Or.inr (Or.inl e)))) (fun e => dA hx (Or.inl e))
      (fun e => dA hx (Or.inr (Or.inl (ptr_mem (n3 ▸ e))))) (p2 ▸ hden x (Or.inl hx))
  have exC : ∀ x ∈ C.addrs, m.heap x = h x := fun x hx =>
    ex x (fun e => nC (e ▸ hx)) (fun e => pBnC (Or.inr (Or.inr (e ▸ hx))))
      (fun e => dBC (ptr_mem (n3 ▸ e)) (Or.inr hx))
      (p2 ▸ hden x (Or.inr (Or.inr (Or.inr (Or.inr hx)))))
  have exB : ∀ x ∈ B.addrs, B.ptr ≠ some x → m.heap x = h x := fun x hx hne =>
    ex x (fun e => dBC hx (Or.inl e)) (fun e => pBnC (Or.inl (e ▸ hx)))
      (n3 ▸ hne) (p2 ▸ hden x (Or.inr (Or.inr (Or.inl hx))))
  refine ⟨m, hm, ?_, ?_⟩
  · rw [hr, hroot, plug_ptr, plug_ptr, p2]
    cases fs <;> simp [top, rootOf]
  · rw [models_plug]
    refine ⟨⟨by rw [en]; exact n1, by rw [en]; exact p2, by rw [en]; rfl, by rw [en]; exact n4,
      ⟨by rw [ep]; exact p1, by rw [ep], by rw [ep]; exact p3, by rw [ep]; exact n3,
        hA.congr_heap exA, hB.reparent ndB (fun b hb => eb b (n3 ▸ hb)) exB⟩, hC.congr_heap exC⟩, ?_⟩
    refine hctx.rehole ndc (ndd p (by simp)) (fun q hq => eq q (p2 ▸ hq)) fun x hx hne => ?_
    refine ex x ?_ ?_ ?_ (p2 ▸ hne)
    · rintro rfl; have := ndd x (by simp); tauto
    · rintro rfl; have := ndd x (by simp); tauto
    · rw [n3]; intro e; have := ndd x (Or.inr (Or.inr (Or.inl (ptr_mem e)))); tauto

theorem rotate_right_wf {m : Mem} {A B C : Tr} {n p : Nat} {kn kp : Int} (fs : List Frame)
    (hW : Wf m (plug (.node (.node A n kn B) p kp C) fs)) :
    ∃ m1, rotate_right (some p) (some ()) m = some m1 ∧
      Wf m1 (plug (.node A n kn (.node B p kp C)) fs) := by
  obtain ⟨h1, h2, h3⟩ := hW
  obtain ⟨m1, e1, e2, e3⟩ := rotate_right_models h1 h2 h3
  refine ⟨m1, e1, e2, e3, ?_⟩
  rw [plug_addrs] at h3 ⊢
  simpa [Tr.addrs] using h3

theorem rotate_left_wf {m : Mem} {A B C : Tr} {n p : Nat} {kn kp : Int} (fs : List Frame)
    (hW : Wf m (plug (.node A p kp (.node B n kn C)) fs)) :
    ∃ m1, rotate_left (some p) (some ()) m = some m1 ∧
      Wf m1 (plug (.node (.node A p kp B) n kn C) fs) := by
  obtain ⟨h1, h2, h3⟩ := hW
  obtain ⟨m1, e1, e2, e3⟩ := rotate_left_models h1 h2 h3
  refine ⟨m1, e1, e2, e3, ?_⟩
  rw [plug_addrs] at h3 ⊢
  simpa [Tr.addrs] using h3

/-- Links of a node that is a left child. -/
theorem wf_left_child {m : Mem} {A B C : Tr} {n p : Nat} {kn kp : Int} {fs : List Frame}
    (hW : Wf m (plug (.node A n kn B) (.L p kp C :: fs))) :
    (m.heap n).parent = some p ∧ (m.heap p).left = some n ∧ (m.heap p).right ≠ some n ∧
      (m.heap p).parent = top fs := by
  obtain ⟨-, h2, h3⟩ := hW
  simp only [plug, Frame.fill] at h2 h3
  rw [models_plug] at h2
  obtain ⟨⟨-, p2, p3, p4, ⟨-, n2, -⟩, -⟩, -⟩ := h2
  rw [plug_addrs, nodup_split] at h3
  refine ⟨n2, p3, ?_, p2⟩
  rw [p4]; intro e
  have hn := ptr_mem e
  have := h3.1
  simp only [Tr.addrs, List.nodup_append, List.nodup_cons, List.mem_append, List.mem_cons,
    List.Disjoint] at this
  exact this.2.2 (Or.inr (Or.inl rfl)) (Or.inr hn)

/-- Links of a node that is a right child. -/
theorem wf_right_child {m : Mem} {A B C : Tr} {n p : Nat} {kn kp : Int} {fs : List Frame}
    (hW : Wf m (plug (.node A n kn B) (.R C p kp :: fs))) :
    (m.heap n).parent = some p ∧ (m.heap p).right = some n ∧ (m.heap p).left ≠ some n ∧
      (m.heap p).parent = top fs := by
  obtain ⟨-, h2, h3⟩ := hW
  simp only [plug, Frame.fill] at h2 h3
  rw [models_plug] at h2
  obtain ⟨⟨-, p2, p3, p4, -, ⟨-, n2, -⟩⟩, -⟩ := h2
  rw [plug_addrs, nodup_split] at h3
  refine ⟨n2, p4, ?_, p2⟩
  rw [p3]; intro e
  have hn := ptr_mem e
  have := h3.1
  simp only [Tr.addrs, List.nodup_append, List.nodup_cons, List.mem_append, List.mem_cons,
    List.Disjoint] at this
  exact this.2.2 hn (Or.inr (Or.inr (Or.inl rfl)))

/-- The parent link of the node under a path. -/
theorem wf_parent {m : Mem} {A B : Tr} {n : Nat} {kn : Int} {fs : List Frame}
    (hW : Wf m (plug (.node A n kn B) fs)) : (m.heap n).parent = top fs := by
  obtain ⟨-, h2, -⟩ := hW
  rw [models_plug] at h2
  exact h2.1.2.1

theorem closer_intro {n : Nat} {kn : Int} {T : Tr} {len : Nat} {m1 : Mem} (A B : Tr)
    (fs : List Frame) (hW : Wf m1 (plug (.node A n kn B) fs)) (hlen : fs.length < len)
    (ha : (plug (.node A n kn B) fs).addrs = T.addrs)
    (hk : (plug (.node A n kn B) fs).keys = T.keys) : Closer n kn T len m1 :=
  ⟨A, B, fs, hW, hlen, ha, hk⟩

theorem naive_body_spec {m : Mem} {A B : Tr} {n : Nat} {kn : Int} {f : Frame} {fs : List Frame}
    (hW : Wf m (plug (.node A n kn B) (f :: fs))) :
    ∃ m1, NaiveSplayPolicy.body n f.addr m = some m1 ∧
      Closer n kn (plug (.node A n kn B) (f :: fs)) (fs.length + 1) m1 := by
  cases f with
  | L p kp C =>
    obtain ⟨f1, f2, f3, f4⟩ := wf_left_child hW
    obtain ⟨m1, e1, hW1⟩ := rotate_right_wf fs hW
    refine ⟨m1, ?_, closer_intro A (.node B p kp C) fs hW1 (Nat.lt_succ_self _) ?_ ?_⟩
    · simp [NaiveSplayPolicy.body, utils.is_left_son, f1, f2, Frame.addr, e1]
    · simp [plug_addrs, Tr.addrs, beforeA, afterA]
    · simp [plug_keys, Tr.keys, beforeK, afterK]
  | R C p kp =>
    obtain ⟨f1, f2, f3, f4⟩ := wf_right_child hW
    obtain ⟨m1, e1, hW1⟩ := rotate_left_wf fs hW
    refine ⟨m1, ?_, closer_intro (.node C p kp A) B fs hW1 (Nat.lt_succ_self _) ?_ ?_⟩
    · simp [NaiveSplayPolicy.body, utils.is_left_son, f1, f3, Frame.addr, e1]
    · simp [plug_addrs, Tr.addrs, beforeA, afterA]
    · simp [plug_keys, Tr.keys, beforeK, afterK]

theorem naive_loop_spec (len : Nat) : ∀ (fs : List Frame), fs.length = len →
    ∀ (m : Mem) (A B : Tr) (n : Nat) (kn : Int) (fuel : Nat),
      Wf m (plug (.node A n kn B) fs) → fs.length < fuel →
      ∃ m1, NaiveSplayPolicy.loop fuel n m = some m1 ∧
        Splayed n kn (plug (.node A n kn B) fs) m1 := by
  induction len using Nat.strong_induction_on with
  | _ len ih =>
    intro fs hlen m A B n kn fuel hW hfuel
    obtain ⟨fuel, rfl⟩ : ∃ k, fuel = k + 1 := ⟨fuel - 1, by omega⟩
    have hp := wf_parent hW
    cases fs with
    | nil =>
      exact ⟨m, by simp [NaiveSplayPolicy.loop, hp, top], A, B, hW, rfl, rfl⟩
    | cons f fs =>
      obtain ⟨m1, e1, A1, B1, fs1, hW1, hl1, ha1, hk1⟩ := naive_body_spec hW
      simp only [List.length_cons] at hlen hfuel
      obtain ⟨m2, e2, A2, B2, hW2, ha2, hk2⟩ :=
        ih fs1.length (by omega) fs1 rfl m1 A1 B1 n kn fuel hW1 (by omega)
      refine ⟨m2, ?_, A2, B2, hW2, ha2.trans ha1, hk2.trans hk1⟩
      simp [NaiveSplayPolicy.loop, hp, top, e1, e2]

theorem double_body_spec {m : Mem} {A B : Tr} {n : Nat} {kn : Int} {f : Frame} {fs : List Frame}
    (hW : Wf m (plug (.node A n kn B) (f :: fs))) :
    ∃ m1, DoubleRotationSplayPolicy.body n f.addr m = some m1 ∧
      Closer n kn (plug (.node A n kn B) (f :: fs)) (fs.length + 1) m1 := by
  cases fs with
  | nil =>
    cases f with
    | L p kp C =>
      obtain ⟨f1, f2, f3, f4⟩ := wf_left_child hW
      obtain ⟨m1, e1, hW1⟩ := rotate_right_wf [] hW
      refine ⟨m1, ?_, closer_intro A (.node B p kp C) [] hW1 (Nat.lt_succ_self _) ?_ ?_⟩
      · simp [DoubleRotationSplayPolicy.body, utils.is_son_of_root, utils.is_left_son, f1, f2, f4,
          top, Frame.addr, e1]
      · simp [plug_addrs, Tr.addrs, beforeA, afterA]
      · simp [plug_keys, Tr.keys, beforeK, afterK]
    | R C p kp =>
      obtain ⟨f1, f2, f3, f4⟩ := wf_right_child hW
      obtain ⟨m1, e1, hW1⟩ := rotate_left_wf [] hW
      refine ⟨m1, ?_, closer_intro (.node C p kp A) B [] hW1 (Nat.lt_succ_self _) ?_ ?_⟩
      · simp [DoubleRotationSplayPolicy.body, utils.is_son_of_root, utils.is_left_son, f1, f3, f4,
          top, Frame.addr, e1]
      · simp [plug_addrs, Tr.addrs, beforeA, afterA]
      · simp [plug_keys, Tr.keys, beforeK, afterK]
  | cons f2 fs =>
    cases f with
    | L p kp C =>
      obtain ⟨f1, f2', f3, f4⟩ := wf_left_child hW
      cases f2 with
      | L g kg D =>
        have hWp : Wf m (plug (.node (.node A n kn B) p kp C) (.L g kg D :: fs)) := hW
        obtain ⟨g1, g2, g3, g4⟩ := wf_left_child hWp
        obtain ⟨m1, e1, hW1⟩ := rotate_right_wf fs hWp
        have hW1n : Wf m1 (plug (.node A n kn B) (.L p kp (.node C g kg D) :: fs)) := hW1
        obtain ⟨k1, -⟩ := wf_left_child hW1n
        obtain ⟨m2, e2, hW2⟩ := rotate_right_wf fs hW1n
        refine ⟨m2, ?_, closer_intro A (.node B p kp (.node C g kg D)) fs hW2 (by simp only [List.length_cons]; omega) ?_ ?_⟩
        · simp [DoubleRotationSplayPolicy.body, utils.is_son_of_root, utils.is_left_son,
            utils.is_left_son_of_left_son, utils.is_son_of_left_son, f1, f2', g1, g2,
            top, Frame.addr, e1, k1, e2]
        · simp [plug_addrs, Tr.addrs, beforeA, afterA]
        · simp [plug_keys, Tr.keys, beforeK, afterK]
      | R D g kg =>
        have hWp : Wf m (plug (.node (.node A n kn B) p kp C) (.R D g kg :: fs)) := hW
        obtain ⟨g1, g2, g3, g4⟩ := wf_right_child hWp
        obtain ⟨m1, e1, hW1⟩ := rotate_right_wf (.R D g kg :: fs) hWp
        have hW1n : Wf m1 (plug (.node A n kn (.node B p kp C)) (.R D g kg :: fs)) := hW1
        obtain ⟨k1, -⟩ := wf_right_child hW1n
        obtain ⟨m2, e2, hW2⟩ := rotate_left_wf fs hW1n
        refine ⟨m2, ?_, closer_intro (.node D g kg A) (.node B p kp C) fs hW2 (by simp only [List.length_cons]; omega) ?_ ?_⟩
        · simp [DoubleRotationSplayPolicy.body, utils.is_son_of_root, utils.is_left_son,
            utils.is_left_son_of_left_son, utils.is_son_of_left_son, utils.is_right_son,
            utils.is_right_son_of_right_son, utils.is_son_of_right_son,
            utils.is_left_son_of_right_son, f1, f2', f3, g1, g2, g3,
            top, Frame.addr, e1, k1, e2]
        · simp [plug_addrs, Tr.addrs, beforeA, afterA]
        · simp [plug_keys, Tr.keys, beforeK, afterK]
    | R C p kp =>
      obtain ⟨f1, f2', f3, f4⟩ := wf_right_child hW
      cases f2 with
      | L g kg D =>
        have hWp : Wf m (plug (.node C p kp (.node A n kn B)) (.L g kg D :: fs)) := hW
        obtain ⟨g1, g2, g3, g4⟩ := wf_left_child hWp
        obtain ⟨m1, e1, hW1⟩ := rotate_left_wf (.L g kg D :: fs) hWp
        have hW1n : Wf m1 (plug (.node (.node C p kp A) n kn B) (.L g kg D :: fs)) := hW1
        obtain ⟨k1, -⟩ := wf_left_child hW1n
        obtain ⟨m2, e2, hW2⟩ := rotate_right_wf fs hW1n
        refine ⟨m2, ?_, closer_intro (.node C p kp A) (.node B g kg D) fs hW2 (by simp only [List.length_cons]; omega) ?_ ?_⟩
        · simp [DoubleRotationSplayPolicy.body, utils.is_son_of_root, utils.is_left_son,
            utils.is_left_son_of_left_son, utils.is_son_of_left_son, utils.is_right_son,
            utils.is_right_son_of_right_son, utils.is_son_of_right_son,
            utils.is_left_son_of_right_son, utils.is_right_son_of_left_son, f1, f2', f3, g1, g2, g3,
            top, Frame.addr, e1, k1, e2]
        · simp [plug_addrs, Tr.addrs, beforeA, afterA]
        · simp [plug_keys, Tr.keys, beforeK, afterK]
      | R D g kg =>
        have hWp : Wf m (plug (.node C p kp (.node A n kn B)) (.R D g kg :: fs)) := hW
        obtain ⟨g1, g2, g3, g4⟩ := wf_right_child hWp
        obtain ⟨m1, e1, hW1⟩ := rotate_left_wf fs hWp
        have hW1n : Wf m1 (plug (.node A n kn B) (.R (.node D g kg C) p kp :: fs)) := hW1
        obtain ⟨k1, -⟩ := wf_right_child hW1n
        obtain ⟨m2, e2, hW2⟩ := rotate_left_wf fs hW1n
        refine ⟨m2, ?_, closer_intro (.node (.node D g kg C) p kp A) B fs hW2 (by simp only [List.length_cons]; omega) ?_ ?_⟩
        · simp [DoubleRotationSplayPolicy.body, utils.is_son_of_root, utils.is_left_son,
            utils.is_left_son_of_left_son, utils.is_son_of_left_son, utils.is_right_son,
            utils.is_right_son_of_right_son, utils.is_son_of_right_son,
            utils.is_left_son_of_right_son, utils.is_right_son_of_left_son, f1, f2', f3, g1, g2, g3,
            top, Frame.addr, e1, k1, e2]
        · simp [plug_addrs, Tr.addrs, beforeA, afterA]
        · simp [plug_keys, Tr.keys, beforeK, afterK]

theorem double_loop_spec (len : Nat) : ∀ (fs : List Frame), fs.length = len →
    ∀ (m : Mem) (A B : Tr) (n : Nat) (kn : Int) (fuel : Nat),
      Wf m (plug (.node A n kn B) fs) → fs.length < fuel →
      ∃ m1, DoubleRotationSplayPolicy.loop fuel n m = some m1 ∧
        Splayed n kn (plug (.node A n kn B) fs) m1 := by
  induction len using Nat.strong_induction_on with
  | _ len ih =>
    intro fs hlen m A B n kn fuel hW hfuel
    obtain ⟨fuel, rfl⟩ : ∃ k, fuel = k + 1 := ⟨fuel - 1, by omega⟩
    have hp := wf_parent hW
    cases fs with
    | nil =>
      exact ⟨m, by simp [DoubleRotationSplayPolicy.loop, hp, top], A, B, hW, rfl, rfl⟩
    | cons f fs =>
      obtain ⟨m1, e1, A1, B1, fs1, hW1, hl1, ha1, hk1⟩ := double_body_spec hW
      simp only [List.length_cons] at hlen hfuel
      obtain ⟨m2, e2, A2, B2, hW2, ha2, hk2⟩ :=
        ih fs1.length (by omega) fs1 rfl m1 A1 B1 n kn fuel hW1 (by omega)
      refine ⟨m2, ?_, A2, B2, hW2, ha2.trans ha1, hk2.trans hk1⟩
      simp [DoubleRotationSplayPolicy.loop, hp, top, e1, e2]

theorem closest_loop_spec (h : Heap) (key : Int) : ∀ (t : Tr) (fs : List Frame)
    (prev : Option Nat) (fuel : Nat),
    Models h (top fs) t → t.addrs.length < fuel → PathInv key fs → t ≠ .nil →
    ∃ A c kc B fs1, SplayTree.closest_loop h key fuel t.ptr prev fs.length =
        some (some c, if kc = key then fs1.length else fs1.length + 1) ∧
      plug (.node A c kc B) fs1 = plug t fs ∧ PathInv key fs1 ∧ Stop key A kc B := by
  intro t
  induction t with
  | nil => intro _ _ _ _ _ _ hne; exact absurd rfl hne
  | node A c kc B ihA ihB =>
    intro fs prev fuel hM hfuel hP _
    obtain ⟨fuel, rfl⟩ : ∃ k, fuel = k + 1 := ⟨fuel - 1, by omega⟩
    obtain ⟨c1, c2, c3, c4, hA, hB⟩ := hM
    simp only [Tr.addrs, List.length_append, List.length_cons] at hfuel
    by_cases hk : kc = key
    · exact ⟨A, c, kc, B, fs, by simp [SplayTree.closest_loop, c1, hk], rfl, hP, Or.inl hk⟩
    · by_cases hlt : kc < key
      · by_cases hBn : B = .nil
        · subst hBn
          obtain ⟨fuel, rfl⟩ : ∃ k, fuel = k + 1 := ⟨fuel - 1, by omega⟩
          exact ⟨A, c, kc, .nil, fs, by
            simp [SplayTree.closest_loop, c1, hk, utils.SplayComparator, hlt, c4], rfl, hP,
            Or.inr (Or.inl ⟨hlt, rfl⟩)⟩
        · obtain ⟨A1, c', kc', B1, fs1, e1, e2, e3, e4⟩ :=
            ihB (.R A c kc :: fs) (some c) fuel hB (by omega) ⟨hlt, hP⟩ hBn
          refine ⟨A1, c', kc', B1, fs1, ?_, e2, e3, e4⟩
          simp only [List.length_cons] at e1
          simp [SplayTree.closest_loop, c1, hk, utils.SplayComparator, hlt, c4, e1]
      · have hgt : key < kc := lt_of_le_of_ne (not_lt.1 hlt) (Ne.symm hk)
        by_cases hAn : A = .nil
        · subst hAn
          obtain ⟨fuel, rfl⟩ : ∃ k, fuel = k + 1 := ⟨fuel - 1, by
            simp only [Tr.addrs, List.length_nil] at hfuel; omega⟩
          exact ⟨.nil, c, kc, B, fs, by
            simp [SplayTree.closest_loop, c1, hk, utils.SplayComparator, hlt, c3], rfl, hP,
            Or.inr (Or.inr ⟨hgt, rfl⟩)⟩
        · obtain ⟨A1, c', kc', B1, fs1, e1, e2, e3, e4⟩ :=
            ihA (.L c kc B :: fs) (some c) fuel hA (by omega) ⟨hgt, hP⟩ hAn
          refine ⟨A1, c', kc', B1, fs1, ?_, e2, e3, e4⟩
          simp only [List.length_cons] at e1
          simp [SplayTree.closest_loop, c1, hk, utils.SplayComparator, hlt, c3, e1]

theorem policy_splay_spec (P : SplayPolicy) {m : Mem} {A B : Tr} {n : Nat} {kn : Int}
    {fs : List Frame} {fuel : Nat}
    (hW : Wf m (plug (.node A n kn B) fs)) (hfuel : fs.length < fuel) :
    ∃ m1, P.splay fuel (some n) (some ()) m = some m1 ∧
      Splayed n kn (plug (.node A n kn B) fs) m1 := by
  have hp := wf_parent hW
  cases fs with
  | nil =>
    refine ⟨m, ?_, A, B, hW, rfl, rfl⟩
    cases P <;>
      simp [SplayPolicy.splay, DoubleRotationSplayPolicy.splay, NaiveSplayPolicy.splay, hp, top]
  | cons f fs =>
    cases P with
    | DoubleRotation =>
      obtain ⟨m1, e1, hS⟩ := double_loop_spec _ (f :: fs) rfl m A B n kn fuel hW hfuel
      exact ⟨m1, by simp [SplayPolicy.splay, DoubleRotationSplayPolicy.splay, hp, top, e1], hS⟩
    | Naive =>
      obtain ⟨m1, e1, hS⟩ := naive_loop_spec _ (f :: fs) rfl m A B n kn fuel hW hfuel
      exact ⟨m1, by simp [SplayPolicy.splay, NaiveSplayPolicy.splay, hp, top, e1], hS⟩

theorem length_le_of_nodup_lt {l : List Nat} {n : Nat} (hnd : l.Nodup) (hlt : ∀ a ∈ l, a < n) :
    l.length ≤ n := by
  have h1 : l.toFinset ⊆ Finset.range n := fun a ha => by
    simp only [List.mem_toFinset] at ha
    simpa using hlt a ha
  have h2 := Finset.card_le_card h1
  rwa [List.toFinset_card_of_nodup hnd, Finset.card_range] at h2

theorem frames_length_le (fs : List Frame) : fs.length ≤ (beforeA fs).length + (afterA fs).length := by
  induction fs with
  | nil => simp
  | cons f fs ih =>
    cases f <;> simp only [beforeA, afterA, List.length_cons, List.length_append,
      List.length_nil] <;> omega

theorem access_spec (P : SplayPolicy) (key : Int) {s : SplayTree} {T : Tr} (hI : Inv s T)
    (hT : T ≠ .nil) :
    ∃ A c kc B fs m A2 B2,
      SplayTree.find_node_with_closest_key_ key s =
        some (some c, { s with find_length_ := if kc = key then fs.length else fs.length + 1 }) ∧
      plug (.node A c kc B) fs = T ∧ PathInv key fs ∧ Stop key A kc B ∧
      P.splay (s.next + 1) (some c) (some ()) ⟨s.heap, s.root_⟩ = some m ∧
      Wf m (.node A2 c kc B2) ∧ (Tr.node A2 c kc B2).addrs = T.addrs ∧
      (Tr.node A2 c kc B2).keys = T.keys := by
  obtain ⟨⟨hr, hM, hnd⟩, hlt⟩ := hI
  have hlen := length_le_of_nodup_lt hnd hlt
  obtain ⟨A, c, kc, B, fs, e1, e2, e3, e4⟩ :=
    closest_loop_spec s.heap key T [] s.root_ (s.next + 1) hM (by omega) trivial hT
  simp only [plug, List.length_nil] at e1 e2
  simp only at hr hM
  have hW : Wf ⟨s.heap, s.root_⟩ (plug (.node A c kc B) fs) := by rw [e2]; exact ⟨hr, hM, hnd⟩
  have hfs : fs.length < s.next + 1 := by
    have := frames_length_le fs
    rw [← e2, plug_addrs] at hlen
    simp only [List.length_append] at hlen
    omega
  obtain ⟨m, e5, A2, B2, hW2, ha, hk⟩ := policy_splay_spec P hW hfs
  refine ⟨A, c, kc, B, fs, m, A2, B2, ?_, e2, e3, e4, e5, hW2, by rw [ha, e2], by rw [hk, e2]⟩
  rw [hr] at e1
  simp [SplayTree.find_node_with_closest_key_, hr, e1]

theorem before_lt {key : Int} {fs : List Frame} (hs : (beforeK fs).Pairwise (· < ·))
    (hP : PathInv key fs) : ∀ x ∈ beforeK fs, x < key := by
  induction fs with
  | nil => simp [beforeK]
  | cons f fs ih =>
    cases f with
    | L a k r => exact ih hs hP.2
    | R l a k =>
      simp only [beforeK, List.pairwise_append, List.mem_append, List.mem_singleton] at hs ⊢
      intro x hx
      rcases hx with hx | hx | hx
      · exact lt_trans (hs.2.2 x hx k (Or.inr rfl)) hP.1
      · exact lt_trans (hs.2.1.2.2 x hx k rfl) hP.1
      · exact hx ▸ hP.1

theorem after_gt {key : Int} {fs : List Frame} (hs : (afterK fs).Pairwise (· < ·))
    (hP : PathInv key fs) : ∀ x ∈ afterK fs, key < x := by
  induction fs with
  | nil => simp [afterK]
  | cons f fs ih =>
    cases f with
    | R l a k => exact ih hs hP.2
    | L a k r =>
      simp only [afterK, List.cons_append, List.pairwise_cons, List.mem_cons] at hs ⊢
      intro x hx
      rcases hx with hx | hx
      · exact hx ▸ hP.1
      · exact lt_trans hP.1 (hs.1 x hx)

theorem stop_nearest {key : Int} {A B : Tr} {kc : Int} {c : Nat} {fs : List Frame}
    (hs : (plug (.node A c kc B) fs).keys.Pairwise (· < ·)) (hP : PathInv key fs)
    (hstop : Stop key A kc B) : Nearest key kc (plug (.node A c kc B) fs).keys := by
  rw [plug_keys] at hs ⊢
  simp only [Tr.keys] at hs ⊢
  have hs' := hs
  simp only [List.pairwise_append, List.pairwise_cons, List.mem_append, List.mem_cons] at hs'
  obtain ⟨⟨hb, ⟨hA, ⟨hkB, hB⟩, hAB⟩, hbm⟩, ha, hma⟩ := hs'
  rcases hstop with h | ⟨h, rfl⟩ | ⟨h, rfl⟩
  · exact Or.inl h
  · refine Or.inr (Or.inl ⟨h, fun x hx hlt => ?_⟩)
    simp only [Tr.keys, List.mem_append, List.mem_cons, List.not_mem_nil, or_false] at hx
    rcases hx with (hx | hx | hx) | hx
    · exact absurd (hbm x hx kc (Or.inr (Or.inl rfl))) (not_lt.2 hlt.le)
    · exact absurd (hAB x hx kc (Or.inl rfl)) (not_lt.2 hlt.le)
    · exact absurd hlt (hx ▸ lt_irrefl _)
    · exact after_gt ha hP x hx
  · refine Or.inr (Or.inr ⟨h, fun x hx hlt => ?_⟩)
    simp only [Tr.keys, List.mem_append, List.mem_cons, List.not_mem_nil, false_or] at hx
    rcases hx with (hx | hx | hx) | hx
    · exact before_lt hb hP x hx
    · exact absurd hlt (hx ▸ lt_irrefl _)
    · exact absurd (hkB x hx) (not_lt.2 hlt.le)
    · exact absurd (hma kc (Or.inr (Or.inr (Or.inl rfl))) x hx) (not_lt.2 hlt.le)

theorem nearest_hit {key kc : Int} {ks : List Int} (hN : Nearest key kc ks) (hk : key ∈ ks) :
    kc = key := by
  rcases hN with h | ⟨h, h2⟩ | ⟨h, h2⟩
  · exact h
  · exact absurd (h2 key hk h) (lt_irrefl _)
  · exact absurd (h2 key hk h) (lt_irrefl _)

theorem find_empty (P : SplayPolicy) (key : Int) (s : SplayTree) (hr : s.root_ = none) :
    s.find P key = some (SplayTree.NOT_FOUND, { s with find_length_ := 0 }) := by
  cases P <;>
    simp [SplayTree.find, SplayTree.find_node_with_closest_key_, SplayTree.closest_loop, hr,
      SplayPolicy.splay, DoubleRotationSplayPolicy.splay, NaiveSplayPolicy.splay]

theorem find_spec (P : SplayPolicy) (key : Int) {s : SplayTree} {T : Tr} (hI : Inv s T)
    (hT : T ≠ .nil) (hS : T.keys.Pairwise (· < ·)) :
    ∃ A c kc B fs A2 B2 h2,
      SplayTree.find_node_with_closest_key_ key s =
        some (some c, { s with find_length_ := if kc = key then fs.length else fs.length + 1 }) ∧
      plug (.node A c kc B) fs = T ∧ PathInv key fs ∧ Stop key A kc B ∧
      s.find P key = some (if kc = key then key else SplayTree.NOT_FOUND,
        ⟨h2, s.next, some c, if kc = key then fs.length else fs.length + 1⟩) ∧
      Inv ⟨h2, s.next, some c, if kc = key then fs.length else fs.length + 1⟩
        (.node A2 c kc B2) ∧
      (Tr.node A2 c kc B2).addrs = T.addrs ∧ (Tr.node A2 c kc B2).keys = T.keys ∧
      Nearest key kc T.keys := by
  obtain ⟨A, c, kc, B, fs, m, A2, B2, e1, e2, e3, e4, e5, hW, ha, hk⟩ := access_spec P key hI hT
  have hN : Nearest key kc T.keys := by
    rw [← e2]; exact stop_nearest (by rw [e2]; exact hS) e3 e4
  obtain ⟨w1, w2, w3⟩ := hW
  simp only [Tr.ptr_node] at w1
  refine ⟨A, c, kc, B, fs, A2, B2, m.heap, e1, e2, e3, e4, ?_,
    ⟨⟨rfl, w2, w3⟩, fun a h => hI.2 a (ha ▸ h)⟩, ha, hk, hN⟩
  simp only [SplayTree.find, e1, e5, w1, w2.1]
  by_cases hkk : kc = key <;> simp [hkk]

theorem insert_empty (P : SplayPolicy) (key : Int) (s : SplayTree) (hr : s.root_ = none) :
    s.insert P key = some { s with heap := newNode s.heap s.next key, next := s.next + 1,
                                   root_ := some s.next } := by
  simp [SplayTree.insert, hr]

theorem inv_insert_empty (key : Int) (s : SplayTree) :
    Inv { s with heap := newNode s.heap s.next key, next := s.next + 1, root_ := some s.next }
      (.node .nil s.next key .nil) := by
  refine ⟨⟨rfl, ?_, by simp [Tr.addrs]⟩, by simp [Tr.addrs]⟩
  simp [Models, newNode]

theorem attachRight_eval (h : Heap) (r tmp : Nat) (key : Int) (hrt : r ≠ tmp)
    (hx : ∀ x, (h r).right = some x → x ≠ tmp ∧ x ≠ r) :
    attachRight h r tmp key tmp = ⟨key, some r, none, (h r).right⟩ ∧
    attachRight h r tmp key r = { h r with right := some tmp } ∧
    (∀ x, (h r).right = some x → attachRight h r tmp key x = { h x with parent := some tmp }) ∧
    ∀ y, y ≠ tmp → y ≠ r → (h r).right ≠ some y → attachRight h r tmp key y = h y := by
  unfold attachRight
  rcases hr : (h r).right with _ | x
  · simp [newNode, setRight, setParent, hrt, hrt.symm, hr]
    intro y h1 h2
    simp [h1, h2]
  · obtain ⟨x1, x2⟩ := hx x hr
    simp [newNode, setRight, setParent, hrt, hrt.symm, hr, x1, x2, x1.symm, x2.symm]
    intro y h1 h2 h3
    simp [h1, h2, Ne.symm h3]

theorem attachLeft_eval (h : Heap) (r tmp : Nat) (key : Int) (hrt : r ≠ tmp)
    (hx : ∀ x, (h r).left = some x → x ≠ tmp ∧ x ≠ r) :
    attachLeft h r tmp key tmp = ⟨key, some r, (h r).left, none⟩ ∧
    attachLeft h r tmp key r = { h r with left := some tmp } ∧
    (∀ x, (h r).left = some x → attachLeft h r tmp key x = { h x with parent := some tmp }) ∧
    ∀ y, y ≠ tmp → y ≠ r → (h r).left ≠ some y → attachLeft h r tmp key y = h y := by
  unfold attachLeft
  rcases hr : (h r).left with _ | x
  · simp [newNode, setLeft, setParent, hrt, hrt.symm, hr]
    intro y h1 h2
    simp [h1, h2]
  · obtain ⟨x1, x2⟩ := hx x hr
    simp [newNode, setLeft, setParent, hrt, hrt.symm, hr, x1, x2, x1.symm, x2.symm]
    intro y h1 h2 h3
    simp [h1, h2, Ne.symm h3]

theorem insert_spec (P : SplayPolicy) (key : Int) {s : SplayTree} {T : Tr} (hI : Inv s T)
    (hT : T ≠ .nil) (hS : T.keys.Pairwise (· < ·)) :
    ∃ A c kc B fs A2 B2 h2,
      SplayTree.find_node_with_closest_key_ key s =
        some (some c, { s with find_length_ := if kc = key then fs.length else fs.length + 1 }) ∧
      plug (.node A c kc B) fs = T ∧ PathInv key fs ∧ Stop key A kc B ∧
      s.insert P key = some ⟨h2, if kc = key then s.next else s.next + 1, some c,
        if kc = key then fs.length else fs.length + 1⟩ ∧
      Inv ⟨h2, if kc = key then s.next else s.next + 1, some c,
        if kc = key then fs.length else fs.length + 1⟩ (insertShape key A2 c kc B2 s.next) ∧
      (Tr.node A2 c kc B2).addrs = T.addrs ∧ (Tr.node A2 c kc B2).keys = T.keys ∧
      Nearest key kc T.keys := by
  obtain ⟨A, c, kc, B, fs, m, A2, B2, e1, e2, e3, e4, e5, hW, ha, hk⟩ := access_spec P key hI hT
  have hN : Nearest key kc T.keys := by
    rw [← e2]; exact stop_nearest (by rw [e2]; exact hS) e3 e4
  obtain ⟨w1, w2, w3⟩ := hW
  simp only [Tr.ptr_node] at w1
  have hlt : ∀ a ∈ (Tr.node A2 c kc B2).addrs, a < s.next := fun a h => hI.2 a (ha ▸ h)
  have hroot : ∃ r, s.root_ = some r := by
    cases T with
    | nil => exact absurd rfl hT
    | node l a k r => exact ⟨a, hI.1.1⟩
  obtain ⟨r0, hr0⟩ := hroot
  obtain ⟨c1, c2, c3, c4, hA2, hB2⟩ := w2
  have e5' := e5
  rw [hr0] at e5'
  by_cases hkk : kc = key
  · refine ⟨A, c, kc, B, fs, A2, B2, m.heap, e1, e2, e3, e4, ?_, ?_, ha, hk, hN⟩
    · simp [SplayTree.insert, hr0, e1, e5', c1, hkk, w1]
    · simp only [insertShape, hkk, if_true]
      exact ⟨⟨rfl, hkk ▸ ⟨c1, c2, c3, c4, hA2, hB2⟩, hkk ▸ w3⟩, hkk ▸ hlt⟩
  · have hcn : c ≠ s.next := fun e => absurd (hlt c (by simp [Tr.addrs])) (by omega)
    simp only [Tr.addrs, List.nodup_append, List.nodup_cons, List.mem_append, List.mem_cons,
      List.Disjoint] at w3
    by_cases hlt' : kc < key
    · refine ⟨A, c, kc, B, fs, A2, B2, attachRight m.heap c s.next key, e1, e2, e3, e4, ?_, ?_,
        ha, hk, hN⟩
      · have hnk : newNode m.heap s.next key c = m.heap c := by simp [newNode, hcn]
        simp [SplayTree.insert, hr0, e1, e5', c1, hkk, w1, utils.SplayComparator, hnk, hlt',
          attachRight]
      · simp only [insertShape, hkk, hlt', if_true, if_false]
        obtain ⟨t1, t2, t3, t4⟩ := attachRight_eval m.heap c s.next key hcn (fun x hx => by
          rw [c4] at hx
          have hxB := ptr_mem hx
          exact ⟨fun e => absurd (hlt x (by simp [Tr.addrs, hxB])) (by omega),
            fun e => w3.2.1.1 (e ▸ hxB)⟩)
        have hAn : ∀ x ∈ A2.addrs, attachRight m.heap c s.next key x = m.heap x := fun x hx =>
          t4 x (fun e => absurd (hlt x (by simp [Tr.addrs, hx])) (by omega))
            (fun e => w3.2.2 hx (Or.inl e))
            (fun e => w3.2.2 hx (Or.inr (ptr_mem (c4 ▸ e))))
        have hBn : ∀ x ∈ B2.addrs, B2.ptr ≠ some x →
            attachRight m.heap c s.next key x = m.heap x := fun x hx hne =>
          t4 x (fun e => absurd (hlt x (by simp [Tr.addrs, hx])) (by omega))
            (fun e => w3.2.1.1 (e ▸ hx)) (c4 ▸ hne)
        refine ⟨⟨rfl, ?_, ?_⟩, ?_⟩
        · show Models (attachRight m.heap c s.next key) none _
          exact ⟨by rw [t2]; exact c1, by rw [t2]; exact c2, by rw [t2]; exact c3,
            by rw [t2]; rfl, hA2.congr_heap hAn, ⟨by rw [t1], by rw [t1], by rw [t1]; rfl,
              by rw [t1]; exact c4, trivial,
              hB2.reparent w3.2.1.2 (fun b hb => t3 b (c4 ▸ hb)) hBn⟩⟩
        · have hfresh : ∀ x, x ∈ A2.addrs ∨ x = c ∨ x ∈ B2.addrs → x ≠ s.next := fun x hx e =>
            absurd (hlt x (by simpa [Tr.addrs] using hx)) (by omega)
          simp only [Tr.addrs, List.nodup_append, List.nodup_cons, List.mem_append, List.mem_cons,
            List.Disjoint, List.nil_append, List.not_mem_nil, List.nodup_nil]
          refine ⟨w3.1, ⟨?_, ?_, w3.2.1.2⟩, ?_⟩
          · rintro (e | e)
            · exact hcn e
            · exact w3.2.1.1 e
          · exact fun e => hfresh _ (Or.inr (Or.inr e)) rfl
          · rintro a h1 (h2 | h2 | h2)
            · exact w3.2.2 h1 (Or.inl h2)
            · exact hfresh a (Or.inl h1) h2
            · exact w3.2.2 h1 (Or.inr h2)
        · intro a h
          simp only [Tr.addrs, List.mem_append, List.mem_cons, List.nil_append,
            List.not_mem_nil, false_or] at h
          show a < s.next + 1
          rcases h with h | h | h | h
          · exact Nat.lt_succ_of_lt (hlt a (by simp [Tr.addrs, h]))
          · exact Nat.lt_succ_of_lt (hlt a (by simp [Tr.addrs, h]))
          · omega
          · exact Nat.lt_succ_of_lt (hlt a (by simp [Tr.addrs, h]))
    · refine ⟨A, c, kc, B, fs, A2, B2, attachLeft m.heap c s.next key, e1, e2, e3, e4, ?_, ?_,
        ha, hk, hN⟩
      · have hnk : newNode m.heap s.next key c = m.heap c := by simp [newNode, hcn]
        simp [SplayTree.insert, hr0, e1, e5', c1, hkk, w1, utils.SplayComparator, hnk, hlt',
          attachLeft]
      · simp only [insertShape, hkk, hlt', if_true, if_false]
        obtain ⟨t1, t2, t3, t4⟩ := attachLeft_eval m.heap c s.next key hcn (fun x hx => by
          rw [c3] at hx
          have hxA := ptr_mem hx
          exact ⟨fun e => absurd (hlt x (by simp [Tr.addrs, hxA])) (by omega),
            fun e => w3.2.2 hxA (Or.inl e)⟩)
        have hBn : ∀ x ∈ B2.addrs, attachLeft m.heap c s.next key x = m.heap x := fun x hx =>
          t4 x (fun e => absurd (hlt x (by simp [Tr.addrs, hx])) (by omega))
            (fun e => w3.2.1.1 (e ▸ hx))
            (fun e => w3.2.2 (ptr_mem (c3 ▸ e)) (Or.inr hx))
        have hAn : ∀ x ∈ A2.addrs, A2.ptr ≠ some x →
            attachLeft m.heap c s.next key x = m.heap x := fun x hx hne =>
          t4 x (fun e => absurd (hlt x (by simp [Tr.addrs, hx])) (by omega))
            (fun e => w3.2.2 hx (Or.inl e)) (c3 ▸ hne)
        refine ⟨⟨rfl, ?_, ?_⟩, ?_⟩
        · show Models (attachLeft m.heap c s.next key) none _
          exact ⟨by rw [t2]; exact c1, by rw [t2]; exact c2, by rw [t2]; rfl,
            by rw [t2]; exact c4, ⟨by rw [t1], by rw [t1], by rw [t1]; exact c3,
              by rw [t1]; rfl, hA2.reparent w3.1 (fun b hb => t3 b (c3 ▸ hb)) hAn, trivial⟩,
            hB2.congr_heap hBn⟩
        · have hfresh : ∀ x, x ∈ A2.addrs ∨ x = c ∨ x ∈ B2.addrs → x ≠ s.next := fun x hx e =>
            absurd (hlt x (by simpa [Tr.addrs] using hx)) (by omega)
          simp only [Tr.addrs, List.nodup_append, List.nodup_cons, List.mem_append, List.mem_cons,
            List.Disjoint, List.append_nil, List.not_mem_nil, List.nodup_nil]
          refine ⟨⟨w3.1, ⟨not_false, trivial⟩, ?_⟩, w3.2.1, ?_⟩
          · rintro a h1 (h2 | h2)
            · exact hfresh a (Or.inl h1) h2
            · exact h2
          · rintro a (h1 | h1 | h1) h2
            · exact w3.2.2 h1 h2
            · rcases h2 with h2 | h2
              · exact hcn (h2.symm.trans h1)
              · exact hfresh a (Or.inr (Or.inr h2)) h1
            · exact h1
        · intro a h
          simp only [Tr.addrs, List.mem_append, List.mem_cons, List.append_nil,
            List.not_mem_nil, or_false] at h
          show a < s.next + 1
          rcases h with (h | h) | h | h
          · exact Nat.lt_succ_of_lt (hlt a (by simp [Tr.addrs, h]))
          · omega
          · exact Nat.lt_succ_of_lt (hlt a (by simp [Tr.addrs, h]))
          · exact Nat.lt_succ_of_lt (hlt a (by simp [Tr.addrs, h]))

theorem orderedInsert_split (key : Int) : ∀ (l1 l2 : List Int), (∀ x ∈ l1, x < key) →
    (∀ x ∈ l2, key < x) → (l1 ++ l2).orderedInsert (· ≤ ·) key = l1 ++ key :: l2
  | [], [], _, _ => rfl
  | [], b :: l2, _, h2 => by
    have : key ≤ b := (h2 b (by simp)).le
    simp [List.orderedInsert, this]
  | a :: l1, l2, h1, h2 => by
    have : ¬ key ≤ a := not_le.2 (h1 a (by simp))
    have ih := orderedInsert_split key l1 l2 (fun x hx => h1 x (by simp [hx])) h2
    simp only [List.cons_append, List.orderedInsert, this, if_false]
    exact congrArg (a :: ·) ih

theorem insertShape_keys {key : Int} {A2 B2 : Tr} {c : Nat} {kc : Int} (tmp : Nat)
    (hS : (Tr.node A2 c kc B2).keys.Pairwise (· < ·))
    (hN : Nearest key kc (Tr.node A2 c kc B2).keys) :
    (insertShape key A2 c kc B2 tmp).keys.Pairwise (· < ·) ∧
    (insertShape key A2 c kc B2 tmp).keys =
      if key ∈ (Tr.node A2 c kc B2).keys then (Tr.node A2 c kc B2).keys
      else (Tr.node A2 c kc B2).keys.orderedInsert (· ≤ ·) key := by
  have hS' := hS
  simp only [Tr.keys, List.pairwise_append, List.pairwise_cons, List.mem_cons] at hS'
  obtain ⟨hA, ⟨hcB, hB⟩, hAB⟩ := hS'
  by_cases hkk : kc = key
  · simp only [insertShape, hkk, if_true]
    refine ⟨hkk ▸ hS, ?_⟩
    rw [if_pos]; simp [Tr.keys]
  · rcases hN with h | ⟨h, h2⟩ | ⟨h, h2⟩
    · exact absurd h hkk
    · have hnot : key ∉ (Tr.node A2 c kc B2).keys := fun hm => lt_irrefl _ (h2 key hm h)
      have hAk : ∀ x ∈ A2.keys ++ [kc], x < key := fun x hx => by
        simp only [List.mem_append, List.mem_singleton] at hx
        rcases hx with hx | hx
        · exact lt_trans (hAB x hx kc (Or.inl rfl)) h
        · exact hx ▸ h
      have hBk : ∀ x ∈ B2.keys, key < x := fun x hx =>
        h2 x (by simp [Tr.keys, hx]) (hcB x hx)
      simp only [insertShape, hkk, h, if_true, if_false, hnot]
      have hsplit := orderedInsert_split key (A2.keys ++ [kc]) B2.keys hAk hBk
      simp only [Tr.keys, List.nil_append]
      simp only [List.append_assoc, List.singleton_append] at hsplit
      refine ⟨?_, hsplit.symm⟩
      simp only [List.pairwise_append, List.pairwise_cons, List.mem_cons]
      refine ⟨hA, ⟨?_, hBk, hB⟩, ?_⟩
      · rintro x (hx | hx)
        · exact hx ▸ h
        · exact hcB x hx
      · rintro x hx y (hy | hy | hy)
        · exact hy ▸ hAB x hx kc (Or.inl rfl)
        · exact hy ▸ hAk x (by simp [hx])
        · exact hAB x hx y (Or.inr hy)
    · have hnot : key ∉ (Tr.node A2 c kc B2).keys := fun hm => lt_irrefl _ (h2 key hm h)
      have hlt' : ¬ kc < key := not_lt.2 h.le
      have hAk : ∀ x ∈ A2.keys, x < key := fun x hx =>
        h2 x (by simp [Tr.keys, hx]) (hAB x hx kc (Or.inl rfl))
      have hBk : ∀ x ∈ kc :: B2.keys, key < x := fun x hx => by
        simp only [List.mem_cons] at hx
        rcases hx with hx | hx
        · exact hx ▸ h
        · exact lt_trans h (hcB x hx)
      simp only [insertShape, hkk, hlt', if_false, hnot]
      have hsplit := orderedInsert_split key A2.keys (kc :: B2.keys) hAk hBk
      simp only [Tr.keys, List.append_nil]
      refine ⟨?_, by rw [hsplit]; simp⟩
      simp only [List.pairwise_append, List.pairwise_cons, List.mem_cons, List.mem_append,
        List.mem_singleton, List.not_mem_nil, List.Pairwise.nil, and_true, false_imp_iff,
        implies_true, or_false, forall_eq]
      refine ⟨⟨hA, trivial, hAk⟩, ⟨hcB, hB⟩, ?_⟩
      rintro x (hx | hx) y (hy | hy)
      · exact hy ▸ hAB x hx kc (Or.inl rfl)
      · exact hAB x hx y (Or.inr hy)
      · exact hx ▸ hy ▸ h
      · exact hx ▸ lt_trans h (hcB y hy)

/-- Two shapes held by the same memory from the same pointer are equal. -/
theorem models_unique (h : Heap) : ∀ (T T2 : Tr) (par par2 : Option Nat),
    Models h par T → Models h par2 T2 → T.ptr = T2.ptr → T = T2
  | .nil, .nil, _, _, _, _, _ => rfl
  | .nil, .node _ _ _ _, _, _, _, _, e => by simp at e
  | .node _ _ _ _, .nil, _, _, _, _, e => by simp at e
  | .node l a k r, .node l2 a2 k2 r2, _, _, h1, h2, e => by
    simp only [Tr.ptr_node, Option.some.injEq] at e
    subst e
    obtain ⟨p1, -, p3, p4, p5, p6⟩ := h1
    obtain ⟨q1, -, q3, q4, q5, q6⟩ := h2
    have hl := models_unique h l l2 _ _ p5 q5 (p3.symm.trans q3)
    have hr := models_unique h r r2 _ _ p6 q6 (p4.symm.trans q4)
    rw [hl, hr, ← p1, ← q1]

/-- The in-order key list of a tree object is unique. -/
theorem holds_unique {s : SplayTree} {ks ks2 : List Int} (h1 : Holds s ks) (h2 : Holds s ks2) :
    ks = ks2 := by
  obtain ⟨T, ⟨⟨r1, m1, -⟩, -⟩, k1, -⟩ := h1
  obtain ⟨T2, ⟨⟨r2, m2, -⟩, -⟩, k2, -⟩ := h2
  have := models_unique s.heap T T2 none none m1 m2 (r1.symm.trans r2)
  rw [← k1, ← k2, this]

theorem holds_empty : Holds SplayTree.empty [] :=
  ⟨.nil, ⟨⟨rfl, trivial, List.nodup_nil⟩, by simp [Tr.addrs]⟩, rfl, List.Pairwise.nil⟩

theorem holds_nil_root {s : SplayTree} {ks : List Int} (h : Holds s ks) :
    s.root_ = none ↔ ks = [] := by
  obtain ⟨T, ⟨⟨r1, -, -⟩, -⟩, k1, -⟩ := h
  cases T with
  | nil => simp only at r1; simp [r1, ← k1, Tr.keys]
  | node l a k r => simp only at r1; simp [r1, ← k1, Tr.keys]

theorem find_holds (P : SplayPolicy) (key : Int) {s : SplayTree} {ks : List Int}
    (h : Holds s ks) :
    ∃ s1, s.find P key = some (if key ∈ ks then key else SplayTree.NOT_FOUND, s1) ∧
      Holds s1 ks ∧ s1.next = s.next := by
  obtain ⟨T, hI, hk, hS⟩ := h
  by_cases hT : T = .nil
  · subst hT
    have hr : s.root_ = none := hI.1.1
    simp only [Tr.keys] at hk
    subst hk
    refine ⟨{ s with find_length_ := 0 }, by rw [find_empty P key s hr]; simp,
      ⟨.nil, ?_, rfl, hS⟩, rfl⟩
    exact ⟨⟨hr, trivial, List.nodup_nil⟩, by simp [Tr.addrs]⟩
  · obtain ⟨A, c, kc, B, fs, A2, B2, h2, -, -, -, -, e5, hI2, -, hk2, hN⟩ :=
      find_spec P key hI hT hS
    have hiff : kc = key ↔ key ∈ ks := by
      rw [← hk]
      exact ⟨fun e => by rw [← hk2, ← e]; simp [Tr.keys], fun hm => nearest_hit hN hm⟩
    refine ⟨_, ?_, ⟨_, hI2, hk2.trans hk, by rw [hk2]; exact hS⟩, rfl⟩
    rw [e5]
    by_cases hm : key ∈ ks
    · simp [hm, hiff.2 hm]
    · simp [hm, mt hiff.1 hm]

theorem contains_holds (P : SplayPolicy) (key : Int) {s : SplayTree} {ks : List Int}
    (h : Holds s ks) :
    ∃ s1, s.contains P key = some (decide (key ∈ ks ∨ key = SplayTree.NOT_FOUND), s1) ∧
      Holds s1 ks ∧ s1.next = s.next := by
  obtain ⟨s1, e1, h1, h2⟩ := find_holds P key h
  refine ⟨s1, ?_, h1, h2⟩
  simp only [SplayTree.contains, e1, Option.map_some']
  by_cases hm : key ∈ ks <;> simp [hm]

theorem insert_holds (P : SplayPolicy) (key : Int) {s : SplayTree} {ks : List Int}
    (h : Holds s ks) :
    ∃ s1, s.insert P key = some s1 ∧
      Holds s1 (if key ∈ ks then ks else ks.orderedInsert (· ≤ ·) key) ∧
      s1.next = (if key ∈ ks then s.next else s.next + 1) := by
  obtain ⟨T, hI, hk, hS⟩ := h
  by_cases hT : T = .nil
  · subst hT
    have hr : s.root_ = none := hI.1.1
    simp only [Tr.keys] at hk
    subst hk
    refine ⟨_, insert_empty P key s hr, ⟨_, inv_insert_empty key s, ?_, ?_⟩, by simp⟩
    · simp [Tr.keys]
    · simp [Tr.keys]
  · obtain ⟨A, c, kc, B, fs, A2, B2, h2, -, -, -, -, e5, hI2, -, hk2, hN⟩ :=
      insert_spec P key hI hT hS
    have hiff : kc = key ↔ key ∈ ks := by
      rw [← hk]
      exact ⟨fun e => by rw [← hk2, ← e]; simp [Tr.keys], fun hm => nearest_hit hN hm⟩
    obtain ⟨i1, i2⟩ := insertShape_keys s.next (hk2 ▸ hS) (hk2 ▸ hN)
    rw [hk2, hk] at i2
    refine ⟨_, e5, ⟨_, hI2, i2, i1⟩, ?_⟩
    by_cases hm : key ∈ ks
    · simp [hm, hiff.2 hm]
    · simp [hm, mt hiff.1 hm]

theorem models_root_key {h : Heap} {par : Option Nat} {T : Tr} {a : Nat} (hM : Models h par T)
    (hp : T.ptr = some a) : (h a).key ∈ T.keys := by
  cases T with
  | nil => simp at hp
  | node l b k r =>
    simp only [Tr.ptr_node, Option.some.injEq] at hp
    subst hp
    rw [hM.1]; simp [Tr.keys]

theorem validate_spec (h : Heap) : ∀ (T : Tr) (par : Option Nat) (fuel : Nat),
    Models h par T → T.keys.Pairwise (· < ·) → T.addrs.length < fuel →
    SplayTree.validate_ h fuel T.ptr = some true := by
  intro T
  induction T with
  | nil =>
    intro par fuel _ _ hf
    obtain ⟨fuel, rfl⟩ : ∃ k, fuel = k + 1 := ⟨fuel - 1, by omega⟩
    simp [SplayTree.validate_]
  | node l a k r ihl ihr =>
    intro par fuel hM hS hf
    obtain ⟨fuel, rfl⟩ : ∃ k, fuel = k + 1 := ⟨fuel - 1, by omega⟩
    obtain ⟨h1, -, h3, h4, h5, h6⟩ := hM
    simp only [Tr.keys, List.pairwise_append, List.pairwise_cons, List.mem_cons] at hS
    obtain ⟨hl, ⟨hkr, hr⟩, hlr⟩ := hS
    simp only [Tr.addrs, List.length_append, List.length_cons] at hf
    have e1 : SplayTree.validate_ h fuel l.ptr = some true := ihl _ fuel h5 hl (by omega)
    have e2 : SplayTree.validate_ h fuel r.ptr = some true := ihr _ fuel h6 hr (by omega)
    have c1 : (match (h a).left with
        | some l => decide ((h l).key > (h a).key)
        | none => false) = false := by
      rw [h3, h1]
      rcases hp : l.ptr with _ | la
      · rfl
      · have := hlr _ (models_root_key h5 hp) k (Or.inl rfl)
        simpa using this.le
    have c2 : (match (h a).right with
        | some r => decide ((h r).key < (h a).key)
        | none => false) = false := by
      rw [h4, h1]
      rcases hp : r.ptr with _ | ra
      · rfl
      · have := hkr _ (models_root_key h6 hp)
        simpa using this.le
    rw [h3] at c1
    rw [h4] at c2
    simp only [gt_iff_lt] at c1
    simp only [SplayTree.validate_, h3, h4, e1, e2, gt_iff_lt]
    rw [if_neg (by rw [Bool.not_eq_true]; exact c1), if_neg (by rw [Bool.not_eq_true]; exact c2)]

theorem validate_holds {s : SplayTree} {ks : List Int} (h : Holds s ks) :
    s.validate = some true := by
  obtain ⟨T, ⟨⟨hr, hM, hnd⟩, hlt⟩, -, hS⟩ := h
  have := validate_spec s.heap T none (s.next + 1) hM hS
    (Nat.lt_succ_of_le (length_le_of_nodup_lt hnd hlt))
  simp only at hr
  simpa [SplayTree.validate, hr] using this

theorem exec_holds (P : SplayPolicy) (c : Call) {s : SplayTree} {ks : List Int}
    (h : Holds s ks) : ∃ s1, c.exec P s = some s1 ∧ Holds s1 (keysAfter [c] ks) := by
  cases c with
  | insert k =>
    obtain ⟨s1, e1, h1, -⟩ := insert_holds P k h
    exact ⟨s1, e1, h1⟩
  | find k =>
    obtain ⟨s1, e1, h1, -⟩ := find_holds P k h
    exact ⟨s1, by simp [Call.exec, e1], h1⟩
  | contains k =>
    obtain ⟨s1, e1, h1, -⟩ := contains_holds P k h
    exact ⟨s1, by simp [Call.exec, e1], h1⟩

theorem run_holds (P : SplayPolicy) : ∀ (cs : List Call) {s : SplayTree} {ks : List Int},
    Holds s ks → ∃ s1, run P cs s = some s1 ∧ Holds s1 (keysAfter cs ks)
  | [], s, _, h => ⟨s, rfl, h⟩
  | c :: cs, s, ks, h => by
    obtain ⟨s1, e1, h1⟩ := exec_holds P c h
    obtain ⟨s2, e2, h2⟩ := run_holds P cs h1
    refine ⟨s2, by simp [run, e1, e2], ?_⟩
    cases c <;> exact h2

theorem mem_keysAfter (x : Int) : ∀ (cs : List Call) (ks : List Int),
    x ∈ keysAfter cs ks ↔ x ∈ ks ∨ Call.insert x ∈ cs
  | [], ks => by simp [keysAfter]
  | .insert k :: cs, ks => by
    rw [keysAfter, mem_keysAfter x cs]
    by_cases hk : k ∈ ks
    · simp only [hk, if_true, List.mem_cons, Call.insert.injEq]
      constructor
      · rintro (h | h)
        · exact Or.inl h
        · exact Or.inr (Or.inr h)
      · rintro (h | h | h)
        · exact Or.inl h
        · exact Or.inl (h ▸ hk)
        · exact Or.inr h
    · simp only [hk, if_false, List.mem_orderedInsert, List.mem_cons, Call.insert.injEq]
      tauto
  | .find k :: cs, ks => by
    rw [keysAfter, mem_keysAfter x cs]; simp
  | .contains k :: cs, ks => by
    rw [keysAfter, mem_keysAfter x cs]; simp

theorem ordered_of_sorted : ∀ (T : Tr), T.keys.Pairwise (· < ·) → T.Ordered
  | .nil, _ => trivial
  | .node l a k r, h => by
    simp only [Tr.keys, List.pairwise_append, List.pairwise_cons, List.mem_cons] at h
    obtain ⟨hl, ⟨hkr, hr⟩, hlr⟩ := h
    exact ⟨fun x hx => hlr x hx k (Or.inl rfl), hkr, ordered_of_sorted l hl, ordered_of_sorted r hr⟩

theorem holds_test_tree (P : SplayPolicy) : Holds (test_tree P) [1, 2, 3, 4, 5, 6, 7, 8] := by
  obtain ⟨s1, e1, h1⟩ := run_holds P (test_data.map Call.insert) holds_empty
  have hk : keysAfter (test_data.map Call.insert) [] = [1, 2, 3, 4, 5, 6, 7, 8] := by decide
  rw [hk] at h1
  simpa [test_tree, e1] using h1

theorem find_root (P : SplayPolicy) (key : Int) {s : SplayTree} {ks : List Int}
    (h : Holds s ks) (hne : ks ≠ []) :
    ∃ c kc s0 s1, SplayTree.find_node_with_closest_key_ key s = some (some c, s0) ∧
      s.find P key = some (if key ∈ ks then key else SplayTree.NOT_FOUND, s1) ∧
      s1.root_ = some c ∧ (s1.heap c).key = kc ∧ (s.heap c).key = kc ∧ kc ∈ ks ∧
      Nearest key kc ks ∧ Holds s1 ks := by
  obtain ⟨T, hI, hk, hS⟩ := h
  have hT : T ≠ .nil := by
    rintro rfl
    exact hne (by simpa [Tr.keys] using hk.symm)
  obtain ⟨A, c, kc, B, fs, A2, B2, h2, e1, e2, -, -, e5, hI2, -, hk2, hN⟩ :=
    find_spec P key hI hT hS
  have hiff : kc = key ↔ key ∈ ks := by
    rw [← hk]
    exact ⟨fun e => by rw [← hk2, ← e]; simp [Tr.keys], fun hm => nearest_hit hN hm⟩
  have hkc : kc ∈ ks := by rw [← hk, ← hk2]; simp [Tr.keys]
  have hsc : (s.heap c).key = kc := by
    have hM := hI.1.2.1
    rw [← e2, models_plug] at hM
    exact hM.1.1
  refine ⟨c, kc, _, _, e1, ?_, rfl, hI2.1.2.1.1, hsc, hkc, hk ▸ hN,
    ⟨_, hI2, hk2.trans hk, by rw [hk2]; exact hS⟩⟩
  rw [e5]
  by_cases hm : key ∈ ks
  · simp [hm, hiff.2 hm]
  · simp [hm, mt hiff.1 hm]

/-! ## The claims -/

/-- C1 (membership correctness). After any sequence of `insert`, `find` and
`contains` calls on the empty tree, with either splay policy, every call
returns, and a key `k` that some `insert` of the sequence was given is reported
by `contains` (result `true`) and returned by `find` (result `k`). -/
theorem membership_after_calls (P : SplayPolicy) (cs : List Call) (k : Int)
    (hk : Call.insert k ∈ cs) :
    ∃ s, run P cs SplayTree.empty = some s ∧
      (∃ s1, s.contains P k = some (true, s1)) ∧ (∃ s1, s.find P k = some (k, s1)) := by
  obtain ⟨s, e, h⟩ := run_holds P cs holds_empty
  have hm : k ∈ keysAfter cs [] := (mem_keysAfter k cs []).2 (Or.inr hk)
  obtain ⟨s1, e1, -⟩ := contains_holds P k h
  obtain ⟨s2, e2, -⟩ := find_holds P k h
  refine ⟨s, e, ⟨s1, ?_⟩, ⟨s2, ?_⟩⟩
  · rw [e1]; simp [hm]
  · rw [e2]; simp [hm]

/-- The scenario of `test_3` and `test_4`: after inserting 4,3,2,1,6,7,8,5 the
key 5 is found, with the double-rotation policy. -/
theorem membership_after_calls_witness :
    Call.insert 5 ∈ test_data.map Call.insert ∧
    ∃ s, run .DoubleRotation (test_data.map Call.insert) SplayTree.empty = some s ∧
      (∃ s1, s.contains .DoubleRotation 5 = some (true, s1)) ∧
      (∃ s1, s.find .DoubleRotation 5 = some (5, s1)) :=
  ⟨by decide, membership_after_calls .DoubleRotation (test_data.map Call.insert) 5 (by decide)⟩

/-- C2 (search-tree check after insertions). For every list of keys inserted
into the empty tree, with either splay policy, all insertions return and
`validate()` returns `true` afterwards; as every initial segment of a list of
keys is a list of keys, this is so after every single insertion. -/
theorem validate_after_inserts (P : SplayPolicy) (keys : List Int) :
    ∃ s, run P (keys.map Call.insert) SplayTree.empty = some s ∧ s.validate = some true := by
  obtain ⟨s, e, h⟩ := run_holds P (keys.map Call.insert) holds_empty
  exact ⟨s, e, validate_holds h⟩

/-- C3 (search-tree property, no duplicates). Every state reached from the
empty tree by `insert`, `find` and `contains` calls, with either policy, is a
tree laid out in memory (keys, child links and parent links of a shape `T`,
every node once) in which every node has only smaller keys in its left subtree
and only larger keys in its right subtree; the keys in order are strictly
increasing. -/
theorem bst_invariant_reachable (P : SplayPolicy) (cs : List Call) :
    ∃ s T, run P cs SplayTree.empty = some s ∧ Inv s T ∧ T.Ordered ∧
      T.keys.Pairwise (· < ·) := by
  obtain ⟨s, e, T, hI, -, hS⟩ := run_holds P cs holds_empty
  exact ⟨s, T, e, hI, ordered_of_sorted T hS, hS⟩

/-- C4 (the code at the failing input). On the empty tree, which stores no
key, `contains(0)` returns `true` with either policy: `find` returns its
not-found value 0 and `contains` compares it with the key 0. -/
theorem contains_default_on_empty (P : SplayPolicy) :
    Holds SplayTree.empty [] ∧
    SplayTree.empty.contains P 0 = some (true, SplayTree.empty) := by
  refine ⟨holds_empty, ?_⟩
  cases P <;> rfl

/-- C5 (result of `find`). On a well-formed search tree with keys `ks`,
`find(k)` returns: `k` when `k` is stored and the not-found value 0 when it is
not. On the empty tree it returns 0 and changes nothing but the counter, which
it sets to 0 (no rotation, the root stays null). -/
theorem find_result (P : SplayPolicy) (k : Int) (s : SplayTree) (ks : List Int)
    (h : Holds s ks) :
    (∃ s1, s.find P k = some (if k ∈ ks then k else 0, s1)) ∧
    (s.root_ = none → s.find P k = some (0, { s with find_length_ := 0 })) := by
  obtain ⟨s1, e1, -⟩ := find_holds P k h
  exact ⟨⟨s1, e1⟩, fun hr => find_empty P k s hr⟩

/-- On the tree of `test_4`, `find(3)` returns 3 with the naive policy. -/
theorem find_result_witness :
    Holds (test_tree .Naive) [1, 2, 3, 4, 5, 6, 7, 8] ∧
    ((∃ s1, (test_tree .Naive).find .Naive 3 =
        some (if (3 : Int) ∈ [1, 2, 3, 4, 5, 6, 7, 8] then 3 else 0, s1)) ∧
      ((test_tree .Naive).root_ = none → (test_tree .Naive).find .Naive 3 =
        some (0, { test_tree .Naive with find_length_ := 0 }))) :=
  ⟨holds_test_tree .Naive, find_result .Naive 3 (test_tree .Naive) _ (holds_test_tree .Naive)⟩

/-- C6 (idempotent insert). On a well-formed search tree with keys `ks`:
`insert(k)` of a stored key returns, leaves the in-order key list `ks`
unchanged and allocates no node, and `k` occurs once in `ks`; and for any key,
inserting it a second time leaves the key list of the first insertion
unchanged and allocates nothing. -/
theorem insert_idempotent (P : SplayPolicy) (k : Int) (s : SplayTree) (ks : List Int)
    (h : Holds s ks) :
    (k ∈ ks → ∃ s1, s.insert P k = some s1 ∧ Holds s1 ks ∧ s1.next = s.next ∧
      ks.count k = 1) ∧
    (∃ s1 s2 ks1, s.insert P k = some s1 ∧ s1.insert P k = some s2 ∧ Holds s1 ks1 ∧
      Holds s2 ks1 ∧ k ∈ ks1 ∧ s2.next = s1.next) := by
  obtain ⟨s1, e1, h1, n1⟩ := insert_holds P k h
  have hnd : ks.Nodup := by
    obtain ⟨T, -, hk, hS⟩ := h
    rw [← hk]
    exact hS.imp fun hab => ne_of_lt hab
  have hmem : k ∈ (if k ∈ ks then ks else ks.orderedInsert (· ≤ ·) k) := by
    by_cases hk : k ∈ ks <;> simp [hk]
  obtain ⟨s2, e2, h2, n2⟩ := insert_holds P k h1
  simp only [hmem, if_true] at h2 n2
  refine ⟨fun hk => ⟨s1, e1, ?_, ?_, List.count_eq_one_of_mem hnd hk⟩,
    ⟨s1, s2, _, e1, e2, h1, h2, hmem, n2⟩⟩
  · simpa [hk] using h1
  · simpa [hk] using n1

/-- On the tree of `test_3`, inserting 4 again changes no key. -/
theorem insert_idempotent_witness :
    Holds (test_tree .DoubleRotation) [1, 2, 3, 4, 5, 6, 7, 8] ∧
    (((4 : Int) ∈ [1, 2, 3, 4, 5, 6, 7, 8] → ∃ s1,
        (test_tree .DoubleRotation).insert .DoubleRotation 4 = some s1 ∧
        Holds s1 [1, 2, 3, 4, 5, 6, 7, 8] ∧ s1.next = (test_tree .DoubleRotation).next ∧
        List.count (4 : Int) [1, 2, 3, 4, 5, 6, 7, 8] = 1) ∧
      (∃ s1 s2 ks1, (test_tree .DoubleRotation).insert .DoubleRotation 4 = some s1 ∧
        s1.insert .DoubleRotation 4 = some s2 ∧ Holds s1 ks1 ∧ Holds s2 ks1 ∧ (4 : Int) ∈ ks1 ∧
        s2.next = s1.next)) :=
  ⟨holds_test_tree _, insert_idempotent .DoubleRotation 4 _ _ (holds_test_tree _)⟩

/-- C7 (insertion of a new key). On a well-formed search tree with keys `ks`,
`insert(k)` of a key that is not stored returns and the in-order key list
afterwards is `ks` with `k` inserted at its sorted position; exactly one node
is allocated. On the empty tree the result is a single root node holding `k`,
with no parent and no children. -/
theorem insert_new_key (P : SplayPolicy) (k : Int) (s : SplayTree) (ks : List Int)
    (h : Holds s ks) (hk : k ∉ ks) :
    ∃ s1, s.insert P k = some s1 ∧ Holds s1 (ks.orderedInsert (· ≤ ·) k) ∧
      s1.next = s.next + 1 ∧
      (s.root_ = none → ks.orderedInsert (· ≤ ·) k = [k] ∧ s1.root_ = some s.next ∧
        s1.heap s.next = ⟨k, none, none, none⟩) := by
  obtain ⟨s1, e1, h1, n1⟩ := insert_holds P k h
  simp only [hk, if_false] at h1 n1
  refine ⟨s1, e1, h1, n1, fun hr => ?_⟩
  have hks : ks = [] := (holds_nil_root h).1 hr
  rw [insert_empty P k s hr] at e1
  cases e1
  subst hks
  exact ⟨rfl, rfl, by simp [newNode]⟩

/-- On the tree of `test_3`, inserting the new key 9 gives the keys 1 to 9. -/
theorem insert_new_key_witness :
    Holds (test_tree .DoubleRotation) [1, 2, 3, 4, 5, 6, 7, 8] ∧
    (9 : Int) ∉ [1, 2, 3, 4, 5, 6, 7, 8] ∧
    ∃ s1, (test_tree .DoubleRotation).insert .DoubleRotation 9 = some s1 ∧
      Holds s1 (List.orderedInsert (· ≤ ·) (9 : Int) [1, 2, 3, 4, 5, 6, 7, 8]) ∧
      s1.next = (test_tree .DoubleRotation).next + 1 ∧
      ((test_tree .DoubleRotation).root_ = none →
        List.orderedInsert (· ≤ ·) (9 : Int) [1, 2, 3, 4, 5, 6, 7, 8] = [9] ∧
        s1.root_ = some (test_tree .DoubleRotation).next ∧
        s1.heap (test_tree .DoubleRotation).next = ⟨9, none, none, none⟩) :=
  ⟨holds_test_tree _, by decide,
    insert_new_key .DoubleRotation 9 _ _ (holds_test_tree _) (by decide)⟩

/-- C8 (root promotion on a hit). On a well-formed search tree with keys `ks`,
with either policy, `find(k)` of a stored key returns `k` and leaves at the
root a node whose key is `k`. -/
theorem find_hit_root (P : SplayPolicy) (k : Int) (s : SplayTree) (ks : List Int)
    (h : Holds s ks) (hk : k ∈ ks) :
    ∃ s1 r, s.find P k = some (k, s1) ∧ s1.root_ = some r ∧ (s1.heap r).key = k := by
  obtain ⟨c, kc, s0, s1, -, e2, e3, e4, -, -, hN, -⟩ :=
    find_root P k h (List.ne_nil_of_mem hk)
  refine ⟨s1, c, by simpa [hk] using e2, e3, ?_⟩
  rw [e4]
  exact nearest_hit hN hk

/-- On the tree of `test_4`, `find(6)` with the naive policy puts key 6 at the
root. -/
theorem find_hit_root_witness :
    Holds (test_tree .Naive) [1, 2, 3, 4, 5, 6, 7, 8] ∧ (6 : Int) ∈ [1, 2, 3, 4, 5, 6, 7, 8] ∧
    ∃ s1 r, (test_tree .Naive).find .Naive 6 = some (6, s1) ∧ s1.root_ = some r ∧
      (s1.heap r).key = 6 :=
  ⟨holds_test_tree _, by decide, find_hit_root .Naive 6 _ _ (holds_test_tree _) (by decide)⟩

/-- C9 (root promotion on a miss). On a non-empty well-formed search tree with
keys `ks`, with either policy, `find(k)` of a key that is not stored returns
and leaves at the root the node `c` at which the descent
(`find_node_with_closest_key_`) stopped; the key of `c` is unchanged, is
stored, and is the greatest stored key below `k` or the least stored key above
`k`. -/
theorem find_miss_root (P : SplayPolicy) (k : Int) (s : SplayTree) (ks : List Int)
    (h : Holds s ks) (hne : ks ≠ []) (hk : k ∉ ks) :
    ∃ c s0 v s1, SplayTree.find_node_with_closest_key_ k s = some (some c, s0) ∧
      s.find P k = some (v, s1) ∧ s1.root_ = some c ∧
      (s1.heap c).key = (s.heap c).key ∧ (s1.heap c).key ∈ ks ∧
      (((s1.heap c).key < k ∧ ∀ x ∈ ks, x < k → x ≤ (s1.heap c).key) ∨
        (k < (s1.heap c).key ∧ ∀ x ∈ ks, k < x → (s1.heap c).key ≤ x)) := by
  obtain ⟨c, kc, s0, s1, e1, e2, e3, e4, e5, hkc, hN, -⟩ := find_root P k h hne
  refine ⟨c, s0, _, s1, e1, e2, e3, e4.trans e5.symm, e4 ▸ hkc, ?_⟩
  rw [e4]
  rcases hN with hN | ⟨h1, h2⟩ | ⟨h1, h2⟩
  · exact absurd (hN ▸ hkc) hk
  · refine Or.inl ⟨h1, fun x hx hxk => ?_⟩
    by_contra hcon
    exact absurd (h2 x hx (not_le.1 hcon)) (not_lt.2 hxk.le)
  · refine Or.inr ⟨h1, fun x hx hxk => ?_⟩
    by_contra hcon
    exact absurd (h2 x hx (not_le.1 hcon)) (not_lt.2 hxk.le)

/-- On the tree of `test_3`, `find(9)` (not stored) promotes a neighbour of 9. -/
theorem find_miss_root_witness :
    Holds (test_tree .DoubleRotation) [1, 2, 3, 4, 5, 6, 7, 8] ∧
    ([1, 2, 3, 4, 5, 6, 7, 8] : List Int) ≠ [] ∧ (9 : Int) ∉ [1, 2, 3, 4, 5, 6, 7, 8] ∧
    ∃ c s0 v s1,
      SplayTree.find_node_with_closest_key_ 9 (test_tree .DoubleRotation) = some (some c, s0) ∧
      (test_tree .DoubleRotation).find .DoubleRotation 9 = some (v, s1) ∧ s1.root_ = some c ∧
      (s1.heap c).key = ((test_tree .DoubleRotation).heap c).key ∧
      (s1.heap c).key ∈ [1, 2, 3, 4, 5, 6, 7, 8] ∧
      (((s1.heap c).key < 9 ∧ ∀ x ∈ [1, 2, 3, 4, 5, 6, 7, 8], x < 9 → x ≤ (s1.heap c).key) ∨
        (9 < (s1.heap c).key ∧ ∀ x ∈ [1, 2, 3, 4, 5, 6, 7, 8], 9 < x → (s1.heap c).key ≤ x)) :=
  ⟨holds_test_tree _, by decide, by decide,
    find_miss_root .DoubleRotation 9 _ _ (holds_test_tree _) (by decide) (by decide)⟩

/-- C10 (the two policies agree on membership). After the same sequence of
calls on the empty tree, the double-rotation tree and the naive tree hold the
same in-order key list, and `contains(k)` returns the same result on both, for
every key `k`. -/
theorem strategy_equivalence (cs : List Call) (k : Int) :
    ∃ sD sN ks b sD1 sN1,
      run .DoubleRotation cs SplayTree.empty = some sD ∧
      run .Naive cs SplayTree.empty = some sN ∧ Holds sD ks ∧ Holds sN ks ∧
      sD.contains .DoubleRotation k = some (b, sD1) ∧ sN.contains .Naive k = some (b, sN1) := by
  obtain ⟨sD, eD, hD⟩ := run_holds .DoubleRotation cs holds_empty
  obtain ⟨sN, eN, hN⟩ := run_holds .Naive cs holds_empty
  obtain ⟨sD1, cD, -⟩ := contains_holds .DoubleRotation k hD
  obtain ⟨sN1, cN, -⟩ := contains_holds .Naive k hN
  exact ⟨sD, sN, _, _, sD1, sN1, eD, eN, hD, hN, cD, cN⟩

/-! ## Lemmas for the rotations, the splay loop and the counter -/

theorem plug_append (t : Tr) (fs gs : List Frame) : plug t (fs ++ gs) = plug (plug t fs) gs := by
  induction fs generalizing t with
  | nil => rfl
  | cons f fs ih => exact ih (f.fill t)

/-- Every node of a shape is the node under some path of the shape. -/
theorem exists_plug_of_mem : ∀ (T : Tr) (n : Nat), n ∈ T.addrs →
    ∃ A kn B fs, T = plug (.node A n kn B) fs
  | .nil, _, h => by simp [Tr.addrs] at h
  | .node l a k r, n, h => by
    simp only [Tr.addrs, List.mem_append, List.mem_cons] at h
    rcases h with h | h | h
    · obtain ⟨A, kn, B, fs, e⟩ := exists_plug_of_mem l n h
      exact ⟨A, kn, B, fs ++ [.L a k r], by rw [plug_append, ← e]; rfl⟩
    · exact ⟨l, k, r, [], by rw [h]; rfl⟩
    · obtain ⟨A, kn, B, fs, e⟩ := exists_plug_of_mem r n h
      exact ⟨A, kn, B, fs ++ [.R l a k], by rw [plug_append, ← e]; rfl⟩

theorem depth_unique {h : Heap} {n d1 d2 : Nat} (h1 : Depth h n d1) (h2 : Depth h n d2) :
    d1 = d2 := by
  induction h1 generalizing d2 with
  | root n hp =>
    cases h2 with
    | root _ _ => rfl
    | child _ p d hp2 _ => rw [hp] at hp2; cases hp2
  | child n p d hp _ ih =>
    cases h2 with
    | root _ hp2 => rw [hp] at hp2; cases hp2
    | child _ p2 d2 hp2 hd2 =>
      rw [hp] at hp2; cases hp2
      rw [ih hd2]

/-- The node under a path of length `k` is `k` parent links below the root. -/
theorem depth_of_plug (h : Heap) : ∀ (fs : List Frame) (A B : Tr) (n : Nat) (kn : Int),
    Models h none (plug (.node A n kn B) fs) → Depth h n fs.length
  | [], A, B, n, kn, hM => Depth.root n hM.2.1
  | f :: fs, A, B, n, kn, hM => by
    have hp : (h n).parent = top (f :: fs) := ((models_plug h _ _).1 hM).1.2.1
    cases f with
    | L p kp C =>
      exact Depth.child n p _ hp (depth_of_plug h fs (.node A n kn B) C p kp hM)
    | R C p kp =>
      exact Depth.child n p _ hp (depth_of_plug h fs C (.node A n kn B) p kp hM)

theorem searchPath_plug (key : Int) : ∀ (fs : List Frame) (t : Tr), PathInv key fs →
    ((plug t fs).searchPath key).length = fs.length + (t.searchPath key).length
  | [], t, _ => by simp [plug]
  | .L a k r :: fs, t, hP => by
    have h1 : ¬ k = key := ne_of_gt hP.1
    have h2 : ¬ k < key := not_lt.2 hP.1.le
    rw [plug, searchPath_plug key fs _ hP.2]
    simp [Frame.fill, Tr.searchPath, h1, h2]
    omega
  | .R l a k :: fs, t, hP => by
    have h1 : ¬ k = key := ne_of_lt hP.1
    rw [plug, searchPath_plug key fs _ hP.2]
    simp [Frame.fill, Tr.searchPath, h1, hP.1]
    omega

theorem searchPath_stop {key : Int} {A B : Tr} {c : Nat} {kc : Int} (hstop : Stop key A kc B) :
    ((Tr.node A c kc B).searchPath key).length = 1 := by
  rcases hstop with h | ⟨h, rfl⟩ | ⟨h, rfl⟩
  · simp [Tr.searchPath, h]
  · simp [Tr.searchPath, ne_of_lt h, h]
  · simp [Tr.searchPath, ne_of_gt h, not_lt.2 h.le]

theorem rotate_left_absent (node : Option Nat) (tree_root : Option Unit) (m : Mem)
    (h : node = none ∨ tree_root = none ∨ m.root = none) :
    rotate_left node tree_root m = some m := by
  unfold rotate_left
  rcases h with rfl | rfl | h
  · rfl
  · cases node <;> rfl
  · cases node <;> cases tree_root <;> simp [h]

theorem rotate_right_absent (node : Option Nat) (tree_root : Option Unit) (m : Mem)
    (h : node = none ∨ tree_root = none) :
    rotate_right node tree_root m = some m := by
  unfold rotate_right
  rcases h with rfl | rfl
  · rfl
  · cases node <;> rfl

theorem inv_skewed_tree : Inv skewed_tree skewed_shape := by
  refine ⟨⟨rfl, ?_, by decide⟩, by decide⟩
  simp [skewed_shape, Models, skewed_tree]

theorem ordered_iff_sorted : ∀ (T : Tr), T.Ordered ↔ T.keys.Pairwise (· < ·)
  | .nil => by simp [Tr.Ordered, Tr.keys]
  | .node l a k r => by
    simp only [Tr.Ordered, Tr.keys, List.pairwise_append, List.pairwise_cons, List.mem_cons,
      ordered_iff_sorted l, ordered_iff_sorted r]
    constructor
    · rintro ⟨h1, h2, h3, h4⟩
      refine ⟨h3, ⟨h2, h4⟩, ?_⟩
      rintro x hx y (rfl | hy)
      · exact h1 x hx
      · exact lt_trans (h1 x hx) (h2 y hy)
    · rintro ⟨h1, ⟨h2, h3⟩, h4⟩
      exact ⟨fun x hx => h4 x hx k (Or.inl rfl), h2, h1, h3⟩

theorem valid_iff_sorted : ∀ (T : Tr), T.Valid ↔ T.keys.Pairwise (· ≤ ·)
  | .nil => by simp [Tr.Valid, Tr.keys]
  | .node l a k r => by
    simp only [Tr.Valid, Tr.keys, List.pairwise_append, List.pairwise_cons, List.mem_cons,
      valid_iff_sorted l, valid_iff_sorted r]
    constructor
    · rintro ⟨h1, h2, h3, h4⟩
      refine ⟨h3, ⟨h2, h4⟩, ?_⟩
      rintro x hx y (rfl | hy)
      · exact h1 x hx
      · exact le_trans (h1 x hx) (h2 y hy)
    · rintro ⟨h1, ⟨h2, h3⟩, h4⟩
      exact ⟨fun x hx => h4 x hx k (Or.inl rfl), h2, h1, h3⟩

/-- The links of the node under a path. -/
theorem wf_focus {m : Mem} {A B : Tr} {n : Nat} {kn : Int} {fs : List Frame}
    (hW : Wf m (plug (.node A n kn B) fs)) :
    (m.heap n).left = A.ptr ∧ (m.heap n).right = B.ptr ∧ (m.heap n).parent = top fs := by
  have h := ((models_plug _ _ _).1 hW.2.1).1
  exact ⟨h.2.2.1, h.2.2.2.1, h.2.1⟩

theorem ptr_ne_none {t : Tr} (h : t.ptr ≠ none) : ∃ l a k r, t = .node l a k r := by
  cases t with
  | nil => exact absurd rfl h
  | node l a k r => exact ⟨l, a, k, r, rfl⟩

theorem mem_plug_focus (A B : Tr) (n : Nat) (kn : Int) (fs : List Frame) :
    n ∈ (plug (.node A n kn B) fs).addrs := by
  rw [plug_addrs]; simp [Tr.addrs]

/-- The links of a tree in memory are consistent: the root has no parent,
every other node has a parent in the tree, a child link of a tree node leads
to a tree node whose parent link leads back (and a node is not both children
of its parent), and a parent link leads to a node with a child link back. -/
theorem wf_links {m : Mem} {T : Tr} (hW : Wf m T) :
    (∀ r, m.root = some r → r ∈ T.addrs ∧ (m.heap r).parent = none) ∧
    (∀ y ∈ T.addrs, m.root ≠ some y → ∃ x ∈ T.addrs, (m.heap y).parent = some x) ∧
    (∀ x ∈ T.addrs, ∀ y, (m.heap x).left = some y ∨ (m.heap x).right = some y →
      y ∈ T.addrs ∧ (m.heap y).parent = some x ∧
      ¬ ((m.heap x).left = some y ∧ (m.heap x).right = some y)) ∧
    (∀ y ∈ T.addrs, ∀ x, (m.heap y).parent = some x →
      (m.heap x).left = some y ∨ (m.heap x).right = some y) := by
  refine ⟨fun r hr => ?_, fun y hy hne => ?_, fun x hx y hxy => ?_, fun y hy x hp => ?_⟩
  · rw [hW.1] at hr
    obtain ⟨l, a, k, r', rfl⟩ := ptr_ne_none (by rw [hr]; simp)
    simp only [Tr.ptr_node, Option.some.injEq] at hr
    subst hr
    exact ⟨by simp [Tr.addrs], hW.2.1.2.1⟩
  · obtain ⟨A, ky, B, fs, rfl⟩ := exists_plug_of_mem T y hy
    obtain ⟨-, -, f3⟩ := wf_focus hW
    cases fs with
    | nil => exact absurd hW.1 hne
    | cons f fs =>
      refine ⟨f.addr, ?_, f3⟩
      cases f with
      | L p kp C => exact mem_plug_focus (.node A y ky B) C p kp fs
      | R C p kp => exact mem_plug_focus C (.node A y ky B) p kp fs
  · obtain ⟨A, kx, B, fs, rfl⟩ := exists_plug_of_mem T x hx
    obtain ⟨f1, f2, -⟩ := wf_focus hW
    have hnd := hW.2.2
    rw [plug_addrs, nodup_split] at hnd
    have hnd1 := hnd.1
    simp only [Tr.addrs, List.nodup_append, List.nodup_cons, List.mem_cons, List.Disjoint] at hnd1
    have hexcl : ¬ ((m.heap x).left = some y ∧ (m.heap x).right = some y) := by
      rintro ⟨h1, h2⟩
      rw [f1] at h1; rw [f2] at h2
      exact hnd1.2.2 (ptr_mem h1) (Or.inr (ptr_mem h2))
    rcases hxy with h1 | h1
    · rw [f1] at h1
      obtain ⟨Al, a, ka, Ar, rfl⟩ := ptr_ne_none (by rw [h1]; simp)
      simp only [Tr.ptr_node, Option.some.injEq] at h1
      subst h1
      have hW2 : Wf m (plug (.node Al a ka Ar) (.L x kx B :: fs)) := hW
      exact ⟨mem_plug_focus Al Ar a ka (.L x kx B :: fs), (wf_focus hW2).2.2, hexcl⟩
    · rw [f2] at h1
      obtain ⟨Bl, a, ka, Br, rfl⟩ := ptr_ne_none (by rw [h1]; simp)
      simp only [Tr.ptr_node, Option.some.injEq] at h1
      subst h1
      have hW2 : Wf m (plug (.node Bl a ka Br) (.R A x kx :: fs)) := hW
      exact ⟨mem_plug_focus Bl Br a ka (.R A x kx :: fs), (wf_focus hW2).2.2, hexcl⟩
  · obtain ⟨A, ky, B, fs, rfl⟩ := exists_plug_of_mem T y hy
    obtain ⟨-, -, f3⟩ := wf_focus hW
    rw [f3] at hp
    cases fs with
    | nil => simp [top] at hp
    | cons f fs =>
      cases f with
      | L p kp C =>
        simp only [top, Frame.addr, Option.some.injEq] at hp
        subst hp
        exact Or.inl (wf_left_child hW).2.1
      | R C p kp =>
        simp only [top, Frame.addr, Option.some.injEq] at hp
        subst hp
        exact Or.inr (wf_right_child hW).2.1

/-- The loop body does what the branch it takes says. -/
theorem body_eq_of_branch (node p : Nat) (m : Mem) :
    DoubleRotationSplayPolicy.body node p m =
      match DoubleRotationSplayPolicy.branch node m.heap with
      | none => none
      | some .zig =>
        match utils.is_left_son m.heap node with
        | none => none
        | some true => rotate_right (some p) (some ()) m
        | some false => rotate_left (some p) (some ()) m
      | some .zig_zig_left =>
        (rotate_right (m.heap p).parent (some ()) m).bind fun m1 =>
          rotate_right (m1.heap node).parent (some ()) m1
      | some .zig_zig_right =>
        (rotate_left (m.heap p).parent (some ()) m).bind fun m1 =>
          rotate_left (m1.heap node).parent (some ()) m1
      | some .zig_zag_left_of_right =>
        (rotate_right (some p) (some ()) m).bind fun m1 =>
          rotate_left (m1.heap node).parent (some ()) m1
      | some .zig_zag_right_of_left =>
        (rotate_left (some p) (some ()) m).bind fun m1 =>
          rotate_right (m1.heap node).parent (some ()) m1
      | some .undefined => some m := by
  unfold DoubleRotationSplayPolicy.body DoubleRotationSplayPolicy.branch
  by_cases h0 : utils.is_son_of_root m.heap node = true
  · simp only [h0, if_true]
  · simp only [h0, if_false]
    rcases utils.is_left_son_of_left_son m.heap node with _ | _ | _ <;> try rfl
    rcases utils.is_right_son_of_right_son m.heap node with _ | _ | _ <;> try rfl
    rcases utils.is_left_son_of_right_son m.heap node with _ | _ | _ <;> try rfl
    rcases utils.is_right_son_of_left_son m.heap node with _ | _ | _ <;> try rfl

/-- The tests of the loop body on a node that is not the root of a tree in
memory: it is a son of the root, or it has a grandparent and then exactly one
of the four two-level tests holds. -/
theorem double_cases {m : Mem} {A B : Tr} {n : Nat} {kn : Int} {f : Frame} {fs : List Frame}
    (hW : Wf m (plug (.node A n kn B) (f :: fs))) :
    (∃ c, DoubleRotationSplayPolicy.branch n m.heap = some c ∧ c ≠ .undefined) ∧
    (utils.is_son_of_root m.heap n = true ∨
      (utils.is_son_of_root m.heap n = false ∧ ∃ b1 b2 b3 b4,
        utils.is_left_son_of_left_son m.heap n = some b1 ∧
        utils.is_right_son_of_right_son m.heap n = some b2 ∧
        utils.is_left_son_of_right_son m.heap n = some b3 ∧
        utils.is_right_son_of_left_son m.heap n = some b4 ∧
        [b1, b2, b3, b4].count true = 1)) := by
  cases fs with
  | nil =>
    have hz : utils.is_son_of_root m.heap n = true := by
      cases f with
      | L p kp C =>
        obtain ⟨f1, -, -, f4⟩ := wf_left_child hW
        simp [utils.is_son_of_root, f1, f4, top]
      | R C p kp =>
        obtain ⟨f1, -, -, f4⟩ := wf_right_child hW
        simp [utils.is_son_of_root, f1, f4, top]
    exact ⟨⟨.zig, by simp [DoubleRotationSplayPolicy.branch, hz], by decide⟩, Or.inl hz⟩
  | cons f2 fs =>
    cases f with
    | L p kp C =>
      obtain ⟨f1, f2', f3, f4⟩ := wf_left_child hW
      cases f2 with
      | L g kg D =>
        have hWp : Wf m (plug (.node (.node A n kn B) p kp C) (.L g kg D :: fs)) := hW
        obtain ⟨g1, g2, g3, g4⟩ := wf_left_child hWp
        have hz : utils.is_son_of_root m.heap n = false := by
          simp [utils.is_son_of_root, f1, g1]
        have c1 : utils.is_left_son_of_left_son m.heap n = some true := by
          simp [utils.is_left_son_of_left_son, utils.is_left_son, utils.is_son_of_left_son,
            f1, f2', g1, g2]
        have c2 : utils.is_right_son_of_right_son m.heap n = some false := by
          simp [utils.is_right_son_of_right_son, utils.is_right_son, f1, f3]
        have c3 : utils.is_left_son_of_right_son m.heap n = some false := by
          simp [utils.is_left_son_of_right_son, utils.is_left_son, utils.is_son_of_right_son,
            f1, f2', g1, g3]
        have c4 : utils.is_right_son_of_left_son m.heap n = some false := by
          simp [utils.is_right_son_of_left_son, utils.is_right_son, f1, f3]
        exact ⟨⟨.zig_zig_left, by simp [DoubleRotationSplayPolicy.branch, hz, c1], by decide⟩,
          Or.inr ⟨hz, _, _, _, _, c1, c2, c3, c4, by decide⟩⟩
      | R D g kg =>
        have hWp : Wf m (plug (.node (.node A n kn B) p kp C) (.R D g kg :: fs)) := hW
        obtain ⟨g1, g2, g3, g4⟩ := wf_right_child hWp
        have hz : utils.is_son_of_root m.heap n = false := by
          simp [utils.is_son_of_root, f1, g1]
        have c1 : utils.is_left_son_of_left_son m.heap n = some false := by
          simp [utils.is_left_son_of_left_son, utils.is_left_son, utils.is_son_of_left_son,
            f1, f2', g1, g3]
        have c2 : utils.is_right_son_of_right_son m.heap n = some false := by
          simp [utils.is_right_son_of_right_son, utils.is_right_son, f1, f3]
        have c3 : utils.is_left_son_of_right_son m.heap n = some true := by
          simp [utils.is_left_son_of_right_son, utils.is_left_son, utils.is_son_of_right_son,
            f1, f2', g1, g2]
        have c4 : utils.is_right_son_of_left_son m.heap n = some false := by
          simp [utils.is_right_son_of_left_son, utils.is_right_son, f1, f3]
        exact ⟨⟨.zig_zag_left_of_right,
          by simp [DoubleRotationSplayPolicy.branch, hz, c1, c2, c3], by decide⟩,
          Or.inr ⟨hz, _, _, _, _, c1, c2, c3, c4, by decide⟩⟩
    | R C p kp =>
      obtain ⟨f1, f2', f3, f4⟩ := wf_right_child hW
      cases f2 with
      | L g kg D =>
        have hWp : Wf m (plug (.node C p kp (.node A n kn B)) (.L g kg D :: fs)) := hW
        obtain ⟨g1, g2, g3, g4⟩ := wf_left_child hWp
        have hz : utils.is_son_of_root m.heap n = false := by
          simp [utils.is_son_of_root, f1, g1]
        have c1 : utils.is_left_son_of_left_son m.heap n = some false := by
          simp [utils.is_left_son_of_left_son, utils.is_left_son, f1, f3]
        have c2 : utils.is_right_son_of_right_son m.heap n = some false := by
          simp [utils.is_right_son_of_right_son, utils.is_right_son, utils.is_son_of_right_son,
            f1, f2', g1, g3]
        have c3 : utils.is_left_son_of_right_son m.heap n = some false := by
          simp [utils.is_left_son_of_right_son, utils.is_left_son, f1, f3]
        have c4 : utils.is_right_son_of_left_son m.heap n = some true := by
          simp [utils.is_right_son_of_left_son, utils.is_right_son, utils.is_son_of_left_son,
            f1, f2', g1, g2]
        exact ⟨⟨.zig_zag_right_of_left,
          by simp [DoubleRotationSplayPolicy.branch, hz, c1, c2, c3, c4], by decide⟩,
          Or.inr ⟨hz, _, _, _, _, c1, c2, c3, c4, by decide⟩⟩
      | R D g kg =>
        have hWp : Wf m (plug (.node C p kp (.node A n kn B)) (.R D g kg :: fs)) := hW
        obtain ⟨g1, g2, g3, g4⟩ := wf_right_child hWp
        have hz : utils.is_son_of_root m.heap n = false := by
          simp [utils.is_son_of_root, f1, g1]
        have c1 : utils.is_left_son_of_left_son m.heap n = some false := by
          simp [utils.is_left_son_of_left_son, utils.is_left_son, f1, f3]
        have c2 : utils.is_right_son_of_right_son m.heap n = some true := by
          simp [utils.is_right_son_of_right_son, utils.is_right_son, utils.is_son_of_right_son,
            f1, f2', g1, g2]
        have c3 : utils.is_left_son_of_right_son m.heap n = some false := by
          simp [utils.is_left_son_of_right_son, utils.is_left_son, f1, f3]
        have c4 : utils.is_right_son_of_left_son m.heap n = some false := by
          simp [utils.is_right_son_of_left_son, utils.is_right_son, utils.is_son_of_left_son,
            f1, f2', g1, g3]
        exact ⟨⟨.zig_zig_right, by simp [DoubleRotationSplayPolicy.branch, hz, c1, c2], by decide⟩,
          Or.inr ⟨hz, _, _, _, _, c1, c2, c3, c4, by decide⟩⟩

/-- A node of a tree in memory that has a parent lies under a non-empty path
whose first step is the parent. -/
theorem exists_plug_of_parent {m : Mem} {T : Tr} {n p : Nat} (hW : Wf m T) (hn : n ∈ T.addrs)
    (hp : (m.heap n).parent = some p) :
    ∃ A kn B f fs, T = plug (.node A n kn B) (f :: fs) ∧ f.addr = p := by
  obtain ⟨A, kn, B, fs, rfl⟩ := exists_plug_of_mem T n hn
  rw [(wf_focus hW).2.2] at hp
  cases fs with
  | nil => simp [top] at hp
  | cons f fs =>
    simp only [top, Option.some.injEq] at hp
    exact ⟨A, kn, B, f, fs, rfl, hp⟩

theorem policy_body_spec (P : SplayPolicy) {m : Mem} {A B : Tr} {n : Nat} {kn : Int} {f : Frame}
    {fs : List Frame} (hW : Wf m (plug (.node A n kn B) (f :: fs))) :
    ∃ m1, P.body n f.addr m = some m1 ∧
      Closer n kn (plug (.node A n kn B) (f :: fs)) (fs.length + 1) m1 := by
  cases P with
  | DoubleRotation => exact double_body_spec hW
  | Naive => exact naive_body_spec hW

theorem find_ignores_counter (P : SplayPolicy) (k : Int) (s : SplayTree) (n : Nat) :
    ({ s with find_length_ := n } : SplayTree).find P k = s.find P k := rfl

/-- The five checks of `test_1` on the memory after the rotation. -/
theorem test_1_passes :
    ∃ m, rotate_left (some 1) (some ()) ⟨test_1_heap, some 1⟩ = some m ∧ m.root = some 3 ∧
      (m.heap 3).left = some 1 ∧ (m.heap 1).left = some 2 ∧ (m.heap 1).right = some 4 ∧
      (m.heap 3).right = some 5 :=
  ⟨_, rfl, by decide⟩

/-- The five checks of `test_2` on the memory after the rotation. -/
theorem test_2_passes :
    ∃ m, rotate_right (some 1) (some ()) ⟨test_2_heap, some 1⟩ = some m ∧ m.root = some 2 ∧
      (m.heap 2).left = some 4 ∧ (m.heap 1).left = some 5 ∧ (m.heap 1).right = some 3 ∧
      (m.heap 2).right = some 1 :=
  ⟨_, rfl, by decide⟩

theorem key?_mem_keys {t : Tr} {x : Int} (h : t.key? = some x) : x ∈ t.keys := by
  cases t with
  | nil => simp [Tr.key?] at h
  | node l a k r =>
    simp only [Tr.key?, Option.some.injEq] at h
    simp [Tr.keys, h]

theorem childrenOrdered_of_valid : ∀ (T : Tr), T.Valid → T.ChildrenOrdered
  | .nil, _ => trivial
  | .node l _ _ r, h =>
    ⟨fun x hx => h.1 x (key?_mem_keys hx), fun x hx => h.2.1 x (key?_mem_keys hx),
      childrenOrdered_of_valid l h.2.2.1, childrenOrdered_of_valid r h.2.2.2⟩

theorem models_key? {h : Heap} {par : Option Nat} {t : Tr} (hM : Models h par t) :
    t.key? = t.ptr.map fun a => (h a).key := by
  cases t with
  | nil => rfl
  | node l a k r => simp [Tr.key?, hM.1]

/-- On a tree in memory `validate_` returns, and it returns `true` exactly
when every node passes the check against its two children. -/
theorem validate_child_check (h : Heap) : ∀ (T : Tr) (par : Option Nat) (fuel : Nat),
    Models h par T → T.addrs.length < fuel →
    (T.ChildrenOrdered → SplayTree.validate_ h fuel T.ptr = some true) ∧
    (¬ T.ChildrenOrdered → SplayTree.validate_ h fuel T.ptr = some false) := by
  intro T
  induction T with
  | nil =>
    intro par fuel _ hf
    obtain ⟨fuel, rfl⟩ : ∃ k, fuel = k + 1 := ⟨fuel - 1, by omega⟩
    exact ⟨fun _ => by simp [SplayTree.validate_], fun hn => absurd trivial hn⟩
  | node l a k r ihl ihr =>
    intro par fuel hM hf
    obtain ⟨fuel, rfl⟩ : ∃ k, fuel = k + 1 := ⟨fuel - 1, by omega⟩
    obtain ⟨h1, -, h3, h4, h5, h6⟩ := hM
    simp only [Tr.addrs, List.length_append, List.length_cons] at hf
    obtain ⟨l1, l2⟩ := ihl _ fuel h5 (by omega)
    obtain ⟨r1, r2⟩ := ihr _ fuel h6 (by omega)
    have c1 : (match l.ptr with
        | some l => decide ((h a).key < (h l).key)
        | none => false) = true ↔ ¬ (∀ x, l.key? = some x → x ≤ k) := by
      rw [models_key? h5, h1]
      rcases l.ptr with _ | la <;> simp
    have c2 : (match r.ptr with
        | some r => decide ((h r).key < (h a).key)
        | none => false) = true ↔ ¬ (∀ x, r.key? = some x → k ≤ x) := by
      rw [models_key? h6, h1]
      rcases r.ptr with _ | ra <;> simp
    simp only [Tr.ptr_node, SplayTree.validate_, h3, h4, gt_iff_lt]
    by_cases pL : ∀ x, l.key? = some x → x ≤ k
    · by_cases pR : ∀ x, r.key? = some x → k ≤ x
      · rw [if_neg (by intro e; exact c1.1 e pL), if_neg (by intro e; exact c2.1 e pR)]
        by_cases oR : r.ChildrenOrdered
        · by_cases oL : l.ChildrenOrdered
          · exact ⟨fun _ => by rw [r1 oR, l1 oL], fun hn => absurd ⟨pL, pR, oL, oR⟩ hn⟩
          · exact ⟨fun ho => absurd ho.2.2.1 oL, fun _ => by rw [r1 oR, l2 oL]⟩
        · exact ⟨fun ho => absurd ho.2.2.2 oR, fun _ => by rw [r2 oR]⟩
      · rw [if_neg (by intro e; exact c1.1 e pL), if_pos (by exact c2.2 pR)]
        exact ⟨fun ho => absurd ho.2.1 pR, fun _ => rfl⟩
    · rw [if_pos (by exact c1.2 pL)]
      exact ⟨fun ho => absurd ho.1 pL, fun _ => rfl⟩

/-! ## The claims on validation, rotations and splaying -/

/-- C11 (counterexample to the statement that `validate()` decides the
search-tree property). The tree 5{left:3{right:10}} is laid out in memory with
consistent links and is not a search tree (10 lies in the left subtree of 5),
yet `validate()` returns `true`: the checks of every node against its two
children do not add up to the property of the whole tree. -/
theorem validate_accepts_non_search_tree :
    Inv skewed_tree skewed_shape ∧ ¬ skewed_shape.Valid ∧ skewed_tree.validate = some true :=
  ⟨inv_skewed_tree, by simp [skewed_shape, Tr.Valid, Tr.keys], by decide⟩

/-- C11 (what `validate()` decides). On every tree laid out in memory, of any
shape and keys, `validate()` returns, and it returns `true` exactly when at
every node the key of the left child does not exceed the key of the node and
the key of the right child is not below it. Every valid search tree passes
this check; the converse is not claimed. -/
theorem validate_decides_child_check (s : SplayTree) (T : Tr) (hI : Inv s T) :
    (∃ b, s.validate = some b) ∧ (s.validate = some true ↔ T.ChildrenOrdered) ∧
    (T.Valid → s.validate = some true) := by
  obtain ⟨⟨hr, hM, hnd⟩, hlt⟩ := hI
  obtain ⟨v1, v2⟩ := validate_child_check s.heap T none (s.next + 1) hM
    (Nat.lt_succ_of_le (length_le_of_nodup_lt hnd hlt))
  simp only at hr
  have hv : s.validate = SplayTree.validate_ s.heap (s.next + 1) T.ptr := by
    rw [SplayTree.validate, hr]
  rw [hv]
  by_cases ho : T.ChildrenOrdered
  · exact ⟨⟨true, v1 ho⟩, ⟨fun _ => ho, fun _ => v1 ho⟩, fun _ => v1 ho⟩
  · refine ⟨⟨false, v2 ho⟩, ⟨fun e => ?_, fun h => absurd h ho⟩,
      fun hv => absurd (childrenOrdered_of_valid T hv) ho⟩
    rw [v2 ho] at e
    cases e

/-- The three-node tree 5{left:3{right:10}} passes the check against the
children at every node. -/
theorem validate_decides_child_check_witness :
    Inv skewed_tree skewed_shape ∧
    ((∃ b, skewed_tree.validate = some b) ∧
      (skewed_tree.validate = some true ↔ skewed_shape.ChildrenOrdered) ∧
      (skewed_shape.Valid → skewed_tree.validate = some true)) :=
  ⟨inv_skewed_tree, validate_decides_child_check skewed_tree skewed_shape inv_skewed_tree⟩

/-- C12 (insertion locality). On a well-formed search tree with keys `ks`,
with either policy, `insert(k)` returns and afterwards the node holding `k` is
the root or a child of the root. If `k` was new and the tree was not empty,
the root is the node at which the descent stopped, with its key unchanged, and
the new node (allocated at the address `next`) is the right child of the root
when the key of the root is less than `k` and its left child otherwise. -/
theorem insert_locality (P : SplayPolicy) (k : Int) (s : SplayTree) (ks : List Int)
    (h : Holds s ks) :
    ∃ s1 r, s.insert P k = some s1 ∧ s1.root_ = some r ∧
      ((s1.heap r).key = k ∨
        (∃ c, (s1.heap r).left = some c ∧ (s1.heap c).key = k) ∨
        (∃ c, (s1.heap r).right = some c ∧ (s1.heap c).key = k)) ∧
      (k ∉ ks → ks ≠ [] →
        (∃ s0, SplayTree.find_node_with_closest_key_ k s = some (some r, s0)) ∧
        (s1.heap r).key = (s.heap r).key ∧ (s1.heap s.next).key = k ∧
        (s1.heap s.next).parent = some r ∧
        (if (s1.heap r).key < k then (s1.heap r).right = some s.next
          else (s1.heap r).left = some s.next)) := by
  obtain ⟨T, hI, hk, hS⟩ := h
  by_cases hT : T = .nil
  · subst hT
    have hr : s.root_ = none := hI.1.1
    simp only [Tr.keys] at hk
    subst hk
    refine ⟨_, s.next, insert_empty P k s hr, rfl, Or.inl ?_, fun _ hne => absurd rfl hne⟩
    simp [newNode]
  · obtain ⟨A, c, kc, B, fs, A2, B2, h2, e1, e2, -, -, e5, hI2, -, hk2, hN⟩ :=
      insert_spec P k hI hT hS
    have hsc : (s.heap c).key = kc := by
      have hM := hI.1.2.1
      rw [← e2, models_plug] at hM
      exact hM.1.1
    have hM2 : Models h2 none (insertShape k A2 c kc B2 s.next) := hI2.1.2.1
    refine ⟨_, c, e5, rfl, ?_, ?_⟩
    · show (h2 c).key = k ∨ (∃ d, (h2 c).left = some d ∧ (h2 d).key = k) ∨
        (∃ d, (h2 c).right = some d ∧ (h2 d).key = k)
      by_cases hkk : kc = k
      · simp only [insertShape, hkk, if_true] at hM2
        exact Or.inl hM2.1
      · by_cases hlt : kc < k
        · simp only [insertShape, hkk, hlt, if_true, if_false] at hM2
          exact Or.inr (Or.inr ⟨s.next, hM2.2.2.2.1, hM2.2.2.2.2.2.1⟩)
        · simp only [insertShape, hkk, hlt, if_false] at hM2
          exact Or.inr (Or.inl ⟨s.next, hM2.2.2.1, hM2.2.2.2.2.1.1⟩)
    · intro hnot _
      have hkk : ¬ kc = k := fun e => hnot (by rw [← hk, ← hk2, ← e]; simp [Tr.keys])
      show (∃ s0, _ = some (some c, s0)) ∧ (h2 c).key = (s.heap c).key ∧
        (h2 s.next).key = k ∧ (h2 s.next).parent = some c ∧
        (if (h2 c).key < k then (h2 c).right = some s.next else (h2 c).left = some s.next)
      refine ⟨⟨_, e1⟩, ?_⟩
      by_cases hlt : kc < k
      · simp only [insertShape, hkk, hlt, if_true, if_false] at hM2
        obtain ⟨c1, -, -, c4, -, t1, t2, -⟩ := hM2
        exact ⟨c1.trans hsc.symm, t1, t2, by rw [c1, if_pos hlt]; exact c4⟩
      · simp only [insertShape, hkk, hlt, if_false] at hM2
        obtain ⟨c1, -, c3, -, ⟨t1, t2, -⟩, -⟩ := hM2
        exact ⟨c1.trans hsc.symm, t1, t2, by rw [c1, if_neg hlt]; exact c3⟩

/-- On the tree of `test_3`, inserting 9 hangs the new node below the root. -/
theorem insert_locality_witness :
    Holds (test_tree .DoubleRotation) [1, 2, 3, 4, 5, 6, 7, 8] ∧
    ∃ s1 r, (test_tree .DoubleRotation).insert .DoubleRotation 9 = some s1 ∧
      s1.root_ = some r ∧
      ((s1.heap r).key = 9 ∨
        (∃ c, (s1.heap r).left = some c ∧ (s1.heap c).key = 9) ∨
        (∃ c, (s1.heap r).right = some c ∧ (s1.heap c).key = 9)) ∧
      ((9 : Int) ∉ [1, 2, 3, 4, 5, 6, 7, 8] → ([1, 2, 3, 4, 5, 6, 7, 8] : List Int) ≠ [] →
        (∃ s0, SplayTree.find_node_with_closest_key_ 9 (test_tree .DoubleRotation) =
          some (some r, s0)) ∧
        (s1.heap r).key = ((test_tree .DoubleRotation).heap r).key ∧
        (s1.heap (test_tree .DoubleRotation).next).key = 9 ∧
        (s1.heap (test_tree .DoubleRotation).next).parent = some r ∧
        (if (s1.heap r).key < 9 then (s1.heap r).right = some (test_tree .DoubleRotation).next
          else (s1.heap r).left = some (test_tree .DoubleRotation).next)) :=
  ⟨holds_test_tree _, insert_locality .DoubleRotation 9 _ _ (holds_test_tree _)⟩

/-- C13 (`length_of_last_find`). On a well-formed search tree `s` with shape
`T` and keys `ks`, `find(k)` returns and the counter afterwards is: when `k` is
stored, the depth (number of parent links up to the root, in the memory before
the call) of the node holding `k`; when `k` is not stored, the number of nodes
the descent visits; 0 on the empty tree. The value the counter had before the
call has no influence. -/
theorem find_length_spec (P : SplayPolicy) (k : Int) (s : SplayTree) (ks : List Int)
    (h : Holds s ks) :
    ∃ T v s1, Inv s T ∧ T.keys = ks ∧ s.find P k = some (v, s1) ∧
      (k ∈ ks → ∃ c ∈ T.addrs, (s.heap c).key = k ∧ Depth s.heap c s1.length_of_last_find) ∧
      (k ∉ ks → s1.length_of_last_find = (T.searchPath k).length) ∧
      (ks = [] → s1.length_of_last_find = 0) ∧
      (∀ n, ({ s with find_length_ := n } : SplayTree).find P k = some (v, s1)) := by
  obtain ⟨T, hI, hk, hS⟩ := h
  by_cases hT : T = .nil
  · subst hT
    have hr : s.root_ = none := hI.1.1
    simp only [Tr.keys] at hk
    subst hk
    refine ⟨.nil, _, _, hI, rfl, find_empty P k s hr, fun hm => by simp at hm, fun _ => rfl,
      fun _ => rfl, fun n => ?_⟩
    rw [find_ignores_counter]; exact find_empty P k s hr
  · obtain ⟨A, c, kc, B, fs, A2, B2, h2, -, e2, e3, e4, e5, -, -, hk2, hN⟩ :=
      find_spec P k hI hT hS
    have hiff : kc = k ↔ k ∈ ks := by
      rw [← hk]
      exact ⟨fun e => by rw [← hk2, ← e]; simp [Tr.keys], fun hm => nearest_hit hN hm⟩
    have hM := hI.1.2.1
    rw [← e2] at hM
    have hsc : (s.heap c).key = kc := ((models_plug _ _ _).1 hM).1.1
    refine ⟨T, _, _, hI, hk, e5, fun hm => ⟨c, ?_, hsc.trans (hiff.2 hm), ?_⟩, fun hm => ?_,
      fun he => ?_, fun n => ?_⟩
    · rw [← e2, plug_addrs]; simp [Tr.addrs]
    · show Depth s.heap c (if kc = k then fs.length else fs.length + 1)
      rw [if_pos (hiff.2 hm)]
      exact depth_of_plug s.heap fs A B c kc hM
    · show (if kc = k then fs.length else fs.length + 1) = _
      rw [if_neg (mt hiff.1 hm), ← e2, searchPath_plug k fs _ e3, searchPath_stop e4]
    · have hkc : kc ∈ ks := by rw [← hk, ← hk2]; simp [Tr.keys]
      rw [he] at hkc
      exact absurd hkc (List.not_mem_nil kc)
    · rw [find_ignores_counter]; exact e5

/-- On the tree of `test_4`, the counter after `find(3)`. -/
theorem find_length_spec_witness :
    Holds (test_tree .Naive) [1, 2, 3, 4, 5, 6, 7, 8] ∧
    ∃ T v s1, Inv (test_tree .Naive) T ∧ T.keys = [1, 2, 3, 4, 5, 6, 7, 8] ∧
      (test_tree .Naive).find .Naive 3 = some (v, s1) ∧
      ((3 : Int) ∈ [1, 2, 3, 4, 5, 6, 7, 8] → ∃ c ∈ T.addrs,
        ((test_tree .Naive).heap c).key = 3 ∧
        Depth (test_tree .Naive).heap c s1.length_of_last_find) ∧
      ((3 : Int) ∉ [1, 2, 3, 4, 5, 6, 7, 8] →
        s1.length_of_last_find = (T.searchPath 3).length) ∧
      (([1, 2, 3, 4, 5, 6, 7, 8] : List Int) = [] → s1.length_of_last_find = 0) ∧
      (∀ n, ({ test_tree .Naive with find_length_ := n } : SplayTree).find .Naive 3 =
        some (v, s1)) :=
  ⟨holds_test_tree _, find_length_spec .Naive 3 _ _ (holds_test_tree _)⟩

/-- C14 (result of `rotate_left`). Let the tree root be present, let `p` be
the right child of the node `n`, and let `n`, `p`, the root of the left subtree
of `p` and the parent of `n` be different nodes. Then `rotate_left(n)` returns
and puts `p` where `n` stood (the root variable when `n` had no parent, else
the child link of the parent of `n` that held `n`), with `p.left = n`,
`p.right` unchanged, `n.left` unchanged and `n.right` the former left subtree
of `p`; parent links follow and no other node changes. -/
theorem rotate_left_shape (h : Heap) (root : Option Nat) (n p : Nat) (hroot : root ≠ none)
    (hr : (h n).right = some p) (hpn : p ≠ n)
    (hb : ∀ b, (h p).left = some b → b ≠ n ∧ b ≠ p)
    (hq : ∀ q, (h n).parent = some q → q ≠ n ∧ q ≠ p ∧ (h p).left ≠ some q) :
    ∃ m, rotate_left (some n) (some ()) ⟨h, root⟩ = some m ∧ RotatedLeft h root n p m := by
  obtain ⟨m, e, r1, en, ep, eb, eq, ex⟩ := rotate_left_eval h root n p hroot hr hpn.symm hb hq
  refine ⟨m, e, ?_, by rw [en], by rw [en], by rw [en], by rw [ep], by rw [ep], by rw [ep],
    eb, fun x => ?_, fun x a b => ex x b a⟩
  · rcases hp : (h n).parent with _ | q
    · exact Or.inl ⟨rfl, by rw [r1, if_pos hp]⟩
    · refine Or.inr ⟨q, rfl, by rw [r1, if_neg (by simp [hp])], ?_, ?_⟩
      · have := eq q hp
        by_cases hl : (h q).left = some n
        · rw [if_pos hl] at this ⊢; rw [this]; exact ⟨rfl, rfl⟩
        · rw [if_neg hl] at this ⊢; rw [this]; exact ⟨rfl, rfl⟩
      · have := eq q hp
        by_cases hl : (h q).left = some n
        · rw [if_pos hl] at this; rw [this]
        · rw [if_neg hl] at this; rw [this]
  · by_cases h1 : x = p
    · rw [h1, en]
    · by_cases h2 : x = n
      · rw [h2, ep]
      · by_cases h3 : (h p).left = some x
        · rw [eb x h3]
        · by_cases h4 : (h n).parent = some x
          · have := eq x h4
            by_cases hl : (h x).left = some n
            · rw [if_pos hl] at this; rw [this]
            · rw [if_neg hl] at this; rw [this]
          · rw [ex x h1 h2 h3 h4]

/-- The left rotation of `test_1`: in the tree 1{left:2, right:3{left:4,
right:5}} the rotation around node 1 has the pivot 3. -/
theorem rotate_left_shape_witness :
    (some 1 : Option Nat) ≠ none ∧ (test_1_heap 1).right = some 3 ∧ (3 : Nat) ≠ 1 ∧
    (∀ b, (test_1_heap 3).left = some b → b ≠ 1 ∧ b ≠ 3) ∧
    (∀ q, (test_1_heap 1).parent = some q → q ≠ 1 ∧ q ≠ 3 ∧ (test_1_heap 3).left ≠ some q) ∧
    ∃ m, rotate_left (some 1) (some ()) ⟨test_1_heap, some 1⟩ = some m ∧
      RotatedLeft test_1_heap (some 1) 1 3 m :=
  ⟨by decide, by decide, by decide, by decide, by decide,
    rotate_left_shape test_1_heap (some 1) 1 3 (by decide) (by decide) (by decide) (by decide)
      (by decide)⟩

/-- C15 (result of `rotate_right`). Let `p` be the left child of the node `n`,
and let `n`, `p`, the root of the right subtree of `p` and the parent of `n` be
different nodes. Then `rotate_right(n)` returns and puts `p` where `n` stood
(the root variable when `n` had no parent, else the child link of the parent
of `n` that held `n`), with `p.right = n`, `p.left` unchanged, `n.right`
unchanged and `n.left` the former right subtree of `p`; parent links follow and
no other node changes. -/
theorem rotate_right_shape (h : Heap) (root : Option Nat) (n p : Nat)
    (hl : (h n).left = some p) (hpn : p ≠ n)
    (hb : ∀ b, (h p).right = some b → b ≠ n ∧ b ≠ p)
    (hq : ∀ q, (h n).parent = some q → q ≠ n ∧ q ≠ p ∧ (h p).right ≠ some q) :
    ∃ m, rotate_right (some n) (some ()) ⟨h, root⟩ = some m ∧ RotatedRight h root n p m := by
  obtain ⟨m, e, r1, en, ep, eb, eq, ex⟩ := rotate_right_eval h root n p hl hpn.symm hb hq
  refine ⟨m, e, ?_, by rw [en], by rw [en], by rw [en], by rw [ep], by rw [ep], by rw [ep],
    eb, fun x => ?_, fun x a b => ex x b a⟩
  · rcases hp : (h n).parent with _ | q
    · exact Or.inl ⟨rfl, by rw [r1, if_pos hp]⟩
    · refine Or.inr ⟨q, rfl, by rw [r1, if_neg (by simp [hp])], ?_, ?_⟩
      · have := eq q hp
        by_cases hl : (h q).left = some n
        · rw [if_pos hl] at this ⊢; rw [this]; exact ⟨rfl, rfl⟩
        · rw [if_neg hl] at this ⊢; rw [this]; exact ⟨rfl, rfl⟩
      · have := eq q hp
        by_cases hl : (h q).left = some n
        · rw [if_pos hl] at this; rw [this]
        · rw [if_neg hl] at this; rw [this]
  · by_cases h1 : x = p
    · rw [h1, en]
    · by_cases h2 : x = n
      · rw [h2, ep]
      · by_cases h3 : (h p).right = some x
        · rw [eb x h3]
        · by_cases h4 : (h n).parent = some x
          · have := eq x h4
            by_cases hl : (h x).left = some n
            · rw [if_pos hl] at this; rw [this]
            · rw [if_neg hl] at this; rw [this]
          · rw [ex x h1 h2 h3 h4]

/-- The right rotation of `test_2`: in the tree 1{left:2{left:4, right:5},
right:3} the rotation around node 1 has the pivot 2. -/
theorem rotate_right_shape_witness :
    (test_2_heap 1).left = some 2 ∧ (2 : Nat) ≠ 1 ∧
    (∀ b, (test_2_heap 2).right = some b → b ≠ 1 ∧ b ≠ 2) ∧
    (∀ q, (test_2_heap 1).parent = some q → q ≠ 1 ∧ q ≠ 2 ∧ (test_2_heap 2).right ≠ some q) ∧
    ∃ m, rotate_right (some 1) (some ()) ⟨test_2_heap, some 1⟩ = some m ∧
      RotatedRight test_2_heap (some 1) 1 2 m :=
  ⟨by decide, by decide, by decide, by decide,
    rotate_right_shape test_2_heap (some 1) 1 2 (by decide) (by decide) (by decide) (by decide)⟩

/-- C16 (rotations keep the in-order key sequence). In a tree laid out in
memory with consistent parent and child links, for every node `n` of the tree:
if `n` has a right child, `rotate_left(n)` returns and the memory afterwards
holds a tree with the same in-order key list (and the same nodes in the same
order); if `n` has a left child, the same holds for `rotate_right(n)`. So
the search-tree property, strict or not, is kept. -/
theorem rotations_preserve_inorder (m : Mem) (T : Tr) (n : Nat) (hW : Wf m T)
    (hn : n ∈ T.addrs) :
    ((m.heap n).right ≠ none → ∃ m1 T1, rotate_left (some n) (some ()) m = some m1 ∧
      Wf m1 T1 ∧ T1.keys = T.keys ∧ T1.addrs = T.addrs ∧ (T.Valid → T1.Valid) ∧
      (T.Ordered → T1.Ordered)) ∧
    ((m.heap n).left ≠ none → ∃ m1 T1, rotate_right (some n) (some ()) m = some m1 ∧
      Wf m1 T1 ∧ T1.keys = T.keys ∧ T1.addrs = T.addrs ∧ (T.Valid → T1.Valid) ∧
      (T.Ordered → T1.Ordered)) := by
  obtain ⟨A, kn, B, fs, rfl⟩ := exists_plug_of_mem T n hn
  obtain ⟨f1, f2, -⟩ := wf_focus hW
  constructor
  · intro hr
    rw [f2] at hr
    obtain ⟨Bl, p, kp, Br, rfl⟩ := ptr_ne_none hr
    obtain ⟨m1, e1, hW1⟩ := rotate_left_wf fs hW
    have hk : (plug (.node (.node A n kn Bl) p kp Br) fs).keys =
        (plug (.node A n kn (.node Bl p kp Br)) fs).keys := by
      simp [plug_keys, Tr.keys]
    have ha : (plug (.node (.node A n kn Bl) p kp Br) fs).addrs =
        (plug (.node A n kn (.node Bl p kp Br)) fs).addrs := by
      simp [plug_addrs, Tr.addrs]
    refine ⟨m1, _, e1, hW1, hk, ha, ?_, ?_⟩
    · rw [valid_iff_sorted, valid_iff_sorted, hk]; exact id
    · rw [ordered_iff_sorted, ordered_iff_sorted, hk]; exact id
  · intro hl
    rw [f1] at hl
    obtain ⟨Al, p, kp, Ar, rfl⟩ := ptr_ne_none hl
    obtain ⟨m1, e1, hW1⟩ := rotate_right_wf fs hW
    have hk : (plug (.node Al p kp (.node Ar n kn B)) fs).keys =
        (plug (.node (.node Al p kp Ar) n kn B) fs).keys := by
      simp [plug_keys, Tr.keys]
    have ha : (plug (.node Al p kp (.node Ar n kn B)) fs).addrs =
        (plug (.node (.node Al p kp Ar) n kn B) fs).addrs := by
      simp [plug_addrs, Tr.addrs]
    refine ⟨m1, _, e1, hW1, hk, ha, ?_, ?_⟩
    · rw [valid_iff_sorted, valid_iff_sorted, hk]; exact id
    · rw [ordered_iff_sorted, ordered_iff_sorted, hk]; exact id

/-- In the three-node tree 5{left:3{right:10}} the node 3 (address 1) has a
right child. -/
theorem rotations_preserve_inorder_witness :
    Wf ⟨skewed_tree.heap, skewed_tree.root_⟩ skewed_shape ∧ 1 ∈ skewed_shape.addrs ∧
    (((skewed_tree.heap 1).right ≠ none → ∃ m1 T1,
      rotate_left (some 1) (some ()) ⟨skewed_tree.heap, skewed_tree.root_⟩ = some m1 ∧
      Wf m1 T1 ∧ T1.keys = skewed_shape.keys ∧ T1.addrs = skewed_shape.addrs ∧
      (skewed_shape.Valid → T1.Valid) ∧ (skewed_shape.Ordered → T1.Ordered)) ∧
    ((skewed_tree.heap 1).left ≠ none → ∃ m1 T1,
      rotate_right (some 1) (some ()) ⟨skewed_tree.heap, skewed_tree.root_⟩ = some m1 ∧
      Wf m1 T1 ∧ T1.keys = skewed_shape.keys ∧ T1.addrs = skewed_shape.addrs ∧
      (skewed_shape.Valid → T1.Valid) ∧ (skewed_shape.Ordered → T1.Ordered))) :=
  ⟨inv_skewed_tree.1, by decide,
    rotations_preserve_inorder _ skewed_shape 1 inv_skewed_tree.1 (by decide)⟩

/-- C17 (parent and child links are consistent in every reachable state).
After any sequence of `insert`, `find` and `contains` calls on the empty tree,
with either policy, the memory holds a tree `T` in which: the root has no
parent; every other node has a parent in the tree; every child link of a tree
node leads to a tree node whose parent link leads back, and no node is both the
left and the right child of its parent; every parent link of a tree node leads
to a node that has it as a child. -/
theorem links_consistent_reachable (P : SplayPolicy) (cs : List Call) :
    ∃ s T, run P cs SplayTree.empty = some s ∧ Inv s T ∧
      (∀ r, s.root_ = some r → r ∈ T.addrs ∧ (s.heap r).parent = none) ∧
      (∀ y ∈ T.addrs, s.root_ ≠ some y → ∃ x ∈ T.addrs, (s.heap y).parent = some x) ∧
      (∀ x ∈ T.addrs, ∀ y, (s.heap x).left = some y ∨ (s.heap x).right = some y →
        y ∈ T.addrs ∧ (s.heap y).parent = some x ∧
        ¬ ((s.heap x).left = some y ∧ (s.heap x).right = some y)) ∧
      (∀ y ∈ T.addrs, ∀ x, (s.heap y).parent = some x →
        (s.heap x).left = some y ∨ (s.heap x).right = some y) := by
  obtain ⟨s, e, T, hI, -, -⟩ := run_holds P cs holds_empty
  exact ⟨s, T, e, hI, wf_links hI.1⟩

/-- C18 (splay ends with the node at the root). In a tree laid out in memory
with consistent links, for every node `n` of the tree and either policy: `n`
has a depth `d`, and `splay(n)` returns whenever the loop may test its
condition more than `d` times; afterwards the memory holds a tree with the same
nodes, the root variable is `n` and `n` has no parent. Every pass of the loop
body (entered when `n` has a parent `p`) returns, leaves a tree with the same
nodes and strictly decreases the depth of `n`. -/
theorem splay_reaches_root (P : SplayPolicy) (m : Mem) (T : Tr) (n : Nat) (hW : Wf m T)
    (hn : n ∈ T.addrs) :
    (∃ d, Depth m.heap n d ∧ ∀ fuel, d < fuel → ∃ m1 T1,
      P.splay fuel (some n) (some ()) m = some m1 ∧ Wf m1 T1 ∧ T1.addrs = T.addrs ∧
      m1.root = some n ∧ (m1.heap n).parent = none) ∧
    (∀ p, (m.heap n).parent = some p → ∃ m1 T1 d d1, P.body n p m = some m1 ∧ Wf m1 T1 ∧
      T1.addrs = T.addrs ∧ Depth m.heap n d ∧ Depth m1.heap n d1 ∧ d1 < d) := by
  constructor
  · obtain ⟨A, kn, B, fs, rfl⟩ := exists_plug_of_mem T n hn
    refine ⟨fs.length, depth_of_plug m.heap fs A B n kn hW.2.1, fun fuel hf => ?_⟩
    obtain ⟨m1, e1, A1, B1, hW1, ha, -⟩ := policy_splay_spec P hW hf
    exact ⟨m1, _, e1, hW1, ha, hW1.1, hW1.2.1.2.1⟩
  · intro p hp
    obtain ⟨A, kn, B, f, fs, rfl, rfl⟩ := exists_plug_of_parent hW hn hp
    obtain ⟨m1, e1, A1, B1, fs1, hW1, hl, ha, -⟩ := policy_body_spec P hW
    exact ⟨m1, _, _, _, e1, hW1, ha, depth_of_plug m.heap (f :: fs) A B n kn hW.2.1,
      depth_of_plug m1.heap fs1 A1 B1 n kn hW1.2.1, hl⟩

/-- In the three-node tree 5{left:3{right:10}} the node 10 (address 2) is
splayed to the root by the double-rotation policy. -/
theorem splay_reaches_root_witness :
    Wf ⟨skewed_tree.heap, skewed_tree.root_⟩ skewed_shape ∧ 2 ∈ skewed_shape.addrs ∧
    ((∃ d, Depth skewed_tree.heap 2 d ∧ ∀ fuel, d < fuel → ∃ m1 T1,
      SplayPolicy.DoubleRotation.splay fuel (some 2) (some ())
        ⟨skewed_tree.heap, skewed_tree.root_⟩ = some m1 ∧
      Wf m1 T1 ∧ T1.addrs = skewed_shape.addrs ∧ m1.root = some 2 ∧
      (m1.heap 2).parent = none) ∧
    (∀ p, (skewed_tree.heap 2).parent = some p → ∃ m1 T1 d d1,
      SplayPolicy.DoubleRotation.body 2 p ⟨skewed_tree.heap, skewed_tree.root_⟩ = some m1 ∧
      Wf m1 T1 ∧ T1.addrs = skewed_shape.addrs ∧ Depth skewed_tree.heap 2 d ∧
      Depth m1.heap 2 d1 ∧ d1 < d)) :=
  ⟨inv_skewed_tree.1, by decide,
    splay_reaches_root .DoubleRotation _ skewed_shape 2 inv_skewed_tree.1 (by decide)⟩

/-- C19 (the five cases of the double-rotation splay are exhaustive). In a
tree laid out in memory with consistent links, for every node `n` of the tree
that has a parent `p`: the loop body takes one of the five rotation branches,
never the final `else`; `n` is a son of the root, or it is not and then all
four two-level tests can be evaluated and exactly one of them holds; and the
pass returns and leaves a tree with the same nodes, so the same holds at the
next pass. -/
theorem splay_cases_exhaustive (m : Mem) (T : Tr) (n p : Nat) (hW : Wf m T)
    (hn : n ∈ T.addrs) (hp : (m.heap n).parent = some p) :
    (∃ c, DoubleRotationSplayPolicy.branch n m.heap = some c ∧ c ≠ .undefined) ∧
    (utils.is_son_of_root m.heap n = true ∨
      (utils.is_son_of_root m.heap n = false ∧ ∃ b1 b2 b3 b4,
        utils.is_left_son_of_left_son m.heap n = some b1 ∧
        utils.is_right_son_of_right_son m.heap n = some b2 ∧
        utils.is_left_son_of_right_son m.heap n = some b3 ∧
        utils.is_right_son_of_left_son m.heap n = some b4 ∧
        [b1, b2, b3, b4].count true = 1)) ∧
    (∃ m1 T1, DoubleRotationSplayPolicy.body n p m = some m1 ∧ Wf m1 T1 ∧
      T1.addrs = T.addrs) := by
  obtain ⟨A, kn, B, f, fs, rfl, rfl⟩ := exists_plug_of_parent hW hn hp
  obtain ⟨h1, h2⟩ := double_cases hW
  obtain ⟨m1, e1, A1, B1, fs1, hW1, -, ha, -⟩ := double_body_spec hW
  exact ⟨h1, h2, m1, _, e1, hW1, ha⟩

/-- In the three-node tree 5{left:3{right:10}} the node 10 (address 2) is the
right son of a left son. -/
theorem splay_cases_exhaustive_witness :
    Wf ⟨skewed_tree.heap, skewed_tree.root_⟩ skewed_shape ∧ 2 ∈ skewed_shape.addrs ∧
    (skewed_tree.heap 2).parent = some 1 ∧
    ((∃ c, DoubleRotationSplayPolicy.branch 2 skewed_tree.heap = some c ∧ c ≠ .undefined) ∧
    (utils.is_son_of_root skewed_tree.heap 2 = true ∨
      (utils.is_son_of_root skewed_tree.heap 2 = false ∧ ∃ b1 b2 b3 b4,
        utils.is_left_son_of_left_son skewed_tree.heap 2 = some b1 ∧
        utils.is_right_son_of_right_son skewed_tree.heap 2 = some b2 ∧
        utils.is_left_son_of_right_son skewed_tree.heap 2 = some b3 ∧
        utils.is_right_son_of_left_son skewed_tree.heap 2 = some b4 ∧
        [b1, b2, b3, b4].count true = 1)) ∧
    (∃ m1 T1, DoubleRotationSplayPolicy.body 2 1 ⟨skewed_tree.heap, skewed_tree.root_⟩ =
        some m1 ∧ Wf m1 T1 ∧ T1.addrs = skewed_shape.addrs)) :=
  ⟨inv_skewed_tree.1, by decide, by decide,
    splay_cases_exhaustive _ skewed_shape 2 1 inv_skewed_tree.1 (by decide) (by decide)⟩

/-- C20 (the code at the failing input). With the root variable null and a
detached node 1 whose left child is node 2, `rotate_right(node 1)` is not a
no-op: it makes node 2 the root and rewires both nodes. `rotate_right` lacks
the test of the current root that `rotate_left` has. -/
theorem rotate_right_without_root :
    rootless_mem.root = none ∧
    ∃ m, rotate_right (some 1) (some ()) rootless_mem = some m ∧ m.root = some 2 ∧
      (m.heap 1).left = none ∧ (m.heap 1).parent = some 2 ∧ (m.heap 2).right = some 1 ∧
      (m.heap 2).parent = none :=
  ⟨rfl, _, rfl, by decide⟩

/-! ## Rotation around a node without pivot -/

/-- Memory after `rotate_left` around a node without right child. -/
theorem rotate_left_no_pivot_eval (h : Heap) (root : Option Nat) (n : Nat) (hroot : root ≠ none)
    (hr : (h n).right = none) (hq : ∀ q, (h n).parent = some q → q ≠ n) :
    ∃ m, rotate_left (some n) (some ()) ⟨h, root⟩ = some m ∧
      m.root = (if (h n).parent = none then none else root) ∧
      m.heap n = { h n with parent := none } ∧
      (∀ q, (h n).parent = some q →
        m.heap q = if (h q).left = some n then { h q with left := none }
          else { h q with right := none }) ∧
      (∀ x, x ≠ n → (h n).parent ≠ some x → m.heap x = h x) := by
  unfold rotate_left
  obtain ⟨r0, rfl⟩ := Option.ne_none_iff_exists'.1 hroot
  rcases hp : (h n).parent with _ | q
  · simp [hr, hp, setParent]
    intro x hx
    simp [hx]
  · have h1 := hq q hp
    by_cases hql : (h q).left = some n <;>
    · simp [hr, hp, setParent, setLeft, setRight, utils.is_left_son, h1, h1.symm, hql]
      intro x hx1 hx2
      simp [hx1, Ne.symm hx2]

/-- Memory after `rotate_right` around a node without left child. -/
theorem rotate_right_no_pivot_eval (h : Heap) (root : Option Nat) (n : Nat)
    (hl : (h n).left = none) (hq : ∀ q, (h n).parent = some q → q ≠ n) :
    ∃ m, rotate_right (some n) (some ()) ⟨h, root⟩ = some m ∧
      m.root = (if (h n).parent = none then none else root) ∧
      m.heap n = { h n with parent := none } ∧
      (∀ q, (h n).parent = some q →
        m.heap q = if (h q).left = some n then { h q with left := none }
          else { h q with right := none }) ∧
      (∀ x, x ≠ n → (h n).parent ≠ some x → m.heap x = h x) := by
  unfold rotate_right
  rcases hp : (h n).parent with _ | q
  · simp [hl, hp, setParent]
    intro x hx
    simp [hx]
  · have h1 := hq q hp
    by_cases hql : (h q).left = some n <;>
    · simp [hl, hp, setParent, setLeft, setRight, utils.is_left_son, h1, h1.symm, hql]
      intro x hx1 hx2
      simp [hx1, Ne.symm hx2]

/-- Cutting the link to a node of a tree in memory, and clearing the parent
link of the node, leaves the tree without the subtree of the node, and the
subtree as a tree of its own. -/
theorem detach_wf {m m1 : Mem} {A B : Tr} {n : Nat} {kn : Int} {fs : List Frame}
    (hW : Wf m (plug (.node A n kn B) fs))
    (hroot : m1.root = if (m.heap n).parent = none then none else m.root)
    (hn : m1.heap n = { m.heap n with parent := none })
    (hq : ∀ q, (m.heap n).parent = some q →
      m1.heap q = if (m.heap q).left = some n then { m.heap q with left := none }
        else { m.heap q with right := none })
    (hx : ∀ x, x ≠ n → (m.heap n).parent ≠ some x → m1.heap x = m.heap x) :
    Wf m1 (plug .nil fs) ∧ Models m1.heap none (.node A n kn B) := by
  obtain ⟨hr, hM, hnd⟩ := hW
  rw [models_plug] at hM
  obtain ⟨⟨n1, n2, n3, n4, hA, hB⟩, hctx⟩ := hM
  rw [plug_addrs, nodup_split] at hnd
  obtain ⟨ndt, ndc, ndd⟩ := hnd
  simp only [Tr.addrs, List.mem_append, List.mem_cons] at ndd
  simp only [Tr.addrs, List.nodup_append, List.nodup_cons, List.mem_append, List.mem_cons,
    List.Disjoint] at ndt
  obtain ⟨ndA, ⟨nB, ndB⟩, dAB⟩ := ndt
  have hden : ∀ x, x ∈ A.addrs ∨ x = n ∨ x ∈ B.addrs → top fs ≠ some x :=
    fun x hx e => by have := ndd x hx; have := top_mem e; tauto
  simp only [Tr.ptr_node] at hctx
  have exA : ∀ x ∈ A.addrs, m1.heap x = m.heap x := fun x hxA =>
    hx x (fun e => dAB hxA (Or.inl e)) (n2 ▸ hden x (Or.inl hxA))
  have exB : ∀ x ∈ B.addrs, m1.heap x = m.heap x := fun x hxB =>
    hx x (fun e => nB (e ▸ hxB)) (n2 ▸ hden x (Or.inr (Or.inr hxB)))
  refine ⟨⟨?_, ?_, ?_⟩, ⟨by rw [hn]; exact n1, by rw [hn], by rw [hn]; exact n3,
    by rw [hn]; exact n4, hA.congr_heap exA, hB.congr_heap exB⟩⟩
  · rw [hroot, hr, plug_ptr, plug_ptr, n2]
    cases fs <;> simp [top, rootOf]
  · rw [models_plug]
    refine ⟨trivial, ?_⟩
    refine hctx.rehole ndc (ndd n (by simp)) (fun q hq' => hq q (n2 ▸ hq')) fun x hxc hne => ?_
    refine hx x ?_ (n2 ▸ hne)
    rintro rfl
    have := ndd x (by simp)
    tauto
  · rw [plug_addrs]
    simpa [Tr.addrs] using ndc

theorem detached_of_eval {m m1 : Mem} {A B : Tr} {n : Nat} {kn : Int} {fs : List Frame}
    (hW : Wf m (plug (.node A n kn B) fs))
    (hroot : m1.root = if (m.heap n).parent = none then none else m.root)
    (hn : m1.heap n = { m.heap n with parent := none })
    (hq : ∀ q, (m.heap n).parent = some q →
      m1.heap q = if (m.heap q).left = some n then { m.heap q with left := none }
        else { m.heap q with right := none })
    (hx : ∀ x, x ≠ n → (m.heap n).parent ≠ some x → m1.heap x = m.heap x) :
    Detached m (plug (.node A n kn B) fs) n m1 := by
  obtain ⟨hW1, hD⟩ := detach_wf hW hroot hn hq hx
  obtain ⟨f1, f2, -⟩ := wf_focus hW
  have hnd := hW.2.2
  rw [plug_addrs, nodup_split] at hnd
  refine ⟨fun hp => by rw [hroot, if_pos hp], fun q hp => ⟨by rw [hroot, if_neg (by simp [hp])], ?_⟩,
    hn, hx, plug .nil fs, .node A n kn B, hW1, hD, rfl, fun c hc => ?_, fun a => ?_, fun a ha => ?_⟩
  · have := hq q hp
    by_cases hl : (m.heap q).left = some n
    · rw [if_pos hl] at this ⊢; rw [this]; exact ⟨rfl, rfl⟩
    · rw [if_neg hl] at this ⊢; rw [this]; exact ⟨rfl, rfl⟩
  · rcases hc with hc | hc
    · rw [f1] at hc; simp [Tr.addrs, ptr_mem hc]
    · rw [f2] at hc; simp [Tr.addrs, ptr_mem hc]
  · simp only [plug_addrs, Tr.addrs, List.mem_append, List.append_nil, List.mem_cons,
      List.not_mem_nil]
    tauto
  · have := hnd.2.2 a ha
    simp only [plug_addrs, Tr.addrs, List.mem_append, List.append_nil, List.not_mem_nil]
    tauto

/-- The left rotation around the childless node 10 of the three-node tree,
evaluated: the right link of node 3 and the parent link of node 10 are null
afterwards, the root variable is unchanged. -/
theorem rotate_left_leaf_evaluated :
    ∃ m, rotate_left (some 2) (some ()) ⟨skewed_tree.heap, skewed_tree.root_⟩ = some m ∧
      m.root = some 0 ∧ (m.heap 1).right = none ∧ (m.heap 2).parent = none :=
  ⟨_, rfl, by decide⟩

/-- C21 (a rotation without pivot cuts the node off). In a tree laid out in
memory with consistent links (so its root is present), for every node `n` of
the tree: if `n` has no right child, `rotate_left(n)` returns, writes null into
the slot that held `n` (the root variable when `n` had no parent, else the
child link of its parent that pointed to `n`) and clears the parent link of
`n`, changing nothing else; the tree below the root variable then no longer
contains `n` nor the nodes below it, which form a separate tree. The same
holds for `rotate_right(n)` when `n` has no left child. A splay of `n`, with
either policy, never loses a node. -/
theorem rotation_without_pivot (m : Mem) (T : Tr) (n : Nat) (hW : Wf m T) (hn : n ∈ T.addrs) :
    ((m.heap n).right = none →
      ∃ m1, rotate_left (some n) (some ()) m = some m1 ∧ Detached m T n m1) ∧
    ((m.heap n).left = none →
      ∃ m1, rotate_right (some n) (some ()) m = some m1 ∧ Detached m T n m1) ∧
    (∀ (P : SplayPolicy) (fuel d : Nat), Depth m.heap n d → d < fuel →
      ∃ m1 T1, P.splay fuel (some n) (some ()) m = some m1 ∧ Wf m1 T1 ∧
        T1.addrs = T.addrs) := by
  obtain ⟨A, kn, B, fs, rfl⟩ := exists_plug_of_mem T n hn
  obtain ⟨-, -, f3⟩ := wf_focus hW
  have hqn : ∀ q, (m.heap n).parent = some q → q ≠ n := by
    intro q hq e
    rw [f3] at hq
    have hnd := hW.2.2
    rw [plug_addrs, nodup_split] at hnd
    have h1 := hnd.2.2 n (by simp [Tr.addrs])
    have h2 := top_mem hq
    rw [e] at h2
    tauto
  have hroot : m.root ≠ none := by
    rw [hW.1, plug_ptr]
    obtain ⟨r, hr⟩ := rootOf_some n fs
    simp [hr]
  refine ⟨fun hr => ?_, fun hl => ?_, fun P fuel d hd hf => ?_⟩
  · obtain ⟨m1, e, r1, en, eq, ex⟩ := rotate_left_no_pivot_eval m.heap m.root n hroot hr hqn
    exact ⟨m1, e, detached_of_eval hW r1 en eq ex⟩
  · obtain ⟨m1, e, r1, en, eq, ex⟩ := rotate_right_no_pivot_eval m.heap m.root n hl hqn
    exact ⟨m1, e, detached_of_eval hW r1 en eq ex⟩
  · have hd2 := depth_of_plug m.heap fs A B n kn hW.2.1
    rw [depth_unique hd hd2] at hf
    obtain ⟨m1, e1, A1, B1, hW1, ha, -⟩ := policy_splay_spec P hW hf
    exact ⟨m1, _, e1, hW1, ha⟩

/-- In the three-node tree 5{left:3{right:10}} the node 10 (address 2) has no
child: either rotation around it cuts it off. -/
theorem rotation_without_pivot_witness :
    Wf ⟨skewed_tree.heap, skewed_tree.root_⟩ skewed_shape ∧ 2 ∈ skewed_shape.addrs ∧
    (((skewed_tree.heap 2).right = none → ∃ m1,
      rotate_left (some 2) (some ()) ⟨skewed_tree.heap, skewed_tree.root_⟩ = some m1 ∧
      Detached ⟨skewed_tree.heap, skewed_tree.root_⟩ skewed_shape 2 m1) ∧
    ((skewed_tree.heap 2).left = none → ∃ m1,
      rotate_right (some 2) (some ()) ⟨skewed_tree.heap, skewed_tree.root_⟩ = some m1 ∧
      Detached ⟨skewed_tree.heap, skewed_tree.root_⟩ skewed_shape 2 m1) ∧
    (∀ (P : SplayPolicy) (fuel d : Nat), Depth skewed_tree.heap 2 d → d < fuel →
      ∃ m1 T1, P.splay fuel (some 2) (some ()) ⟨skewed_tree.heap, skewed_tree.root_⟩ =
        some m1 ∧ Wf m1 T1 ∧ T1.addrs = skewed_shape.addrs)) :=
  ⟨inv_skewed_tree.1, by decide,
    rotation_without_pivot _ skewed_shape 2 inv_skewed_tree.1 (by decide)⟩

end Splay
